import Mathlib

/-!
Kernel performance tracer (performance_tracer.c).

A shallow embedding of the call-site statistics module: the hash table of
`perf_trace_entry` chains, `find_or_create_entry`, `update_perf_stats`, the two
kprobe handlers, the report (`perf_proc_show`) and the control file
(`perf_proc_write`).

Conventions of the embedding.
* A C string is represented by its content, the list of the bytes that precede
  the terminating NUL; `strlen` is the length of that list and `strcmp(a, b) == 0`
  is equality of the two lists.
* `unsigned long` is a natural number below `2 ^ 64`; every arithmetic operation
  of the source on such a value is reduced modulo `2 ^ 64`.
* The global variables of the module are the fields of `State`; the spinlock is
  not represented (each operation is one atomic step).
* The outcome of an allocation (`kmalloc` with `GFP_ATOMIC`) is an explicit
  boolean argument of the function that allocates.
-/

namespace PerfTracer

/-! ## Constants -/

/-- `#define HASH_BITS 8`. -/
def HASH_BITS : Nat := 8

/-- `#define MAX_FUNCTION_NAME 64`. -/
def MAX_FUNCTION_NAME : Nat := 64

/-- `#define MAX_TRACE_ENTRIES 1000`. -/
def MAX_TRACE_ENTRIES : Nat := 1000

/-- The largest `unsigned long` of the 64-bit kernel. -/
def ULONG_MAX : Nat := 2 ^ 64 - 1

/-- Reduction of an arithmetic result to `unsigned long`. -/
def wrap64 (n : Nat) : Nat := n % 2 ^ 64

/-! ## Data model -/

/-- The statistics of one call site, `struct perf_trace_entry` (the list node
is the position of the entry in its chain). -/
structure perf_trace_entry where
  function_name : List Nat
  call_count : Nat
  total_time_ns : Nat
  min_time_ns : Nat
  max_time_ns : Nat
deriving DecidableEq, Repr

/-- The context of one call in flight, `struct function_call_context`;
`ktime_t` is a signed count of nanoseconds. -/
structure function_call_context where
  start_time : Int
  function_name : List Nat
deriving DecidableEq, Repr

/-- The part of `struct kprobe` the handlers read. -/
structure kprobe where
  symbol_name : List Nat
deriving DecidableEq, Repr

/-- The part of `struct pt_regs` the handlers use: the register `ax`, which
holds either NULL or the pointer to a call context. -/
structure pt_regs where
  ax : Option function_call_context
deriving DecidableEq, Repr

/-- The hashing primitives of the kernel headers (linux/jhash.h and
linux/hash.h), which are not part of this repository: `jhash key` stands for
`jhash(key, strlen(key), 0)` and `hash_min v` for `hash_min(v, HASH_BITS)`, a
bucket number below `1 << HASH_BITS`. -/
structure KernelHash where
  jhash : List Nat → Nat
  hash_min : Nat → Fin 256

/-- The table declared by `DEFINE_HASHTABLE(perf_hash_table, HASH_BITS)`: 256
buckets, each the chain of its entries from the head on. -/
abbrev HashTable := Fin 256 → List perf_trace_entry

/-- The global variables of the module. -/
structure State where
  perf_hash_table : HashTable
  tracing_enabled : Bool
  trace_count : Nat

/-- The state after `perf_tracer_init`: `hash_init` has emptied every bucket,
`tracing_enabled = true`, `trace_count = 0`. -/
def init_state : State :=
  { perf_hash_table := fun _ => [], tracing_enabled := true, trace_count := 0 }

/-- A pointer to an entry of the table: its bucket and its position in the chain. -/
structure entry_ptr where
  bucket : Fin 256
  pos : Nat
deriving DecidableEq, Repr

/-! ## find_or_create_entry -/

/-- The loop `hash_for_each_possible` of `find_or_create_entry`: the position
of the first entry of the chain whose name compares equal to `func_name`. -/
def chain_find (func_name : List Nat) : List perf_trace_entry → Option Nat
  | [] => none
  | e :: rest =>
    if e.function_name = func_name then some 0
    else (chain_find func_name rest).map (· + 1)

/-- The entry `find_or_create_entry` initialises after a successful `kmalloc`:
the name is copied by `strncpy` with bound `MAX_FUNCTION_NAME - 1`. -/
def new_entry (func_name : List Nat) : perf_trace_entry :=
  { function_name := func_name.take (MAX_FUNCTION_NAME - 1)
    call_count := 0
    total_time_ns := 0
    min_time_ns := ULONG_MAX
    max_time_ns := 0 }

/-- Embedding of `find_or_create_entry`. The result is `none` for the NULL
return (the allocation failed), otherwise the table and the pointer returned.
`hash_add` puts the new entry at the head of its chain. -/
def find_or_create_entry (K : KernelHash) (kmalloc_ok : Bool) (func_name : List Nat)
    (tbl : HashTable) : Option (HashTable × entry_ptr) :=
  let hash_key := K.jhash func_name
  let b := K.hash_min hash_key
  match chain_find func_name (tbl b) with
  | some i => some (tbl, { bucket := b, pos := i })
  | none =>
    if kmalloc_ok then
      some (Function.update tbl b (new_entry func_name :: tbl b), { bucket := b, pos := 0 })
    else none

/-! ## update_perf_stats -/

/-- The assignments of `update_perf_stats` to the entry it found. -/
def bump (duration_ns : Nat) (e : perf_trace_entry) : perf_trace_entry :=
  { function_name := e.function_name
    call_count := wrap64 (e.call_count + 1)
    total_time_ns := wrap64 (e.total_time_ns + duration_ns)
    min_time_ns := if duration_ns < e.min_time_ns then duration_ns else e.min_time_ns
    max_time_ns := if duration_ns > e.max_time_ns then duration_ns else e.max_time_ns }

/-- Application of `f` to the entry at position `i` of a chain. -/
def chain_modify (f : perf_trace_entry → perf_trace_entry) :
    Nat → List perf_trace_entry → List perf_trace_entry
  | _, [] => []
  | 0, e :: rest => f e :: rest
  | i + 1, e :: rest => e :: chain_modify f i rest

/-- A write through an entry pointer. -/
def modify_at (tbl : HashTable) (p : entry_ptr) (f : perf_trace_entry → perf_trace_entry) :
    HashTable :=
  Function.update tbl p.bucket (chain_modify f p.pos (tbl p.bucket))

/-- Embedding of `update_perf_stats`. -/
def update_perf_stats (K : KernelHash) (kmalloc_ok : Bool) (func_name : List Nat)
    (duration_ns : Nat) (s : State) : State :=
  if !s.tracing_enabled || s.trace_count >= MAX_TRACE_ENTRIES then s
  else
    match find_or_create_entry K kmalloc_ok func_name s.perf_hash_table with
    | none => s
    | some (tbl, p) =>
      { perf_hash_table := modify_at tbl p (bump duration_ns)
        tracing_enabled := s.tracing_enabled
        trace_count := wrap64 (s.trace_count + 1) }

/-! ## The kprobe handlers -/

/-- The conversion of the signed result of `ktime_to_ns` to `unsigned long`. -/
def to_ulong (x : Int) : Nat := (x % 2 ^ 64).toNat

/-- Embedding of `kprobe_pre_handler`; `now` is the value of `ktime_get()`.
The handler always returns 0; the result here is the register file it leaves. -/
def kprobe_pre_handler (kmalloc_ok : Bool) (now : Int) (p : kprobe) (regs : pt_regs) : pt_regs :=
  if kmalloc_ok then
    { ax := some { start_time := now
                   function_name := p.symbol_name.take (MAX_FUNCTION_NAME - 1) } }
  else regs

/-- Embedding of `kprobe_post_handler`; `now` is the value of `ktime_get()` and
`kmalloc_ok` the outcome of the allocation inside `find_or_create_entry`. -/
def kprobe_post_handler (K : KernelHash) (kmalloc_ok : Bool) (now : Int) (regs : pt_regs)
    (s : State) : State :=
  match regs.ax with
  | none => s
  | some ctx =>
    let end_time := now
    let duration_ns := to_ulong (end_time - ctx.start_time)
    update_perf_stats K kmalloc_ok ctx.function_name duration_ns s

/-! ## The report -/

/-- One line of the table printed by `perf_proc_show`. -/
structure report_row where
  name : List Nat
  count : Nat
  total : Nat
  avg : Nat
  min : Nat
  max : Nat
deriving DecidableEq, Repr

/-- The values `perf_proc_show` prints for one entry. -/
def show_entry (entry : perf_trace_entry) : report_row :=
  let avg_time := if entry.call_count > 0 then entry.total_time_ns / entry.call_count else 0
  { name := entry.function_name
    count := entry.call_count
    total := entry.total_time_ns
    avg := avg_time
    min := if entry.min_time_ns = ULONG_MAX then 0 else entry.min_time_ns
    max := entry.max_time_ns }

/-- The entries in the order of `hash_for_each`: bucket by bucket, each chain
from its head. -/
def all_entries (tbl : HashTable) : List perf_trace_entry :=
  (List.finRange 256).flatMap tbl

/-- What `perf_proc_show` prints, without the fixed text: the tracing status,
the total count and the rows. -/
structure report where
  status : Bool
  total_traces : Nat
  rows : List report_row
deriving DecidableEq, Repr

/-- Embedding of `perf_proc_show`. -/
def perf_proc_show (s : State) : report :=
  { status := s.tracing_enabled
    total_traces := s.trace_count
    rows := (all_entries s.perf_hash_table).map show_entry }

/-! ## The control file -/

/-- The comparison `strncmp(s1, s2, n) == 0` on two byte buffers; a byte past
the end of a list reads as NUL. -/
def strncmp_eq : List Nat → List Nat → Nat → Bool
  | _, _, 0 => true
  | s1, s2, n + 1 =>
    let c1 := s1.headD 0
    let c2 := s2.headD 0
    if c1 ≠ c2 then false
    else if c1 = 0 then true
    else strncmp_eq s1.tail s2.tail n

/-- The error numbers `perf_proc_write` returns. -/
def EINVAL : Int := 22

/-- The error number for a faulting user buffer. -/
def EFAULT : Int := 14

/-- Embedding of `perf_proc_write`: `buffer` holds the bytes readable at the user
address and `count` is the length of the write; `copy_from_user` fails when
fewer than `count` bytes can be read. The result is the return value and the
state left. -/
def perf_proc_write (buffer : List Nat) (count : Nat) (s : State) : Int × State :=
  if count >= 16 then (-EINVAL, s)
  else if buffer.length < count then (-EFAULT, s)
  else
    let cmd := buffer.take count ++ [0]
    if strncmp_eq cmd [49] 1 then
      ((count : Int), { s with tracing_enabled := true })
    else if strncmp_eq cmd [48] 1 then
      ((count : Int), { s with tracing_enabled := false })
    else if strncmp_eq cmd [99, 108, 101, 97, 114] 5 then
      ((count : Int), { s with perf_hash_table := fun _ => [], trace_count := 0 })
    else ((count : Int), s)

/-- The bytes of the command "1". -/
def cmd_enable : List Nat := [49]

/-- The bytes of the command "0". -/
def cmd_disable : List Nat := [48]

/-- The bytes of the command "clear". -/
def cmd_clear : List Nat := [99, 108, 101, 97, 114]

/-! ## Observations used by the statements -/

/-- The event budget left. -/
def events_remaining (s : State) : Nat := MAX_TRACE_ENTRIES - s.trace_count

/-- The entries of the table whose stored name is `name`. -/
def entries_named (s : State) (name : List Nat) : List perf_trace_entry :=
  (all_entries s.perf_hash_table).filter (fun e => e.function_name = name)

/-- The calls `update_perf_stats(name, d)` for the pairs `(kmalloc outcome, d)`
of `calls`, in order. -/
def record_all (K : KernelHash) (name : List Nat) (calls : List (Bool × Nat)) (s : State) :
    State :=
  calls.foldl (fun st c => update_perf_stats K c.1 name c.2 st) s

/-- The entry the lookup loop of `find_or_create_entry` returns for `name`. -/
def found_entry (K : KernelHash) (s : State) (name : List Nat) : Option perf_trace_entry :=
  (s.perf_hash_table (K.hash_min (K.jhash name))).find? (fun e => e.function_name = name)

/-- A sequence of calls of `update_perf_stats`, each with the outcome of its
allocation, its name and its duration. -/
def run_updates (K : KernelHash) (calls : List (Bool × List Nat × Nat)) (s : State) : State :=
  calls.foldl (fun st c => update_perf_stats K c.1 c.2.1 c.2.2 st) s

/-- A sequence of calls of `kprobe_post_handler`, each with the outcome of its
allocation, its clock value and its registers. -/
def run_ends (K : KernelHash) (ends : List (Bool × Int × pt_regs)) (s : State) : State :=
  ends.foldl (fun st c => kprobe_post_handler K c.1 c.2.1 c.2.2 st) s

/-- What can happen to the module between two observations. A `call` is one
probed call: `kprobe_pre_handler` at time `t_begin` for the probe of `symbol`
(registers with `ax` NULL on entry), then `kprobe_post_handler` at time `t_end`
on the registers the entry handler left; `ok_ctx` and `ok_entry` are the
outcomes of the two allocations. A `write` is one write to the control file. -/
inductive Event where
  | call (ok_ctx ok_entry : Bool) (symbol : List Nat) (t_begin t_end : Int)
  | write (buffer : List Nat) (count : Nat)
deriving DecidableEq, Repr

/-- The effect of one event on the state; the entry handler does not touch the
state, so the probed call acts when its exit handler runs. -/
def step (K : KernelHash) (s : State) : Event → State
  | .call ok_ctx ok_entry symbol t_begin t_end =>
    kprobe_post_handler K ok_entry t_end
      (kprobe_pre_handler ok_ctx t_begin { symbol_name := symbol } { ax := none }) s
  | .write buffer count => (perf_proc_write buffer count s).2

/-- The state after a sequence of events. -/
def run (K : KernelHash) (s : State) (evs : List Event) : State :=
  evs.foldl (step K) s

/-- The states the module can be in: the initial state and what events make of it. -/
inductive Reachable (K : KernelHash) : State → Prop where
  | init : Reachable K init_state
  | step (s : State) (ev : Event) : Reachable K s → Reachable K (step K s ev)

/-- The entry after the updates for the durations `ds`, in order. -/
def bump_all (ds : List Nat) (e : perf_trace_entry) : perf_trace_entry :=
  ds.foldl (fun acc d => bump d acc) e

/-- A stand-in for the kernel hashing primitives, for evaluating statements at
concrete inputs: the sum of the bytes, reduced to a bucket number. -/
def sample_hash : KernelHash :=
  { jhash := fun key => key.sum
    hash_min := fun v => ⟨v % 256, Nat.mod_lt v (by decide)⟩ }

/-- The bytes of the name "foo". -/
def name_foo : List Nat := [102, 111, 111]

/-- The initial state after the write of "0": tracing is off. -/
def disabled_state : State := (perf_proc_write cmd_disable 1 init_state).2

/-- A name of 63 bytes, all of them the letter a. -/
def long_stem : List Nat := List.replicate 63 97

/-- The names stored in bucket `b`, from the head of the chain on. -/
def bucket_names (tbl : HashTable) (b : Fin 256) : List (List Nat) :=
  (tbl b).map (fun e => e.function_name)

/-- Every stored name lies in the bucket its hash selects, and no chain holds
a name twice. -/
def well_placed (K : KernelHash) (tbl : HashTable) : Prop :=
  (∀ b, ∀ n ∈ bucket_names tbl b, K.hash_min (K.jhash n) = b)
    ∧ ∀ b, (bucket_names tbl b).Nodup

/-- The addition `total_time_ns += duration_ns` of the event does not exceed
ULONG_MAX, whichever entry of the name it is applied to. -/
def no_overflow (s : State) : Event → Prop
  | .call _ _ symbol t_begin t_end =>
    ∀ e ∈ all_entries s.perf_hash_table,
      e.function_name = symbol.take (MAX_FUNCTION_NAME - 1) →
        e.total_time_ns + to_ulong (t_end - t_begin) ≤ ULONG_MAX
  | .write _ _ => True

/-- The states reached from the initial state by events none of which made a
total_time_ns overflow. -/
inductive ReachableNoOverflow (K : KernelHash) : State → Prop where
  | init : ReachableNoOverflow K init_state
  | step (s : State) (ev : Event) :
      ReachableNoOverflow K s → no_overflow s ev → ReachableNoOverflow K (step K s ev)

/-- The bounds on an entry that the updates keep while no total overflows: the
total lies between count times the minimum and count times the maximum, and the
count is at most `tc`. -/
def entry_bounds (tc : Nat) (e : perf_trace_entry) : Prop :=
  e.min_time_ns * e.call_count ≤ e.total_time_ns
    ∧ e.total_time_ns ≤ e.max_time_ns * e.call_count
    ∧ e.call_count ≤ tc

/-- The entry of "foo" after two events of 150 and 30 nanoseconds. -/
def foo_twice : perf_trace_entry :=
  { function_name := name_foo
    call_count := 2
    total_time_ns := 180
    min_time_ns := 30
    max_time_ns := 150 }

/-- The entry an entry pointer refers to. -/
def entry_at (tbl : HashTable) (p : entry_ptr) : Option perf_trace_entry :=
  (tbl p.bucket)[p.pos]?

/-- The division of two unsigned long values, undefined for the divisor 0. -/
def checked_div (a b : Nat) : Option Nat :=
  if b = 0 then none else some (a / b)

/-- The values `perf_proc_show` prints for one entry, with the division of the
source as a partial operation: `none` stands for a division by zero. -/
def show_entry_checked (entry : perf_trace_entry) : Option report_row :=
  (if entry.call_count > 0 then checked_div entry.total_time_ns entry.call_count
    else some 0).map fun avg_time =>
    { name := entry.function_name
      count := entry.call_count
      total := entry.total_time_ns
      avg := avg_time
      min := if entry.min_time_ns = ULONG_MAX then 0 else entry.min_time_ns
      max := entry.max_time_ns }

/-- The loop `hash_for_each` of `perf_proc_show` over the entries, with the
division as a partial operation: the rows, unless one of them divides by zero. -/
def collect_rows : List perf_trace_entry → Option (List report_row)
  | [] => some []
  | e :: rest =>
    match show_entry_checked e, collect_rows rest with
    | some row, some rows => some (row :: rows)
    | _, _ => none

/-- The rows of `perf_proc_show` with the division as a partial operation. -/
def rows_checked (s : State) : Option (List report_row) :=
  collect_rows (all_entries s.perf_hash_table)

/-- The sum of call_count over all entries of the table. -/
def count_sum (tbl : HashTable) : Nat :=
  ((all_entries tbl).map (fun e => e.call_count)).sum

/-- Three probed calls followed by a disable; the state they lead to from the
initial state serves as a concrete reachable state. -/
def sample_events : List Event :=
  [.call true true name_foo 0 150, .call true true [97] 160 170,
   .call true true name_foo 200 230, .write cmd_disable 1]

/-- A call of `perf_proc_show` as a step of the module: its return value, what
it prints and the global variables after it. The function assigns to no global
variable. -/
def perf_proc_show_run (s : State) : Int × report × State :=
  (0, perf_proc_show s, s)

/-- `sizeof(cmd)` for the local array `char cmd[16]` of `perf_proc_write`. -/
def CMD_SIZE : Nat := 16

/-- The bytes of `cmd` that `perf_proc_write` has assigned after
`copy_from_user(cmd, buffer, count)` and `cmd[count] = 0`, from index 0 on. -/
def cmd_after_copy (buffer : List Nat) (count : Nat) : List Nat :=
  buffer.take count ++ [0]

/-- A name of 64 bytes, all of them the letter a. -/
def long_name : List Nat := List.replicate 64 97

/-- The test of line 85 of `update_perf_stats`, made before the lock is taken:
whether the call goes on to `spin_lock_irqsave`. -/
def update_guard (s : State) : Bool :=
  !(!s.tracing_enabled || s.trace_count >= MAX_TRACE_ENTRIES)

/-- The part of `update_perf_stats` between `spin_lock_irqsave` and
`spin_unlock_irqrestore` (lines 88 to 104), which does not read
`tracing_enabled` or compare `trace_count` again. -/
def update_locked (K : KernelHash) (kmalloc_ok : Bool) (func_name : List Nat)
    (duration_ns : Nat) (s : State) : State :=
  match find_or_create_entry K kmalloc_ok func_name s.perf_hash_table with
  | none => s
  | some (tbl, p) =>
    { perf_hash_table := modify_at tbl p (bump duration_ns)
      tracing_enabled := s.tracing_enabled
      trace_count := wrap64 (s.trace_count + 1) }

/-- Two calls of `update_perf_stats` in two execution contexts, both for
`func_name`, scheduled so that each makes the test of line 85 before either has
taken the lock; the lock then lets the two bodies run one after the other. -/
def overlapping_pair (K : KernelHash) (func_name : List Nat) (d1 d2 : Nat) (ok1 ok2 : Bool)
    (s : State) : State :=
  let passed1 := update_guard s
  let passed2 := update_guard s
  let s1 := if passed1 then update_locked K ok1 func_name d1 s else s
  if passed2 then update_locked K ok2 func_name d2 s1 else s1

/-- The state after 999 recorded calls for "foo" from the initial state. -/
def state_999 : State :=
  record_all sample_hash name_foo ((true, 5) :: List.replicate 998 (false, 5)) init_state

/-- Probed calls of "foo", of "oof" (which the stand-in hash puts in the bucket
of "foo"), of "foo" again, of "a" and of two identifiers of 64 bytes with the
same first 63 bytes. -/
def busy_events : List Event :=
  [.call true true name_foo 0 150, .call true true [111, 111, 102] 160 170,
   .call true true name_foo 200 230, .call true true [97] 240 250,
   .call true true (long_stem ++ [98]) 300 310, .call true true (long_stem ++ [99]) 320 330]

end PerfTracer

/-! ## The character device (char_device.c) -/

namespace CharDevice

/-- `#define KBUF_SZ 256`. -/
def KBUF_SZ : Nat := 256

/-- The error number for a faulting user buffer. -/
def EFAULT : Int := 14

/-- The conversion of a signed 64-bit value to `size_t`. -/
def to_size (x : Int) : Nat := (x % 2 ^ 64).toNat

/-- The global variables of the driver: the 256 bytes of `kbuf` and `kbuf_len`. -/
structure cd_state where
  kbuf : List Nat
  kbuf_len : Nat
deriving DecidableEq, Repr

/-- The state `cd_init` leaves: `kbuf` holds "hello\n" followed by NUL bytes. -/
def cd_init_state : cd_state :=
  { kbuf := [104, 101, 108, 108, 111, 10] ++ List.replicate 250 0, kbuf_len := 6 }

/-- What a call of `cd_read` leaves: its return value, the bytes it stored in
the user buffer and the file offset. -/
structure read_result where
  ret : Int
  data : List Nat
  ppos : Int
deriving DecidableEq, Repr

/-- What a call of `cd_write` leaves: its return value, the driver state and
the file offset. -/
structure write_result where
  ret : Int
  st : cd_state
  ppos : Int
deriving DecidableEq, Repr

/-- Embedding of `cd_read`: `n` is the length asked for, `ppos` the file offset
and `ucap` the number of bytes that can be written at the user address
(`copy_to_user` fails when it is smaller than the length to copy, after
storing what fits). -/
def cd_read (ucap : Nat) (n : Nat) (ppos : Int) (st : cd_state) : read_result :=
  let copy := min n (to_size ((st.kbuf_len : Int) - (to_size ppos : Int)))
  if to_size ppos ≥ st.kbuf_len then { ret := 0, data := [], ppos := ppos }
  else if copy ≠ 0 ∧ ucap < copy then
    { ret := -EFAULT, data := (st.kbuf.drop (to_size ppos)).take ucap, ppos := ppos }
  else
    { ret := (copy : Int), data := (st.kbuf.drop (to_size ppos)).take copy,
      ppos := ppos + (copy : Int) }

/-- Embedding of `cd_write`: `ubuf` holds the bytes readable at the user
address, `n` is the length of the write and `ppos` the file offset;
`copy_from_user` fails when fewer than the bytes to copy can be read, after
copying what it could and filling the rest with NUL bytes. -/
def cd_write (ubuf : List Nat) (n : Nat) (ppos : Int) (st : cd_state) : write_result :=
  let copy := min n (KBUF_SZ - 1)
  if ubuf.length < copy then
    { ret := -EFAULT
      st := { kbuf := ubuf ++ List.replicate (copy - ubuf.length) 0 ++ st.kbuf.drop copy
              kbuf_len := st.kbuf_len }
      ppos := ppos }
  else
    { ret := (copy : Int)
      st := { kbuf := ubuf.take copy ++ [0] ++ st.kbuf.drop (copy + 1), kbuf_len := copy }
      ppos := 0 }

/-- The bytes of "hi". -/
def sample_data : List Nat := [104, 105]

/-- A write of 300 bytes, all of them the letter a. -/
def long_data : List Nat := List.replicate 300 97

end CharDevice

/-! ## The fragmentation analysis (buddy_allocator.c) -/

namespace BuddyAllocator

/-- The largest `unsigned long` of the 64-bit kernel. -/
def ULONG_MAX : Nat := 2 ^ 64 - 1

/-- Reduction of an arithmetic result to `unsigned long`. -/
def wrap64 (n : Nat) : Nat := n % 2 ^ 64

/-- The subtraction of two `unsigned long` values. -/
def usub (a b : Nat) : Nat := (a + 2 ^ 64 - b) % 2 ^ 64

/-- The variables `total_free` and `largest_block` of `analyze_fragmentation`. -/
structure scan_state where
  total_free : Nat
  largest_block : Nat
deriving DecidableEq, Repr

/-- One pass through the body of the loop over the orders, for the order
`order` and the value `free_count` of `zone->free_area[order].nr_free`. -/
def scan_order (order free_count : Nat) (st : scan_state) : scan_state :=
  let free_pages := wrap64 (free_count * 2 ^ order)
  { total_free := wrap64 (st.total_free + free_pages)
    largest_block :=
      if free_count > 0 ∧ order > st.largest_block then order else st.largest_block }

/-- The loop `for (order = ...; order < MAX_ORDER; order++)` from the order
`order` on; the list holds the values of `nr_free` of the orders still to do. -/
def scan : Nat → List Nat → scan_state → scan_state
  | _, [], st => st
  | order, free_count :: rest, st => scan (order + 1) rest (scan_order order free_count st)

/-- What `analyze_fragmentation` prints for one zone: the total of free pages,
the largest order with a free block, the size of such a block and, when the
total is positive, the fragmentation index. -/
structure zone_report where
  total_free : Nat
  largest_block : Nat
  largest_pages : Nat
  fragmentation : Option Nat
deriving DecidableEq, Repr

/-- Embedding of the body of `for_each_populated_zone` in
`analyze_fragmentation`; `nr_free` lists `zone->free_area[order].nr_free` for
the orders 0 to MAX_ORDER - 1. -/
def analyze_zone (nr_free : List Nat) : zone_report :=
  let st := scan 0 nr_free { total_free := 0, largest_block := 0 }
  { total_free := st.total_free
    largest_block := st.largest_block
    largest_pages := wrap64 (2 ^ st.largest_block)
    fragmentation :=
      if st.total_free > 0 then
        some (usub 100 (wrap64 (100 * wrap64 (2 ^ st.largest_block)) / st.total_free))
      else none }

/-- The number of free pages of the orders from `order` on, without reduction
modulo `2 ^ 64`. -/
def exact_free : Nat → List Nat → Nat
  | _, [] => 0
  | order, free_count :: rest => free_count * 2 ^ order + exact_free (order + 1) rest

/-- A zone with 3 free pages, 1 free block of order 2 and 2 of order 4. -/
def sample_zone : List Nat := [3, 0, 1, 0, 2, 0, 0, 0, 0, 0, 0]

end BuddyAllocator

namespace PerfTracer

/-! ## Lemmas on chains and on the table -/

theorem flatMap_single {ι α : Type} [DecidableEq ι] (l : List ι) (g : ι → List α) (b : ι)
    (hnd : l.Nodup) (hb : b ∈ l) (hg : ∀ i, i ≠ b → g i = []) : l.flatMap g = g b := by
  induction l with
  | nil => cases hb
  | cons a t ih =>
    rw [List.flatMap_cons]
    rw [List.nodup_cons] at hnd
    by_cases hab : a = b
    · subst hab
      have ht : t.flatMap g = [] := by
        rw [List.flatMap_eq_nil_iff]
        intro x hx
        exact hg x (fun hxa => hnd.1 (hxa ▸ hx))
      rw [ht, List.append_nil]
    · have hbt : b ∈ t := by
        rcases List.mem_cons.mp hb with h | h
        · exact absurd h.symm hab
        · exact h
      rw [hg a hab, List.nil_append]
      exact ih hnd.2 hbt

theorem mem_all_entries (tbl : HashTable) (e : perf_trace_entry) :
    e ∈ all_entries tbl ↔ ∃ b, e ∈ tbl b := by
  unfold all_entries
  rw [List.mem_flatMap]
  constructor
  · rintro ⟨b, _, h⟩
    exact ⟨b, h⟩
  · rintro ⟨b, h⟩
    exact ⟨b, List.mem_finRange b, h⟩

theorem chain_find_none (name : List Nat) (chain : List perf_trace_entry) :
    chain_find name chain = none ↔ ∀ e ∈ chain, e.function_name ≠ name := by
  induction chain with
  | nil => simp [chain_find]
  | cons e rest ih =>
    by_cases h : e.function_name = name
    · simp [chain_find, h]
    · simp [chain_find, h, ih]

theorem chain_find_head (name : List Nat) (e : perf_trace_entry) (rest : List perf_trace_entry)
    (h : e.function_name = name) : chain_find name (e :: rest) = some 0 := by
  simp [chain_find, h]

theorem entries_named_nil (s : State) (name : List Nat) :
    entries_named s name = [] ↔ ∀ b, ∀ e ∈ s.perf_hash_table b, e.function_name ≠ name := by
  unfold entries_named
  rw [List.filter_eq_nil_iff]
  constructor
  · intro h b e he
    have := h e ((mem_all_entries _ e).mpr ⟨b, he⟩)
    simpa using this
  · intro h e he
    obtain ⟨b, hb⟩ := (mem_all_entries _ e).mp he
    simpa using h b e hb

/-- The entries named `name` of a table all of whose buckets but `b` hold none. -/
theorem entries_named_bucket (s : State) (name : List Nat) (b : Fin 256)
    (h : ∀ i, i ≠ b → ∀ e ∈ s.perf_hash_table i, e.function_name ≠ name) :
    entries_named s name
      = (s.perf_hash_table b).filter (fun e => e.function_name = name) := by
  unfold entries_named all_entries
  rw [List.filter_flatMap]
  refine flatMap_single _ _ b (List.nodup_finRange 256) (List.mem_finRange b) ?_
  intro i hi
  rw [List.filter_eq_nil_iff]
  intro e he
  simpa using h i hi e he

/-! ## The three outcomes of update_perf_stats -/

/-- A call made while tracing is off or the budget is used up returns at once. -/
theorem update_dropped (K : KernelHash) (ok : Bool) (name : List Nat) (d : Nat) (s : State)
    (h : s.tracing_enabled = false ∨ MAX_TRACE_ENTRIES ≤ s.trace_count) :
    update_perf_stats K ok name d s = s := by
  unfold update_perf_stats
  rcases h with h | h
  · simp [h]
  · simp [h]

/-- A call that finds its entry at the head of the chain. -/
theorem update_head (K : KernelHash) (ok : Bool) (name : List Nat) (d : Nat) (s : State)
    (e : perf_trace_entry) (rest : List perf_trace_entry)
    (hen : s.tracing_enabled = true) (hbud : s.trace_count < MAX_TRACE_ENTRIES)
    (hb : s.perf_hash_table (K.hash_min (K.jhash name)) = e :: rest)
    (hname : e.function_name = name) :
    update_perf_stats K ok name d s =
      { perf_hash_table :=
          Function.update s.perf_hash_table (K.hash_min (K.jhash name)) (bump d e :: rest)
        tracing_enabled := true
        trace_count := s.trace_count + 1 } := by
  have hw : wrap64 (s.trace_count + 1) = s.trace_count + 1 := by
    unfold wrap64
    unfold MAX_TRACE_ENTRIES at hbud
    exact Nat.mod_eq_of_lt (by omega)
  unfold update_perf_stats find_or_create_entry
  simp only [hen, Bool.not_true, Bool.false_or, decide_eq_true_eq, ge_iff_le,
    Nat.not_le.mpr hbud, if_false, hb, chain_find_head name e rest hname, modify_at,
    chain_modify, hw]

/-- A call for a name absent from its chain, the allocation succeeding. -/
theorem update_new (K : KernelHash) (name : List Nat) (d : Nat) (s : State)
    (hen : s.tracing_enabled = true) (hbud : s.trace_count < MAX_TRACE_ENTRIES)
    (hb : chain_find name (s.perf_hash_table (K.hash_min (K.jhash name))) = none) :
    update_perf_stats K true name d s =
      { perf_hash_table :=
          Function.update s.perf_hash_table (K.hash_min (K.jhash name))
            (bump d (new_entry name) :: s.perf_hash_table (K.hash_min (K.jhash name)))
        tracing_enabled := true
        trace_count := s.trace_count + 1 } := by
  have hw : wrap64 (s.trace_count + 1) = s.trace_count + 1 := by
    unfold wrap64
    unfold MAX_TRACE_ENTRIES at hbud
    exact Nat.mod_eq_of_lt (by omega)
  unfold update_perf_stats find_or_create_entry
  simp only [hen, Bool.not_true, Bool.false_or, decide_eq_true_eq, ge_iff_le,
    Nat.not_le.mpr hbud, if_false, hb, modify_at, chain_modify, hw, if_true]
  simp [chain_modify]

/-- A call for a name absent from its chain, the allocation failing. -/
theorem update_alloc_failed (K : KernelHash) (name : List Nat) (d : Nat) (s : State)
    (hb : chain_find name (s.perf_hash_table (K.hash_min (K.jhash name))) = none) :
    update_perf_stats K false name d s = s := by
  unfold update_perf_stats find_or_create_entry
  simp only [hb]
  split <;> simp

/-! ## Repeated updates of one entry -/

theorem bump_all_name (ds : List Nat) (e : perf_trace_entry) :
    (bump_all ds e).function_name = e.function_name := by
  induction ds generalizing e with
  | nil => rfl
  | cons d t ih =>
    show (bump_all t (bump d e)).function_name = e.function_name
    rw [ih]
    rfl

theorem bump_all_count (ds : List Nat) (e : perf_trace_entry)
    (h : e.call_count + ds.length < 2 ^ 64) :
    (bump_all ds e).call_count = e.call_count + ds.length := by
  induction ds generalizing e with
  | nil => rfl
  | cons d t ih =>
    show (bump_all t (bump d e)).call_count = _
    have hl : (d :: t).length = t.length + 1 := rfl
    rw [hl] at h ⊢
    have hc : (bump d e).call_count = e.call_count + 1 := by
      show wrap64 (e.call_count + 1) = _
      unfold wrap64
      exact Nat.mod_eq_of_lt (by omega)
    rw [ih (bump d e) (by rw [hc]; omega), hc]
    omega

theorem bump_all_total (ds : List Nat) (e : perf_trace_entry) :
    (bump_all ds e).total_time_ns = wrap64 (e.total_time_ns + ds.sum) ∨ ds = [] := by
  induction ds generalizing e with
  | nil => right; rfl
  | cons d t ih =>
    left
    show (bump_all t (bump d e)).total_time_ns = _
    rcases ih (bump d e) with h | h
    · rw [h]
      show wrap64 (wrap64 (e.total_time_ns + d) + t.sum) = _
      unfold wrap64
      rw [List.sum_cons, Nat.mod_add_mod, Nat.add_assoc]
    · subst h
      show wrap64 (e.total_time_ns + d) = _
      simp

theorem bump_all_min (ds : List Nat) (e : perf_trace_entry) :
    (bump_all ds e).min_time_ns ≤ e.min_time_ns
      ∧ (∀ d ∈ ds, (bump_all ds e).min_time_ns ≤ d)
      ∧ ((bump_all ds e).min_time_ns = e.min_time_ns ∨ (bump_all ds e).min_time_ns ∈ ds) := by
  induction ds generalizing e with
  | nil => simp [bump_all]
  | cons d t ih =>
    obtain ⟨h1, h2, h3⟩ := ih (bump d e)
    have hm : (bump d e).min_time_ns = if d < e.min_time_ns then d else e.min_time_ns := rfl
    have hle : (bump d e).min_time_ns ≤ e.min_time_ns := by
      rw [hm]; split <;> omega
    have hld : (bump d e).min_time_ns ≤ d := by
      rw [hm]; split <;> omega
    have hcase : (bump d e).min_time_ns = e.min_time_ns ∨ (bump d e).min_time_ns = d := by
      rw [hm]; split
      · right; rfl
      · left; rfl
    show (bump_all t (bump d e)).min_time_ns ≤ e.min_time_ns
      ∧ (∀ x ∈ d :: t, (bump_all t (bump d e)).min_time_ns ≤ x)
      ∧ ((bump_all t (bump d e)).min_time_ns = e.min_time_ns
          ∨ (bump_all t (bump d e)).min_time_ns ∈ d :: t)
    refine ⟨le_trans h1 hle, ?_, ?_⟩
    · intro x hx
      rcases List.mem_cons.mp hx with hx | hx
      · subst hx; exact le_trans h1 hld
      · exact h2 x hx
    · rcases h3 with h3 | h3
      · rcases hcase with hc | hc
        · left; rw [h3, hc]
        · right; rw [h3, hc]; exact List.mem_cons_self _ _
      · right; exact List.mem_cons_of_mem _ h3

theorem bump_all_max (ds : List Nat) (e : perf_trace_entry) :
    e.max_time_ns ≤ (bump_all ds e).max_time_ns
      ∧ (∀ d ∈ ds, d ≤ (bump_all ds e).max_time_ns)
      ∧ ((bump_all ds e).max_time_ns = e.max_time_ns ∨ (bump_all ds e).max_time_ns ∈ ds) := by
  induction ds generalizing e with
  | nil => simp [bump_all]
  | cons d t ih =>
    obtain ⟨h1, h2, h3⟩ := ih (bump d e)
    have hm : (bump d e).max_time_ns = if d > e.max_time_ns then d else e.max_time_ns := rfl
    have hle : e.max_time_ns ≤ (bump d e).max_time_ns := by
      rw [hm]; split <;> omega
    have hld : d ≤ (bump d e).max_time_ns := by
      rw [hm]; split <;> omega
    have hcase : (bump d e).max_time_ns = e.max_time_ns ∨ (bump d e).max_time_ns = d := by
      rw [hm]; split
      · right; rfl
      · left; rfl
    show e.max_time_ns ≤ (bump_all t (bump d e)).max_time_ns
      ∧ (∀ x ∈ d :: t, x ≤ (bump_all t (bump d e)).max_time_ns)
      ∧ ((bump_all t (bump d e)).max_time_ns = e.max_time_ns
          ∨ (bump_all t (bump d e)).max_time_ns ∈ d :: t)
    refine ⟨le_trans hle h1, ?_, ?_⟩
    · intro x hx
      rcases List.mem_cons.mp hx with hx | hx
      · subst hx; exact le_trans hld h1
      · exact h2 x hx
    · rcases h3 with h3 | h3
      · rcases hcase with hc | hc
        · left; rw [h3, hc]
        · right; rw [h3, hc]; exact List.mem_cons_self _ _
      · right; exact List.mem_cons_of_mem _ h3

/-- Repeated calls for the name of the entry at the head of its chain update
that entry and nothing else, whatever the allocator would answer. -/
theorem record_all_head (K : KernelHash) (name : List Nat) (calls : List (Bool × Nat))
    (s : State) (e : perf_trace_entry) (rest : List perf_trace_entry)
    (hen : s.tracing_enabled = true)
    (hbud : s.trace_count + calls.length ≤ MAX_TRACE_ENTRIES)
    (hb : s.perf_hash_table (K.hash_min (K.jhash name)) = e :: rest)
    (hname : e.function_name = name) :
    record_all K name calls s =
      { perf_hash_table :=
          Function.update s.perf_hash_table (K.hash_min (K.jhash name))
            (bump_all (calls.map Prod.snd) e :: rest)
        tracing_enabled := true
        trace_count := s.trace_count + calls.length } := by
  induction calls generalizing s e with
  | nil =>
    cases s with
    | mk tbl en tc =>
      simp only [record_all, List.foldl_nil, List.map_nil, bump_all, List.length_nil,
        Nat.add_zero] at hen hb ⊢
      subst hen
      rw [← hb, Function.update_eq_self]
  | cons c t ih =>
    have hl : (c :: t).length = t.length + 1 := rfl
    rw [hl] at hbud
    have hstep := update_head K c.1 name c.2 s e rest hen (by omega) hb hname
    show record_all K name t (update_perf_stats K c.1 name c.2 s) = _
    rw [hstep]
    rw [ih _ (bump c.2 e) rfl (by simp only []; omega) (by simp) (by simpa [bump] using hname)]
    simp only [Function.update_idem, List.map_cons, hl]
    congr 1
    omega

theorem first_record (name : List Nat) (d : Nat) (hd : d ≤ ULONG_MAX) :
    bump d (new_entry name) =
      { function_name := name.take (MAX_FUNCTION_NAME - 1)
        call_count := 1
        total_time_ns := d
        min_time_ns := d
        max_time_ns := d } := by
  have hlt : d < 2 ^ 64 := by
    unfold ULONG_MAX at hd
    omega
  have h1 : wrap64 (0 + 1) = 1 := by
    unfold wrap64
    exact Nat.mod_eq_of_lt (by omega)
  have h2 : wrap64 (0 + d) = d := by
    unfold wrap64
    rw [Nat.zero_add]
    exact Nat.mod_eq_of_lt hlt
  have h3 : (if d < ULONG_MAX then d else ULONG_MAX) = d := by
    split <;> omega
  have h4 : (if d > 0 then d else 0) = d := by
    split <;> omega
  show ({ function_name := name.take (MAX_FUNCTION_NAME - 1)
          call_count := wrap64 (0 + 1)
          total_time_ns := wrap64 (0 + d)
          min_time_ns := if d < ULONG_MAX then d else ULONG_MAX
          max_time_ns := if d > 0 then d else 0 } : perf_trace_entry) = _
  rw [h1, h2, h3, h4]

/-- The state after the first call for a new name and the calls that follow it. -/
theorem record_all_new (K : KernelHash) (name : List Nat) (d1 : Nat)
    (rest : List (Bool × Nat)) (s : State)
    (hlen : name.length ≤ MAX_FUNCTION_NAME - 1)
    (hfresh : entries_named s name = [])
    (hen : s.tracing_enabled = true)
    (hbud : s.trace_count + (rest.length + 1) ≤ MAX_TRACE_ENTRIES) :
    record_all K name ((true, d1) :: rest) s =
      { perf_hash_table :=
          Function.update s.perf_hash_table (K.hash_min (K.jhash name))
            (bump_all (rest.map Prod.snd) (bump d1 (new_entry name))
              :: s.perf_hash_table (K.hash_min (K.jhash name)))
        tracing_enabled := true
        trace_count := s.trace_count + (rest.length + 1) } := by
  have hnone : chain_find name (s.perf_hash_table (K.hash_min (K.jhash name))) = none :=
    (chain_find_none _ _).mpr ((entries_named_nil s name).mp hfresh _)
  have hstep := update_new K name d1 s hen (by omega) hnone
  show record_all K name rest (update_perf_stats K true name d1 s) = _
  rw [hstep]
  have hnm : (bump d1 (new_entry name)).function_name = name := by
    show name.take (MAX_FUNCTION_NAME - 1) = name
    exact List.take_of_length_le hlen
  rw [record_all_head K name rest _ (bump d1 (new_entry name))
    (s.perf_hash_table (K.hash_min (K.jhash name))) rfl (by simp only []; omega) (by simp) hnm]
  have hadd : s.trace_count + 1 + rest.length = s.trace_count + (rest.length + 1) := by omega
  simp only [Function.update_idem, hadd]

/-- The entries named `name` after an entry of that name was put at the head of
a chain of a table that held none. -/
theorem entries_named_pushed (s : State) (name : List Nat) (b : Fin 256)
    (e : perf_trace_entry) (en : Bool) (tc : Nat)
    (hfresh : entries_named s name = []) (hname : e.function_name = name) :
    entries_named
      { perf_hash_table := Function.update s.perf_hash_table b (e :: s.perf_hash_table b)
        tracing_enabled := en
        trace_count := tc } name = [e] := by
  have hfr := (entries_named_nil s name).mp hfresh
  rw [entries_named_bucket _ name b]
  · simp only [Function.update_same]
    rw [List.filter_cons]
    have h2 : (s.perf_hash_table b).filter (fun x => x.function_name = name) = [] := by
      rw [List.filter_eq_nil_iff]
      intro x hx
      simpa using hfr _ x hx
    simp [hname, h2]
  · intro i hi x hx
    simp only [Function.update_noteq hi] at hx
    exact hfr i x hx

/-- C1 (as amended). For a name of at most 63 bytes absent from the registry,
with tracing enabled, N >= 1 calls of update_perf_stats within the remaining
budget, the allocation of the first call succeeding, leave exactly one entry
for the name, with call_count = N, total_time_ns the sum of the durations (when
that sum fits in an unsigned long), min_time_ns their minimum and max_time_ns
their maximum. -/
theorem update_perf_stats_aggregates (K : KernelHash) (name : List Nat) (d1 : Nat)
    (rest : List (Bool × Nat)) (s : State)
    (hlen : name.length ≤ 63)
    (hfresh : entries_named s name = [])
    (hen : s.tracing_enabled = true)
    (hbud : s.trace_count + (rest.length + 1) ≤ MAX_TRACE_ENTRIES)
    (hd : ∀ d ∈ d1 :: rest.map Prod.snd, d ≤ ULONG_MAX) :
    ∃ e, entries_named (record_all K name ((true, d1) :: rest) s) name = [e]
      ∧ e.function_name = name
      ∧ e.call_count = rest.length + 1
      ∧ ((d1 :: rest.map Prod.snd).sum ≤ ULONG_MAX →
          e.total_time_ns = (d1 :: rest.map Prod.snd).sum)
      ∧ (e.min_time_ns ∈ d1 :: rest.map Prod.snd
          ∧ ∀ d ∈ d1 :: rest.map Prod.snd, e.min_time_ns ≤ d)
      ∧ (e.max_time_ns ∈ d1 :: rest.map Prod.snd
          ∧ ∀ d ∈ d1 :: rest.map Prod.snd, d ≤ e.max_time_ns) := by
  have hlen2 : name.length ≤ MAX_FUNCTION_NAME - 1 := hlen
  have hd1 : d1 ≤ ULONG_MAX := hd d1 (List.mem_cons_self _ _)
  have hnm : name.take (MAX_FUNCTION_NAME - 1) = name := List.take_of_length_le hlen2
  refine ⟨bump_all (rest.map Prod.snd) (bump d1 (new_entry name)), ?_, ?_, ?_, ?_, ?_, ?_⟩
  · rw [record_all_new K name d1 rest s hlen2 hfresh hen hbud]
    refine entries_named_pushed s name _ _ _ _ hfresh ?_
    rw [bump_all_name]
    exact hnm
  · rw [bump_all_name]
    exact hnm
  · have hc : (bump d1 (new_entry name)).call_count = 1 := by
      rw [first_record name d1 hd1]
    unfold MAX_TRACE_ENTRIES at hbud
    rw [bump_all_count _ _ (by rw [hc, List.length_map]; omega), hc, List.length_map]
    omega
  · intro hsum
    have ht : (bump d1 (new_entry name)).total_time_ns = d1 := by
      rw [first_record name d1 hd1]
    rw [List.sum_cons] at hsum ⊢
    unfold ULONG_MAX at hsum
    rcases bump_all_total (rest.map Prod.snd) (bump d1 (new_entry name)) with h | h
    · rw [h, ht]
      unfold wrap64
      exact Nat.mod_eq_of_lt (by omega)
    · rw [h]
      show (bump d1 (new_entry name)).total_time_ns = _
      rw [ht]
      simp
  · obtain ⟨h1, h2, h3⟩ := bump_all_min (rest.map Prod.snd) (bump d1 (new_entry name))
    rw [first_record name d1 hd1] at h1 h2 h3 ⊢
    refine ⟨?_, ?_⟩
    · rcases h3 with h3 | h3
      · rw [h3]; exact List.mem_cons_self _ _
      · exact List.mem_cons_of_mem _ h3
    · intro d hdm
      rcases List.mem_cons.mp hdm with hdm | hdm
      · subst hdm; exact h1
      · exact h2 d hdm
  · obtain ⟨h1, h2, h3⟩ := bump_all_max (rest.map Prod.snd) (bump d1 (new_entry name))
    rw [first_record name d1 hd1] at h1 h2 h3 ⊢
    refine ⟨?_, ?_⟩
    · rcases h3 with h3 | h3
      · rw [h3]; exact List.mem_cons_self _ _
      · exact List.mem_cons_of_mem _ h3
    · intro d hdm
      rcases List.mem_cons.mp hdm with hdm | hdm
      · subst hdm; exact h1
      · exact h2 d hdm

theorem entries_named_init (name : List Nat) : entries_named init_state name = [] :=
  (entries_named_nil init_state name).mpr (fun _ _ he => by cases he)

/-- Witness of C1 as amended: three calls for "foo" from the initial state,
the allocator failing from the second call on. -/
theorem update_perf_stats_aggregates_witness :
    ∃ e, entries_named
          (record_all sample_hash name_foo [(true, 10), (false, 30), (false, 20)] init_state)
          name_foo = [e]
      ∧ e.function_name = name_foo
      ∧ e.call_count = 3
      ∧ ((10 :: [30, 20]).sum ≤ ULONG_MAX → e.total_time_ns = (10 :: [30, 20]).sum)
      ∧ (e.min_time_ns ∈ 10 :: [30, 20] ∧ ∀ d ∈ 10 :: [30, 20], e.min_time_ns ≤ d)
      ∧ (e.max_time_ns ∈ 10 :: [30, 20] ∧ ∀ d ∈ 10 :: [30, 20], d ≤ e.max_time_ns) :=
  update_perf_stats_aggregates sample_hash name_foo 10 [(false, 30), (false, 20)] init_state
    (by decide) (entries_named_init name_foo) rfl (by decide)
    (by
      intro d hd
      simp only [List.map_cons, List.map_nil, List.mem_cons, List.mem_nil_iff, or_false] at hd
      unfold ULONG_MAX
      omega)

/-- For every hash, a first call whose allocation fails leaves the initial state. -/
theorem first_call_alloc_failed (K : KernelHash) (name : List Nat) (d : Nat) :
    update_perf_stats K false name d init_state = init_state :=
  update_alloc_failed K name d init_state rfl

/-- C1 as stated fails when the allocation of the new entry fails: one call
update_perf_stats("foo", 10) from the initial state, kmalloc returning NULL,
leaves no entry for "foo" (so none with call_count = 1). -/
theorem update_perf_stats_aggregates_alloc_failure :
    entries_named (record_all sample_hash name_foo [(false, 10)] init_state) name_foo = []
      ∧ ¬ ∃ e, e ∈ entries_named (record_all sample_hash name_foo [(false, 10)] init_state)
                name_foo
            ∧ e.call_count = 1 := by
  have h : record_all sample_hash name_foo [(false, 10)] init_state = init_state :=
    first_call_alloc_failed sample_hash name_foo 10
  rw [h, entries_named_init]
  simp

/-! ## The event budget -/

/-- After a first recorded call and 999 more for the same name the budget is used up. -/
theorem trace_count_after_thousand (K : KernelHash) (name : List Nat) (d : Nat)
    (hlen : name.length ≤ MAX_FUNCTION_NAME - 1) :
    (record_all K name ((true, d) :: List.replicate 999 (false, d)) init_state).trace_count
      = MAX_TRACE_ENTRIES := by
  have hl : (List.replicate 999 ((false, d) : Bool × Nat)).length = 999 :=
    List.length_replicate _ _
  rw [record_all_new K name d _ init_state hlen (entries_named_init name) rfl
    (by rw [hl]; exact Nat.le_refl _)]
  show init_state.trace_count + ((List.replicate 999 ((false, d) : Bool × Nat)).length + 1) = _
  rw [hl]
  rfl

/-- C2. Once trace_count has reached MAX_TRACE_ENTRIES, a call of
update_perf_stats with any name, any duration and any allocator answer returns
the state it was given: no entry is created or updated (the entries of every
name are the same), trace_count stays at MAX_TRACE_ENTRIES and the remaining
budget stays 0. -/
theorem update_perf_stats_budget_exhausted (K : KernelHash) (ok : Bool) (name : List Nat)
    (d : Nat) (s : State) (h : s.trace_count = MAX_TRACE_ENTRIES) :
    update_perf_stats K ok name d s = s
      ∧ (∀ n, entries_named (update_perf_stats K ok name d s) n = entries_named s n)
      ∧ (update_perf_stats K ok name d s).trace_count = MAX_TRACE_ENTRIES
      ∧ events_remaining (update_perf_stats K ok name d s) = 0 := by
  have hs : update_perf_stats K ok name d s = s :=
    update_dropped K ok name d s (Or.inr (le_of_eq h.symm))
  rw [hs]
  refine ⟨rfl, fun _ => rfl, h, ?_⟩
  unfold events_remaining
  rw [h, Nat.sub_self]

/-- Witness of C2: after 1000 recorded calls for "foo" from the initial state,
a call for the new name "a" is dropped. -/
theorem update_perf_stats_budget_exhausted_witness :
    update_perf_stats sample_hash true [97] 30
        (record_all sample_hash name_foo ((true, 5) :: List.replicate 999 (false, 5)) init_state)
      = record_all sample_hash name_foo ((true, 5) :: List.replicate 999 (false, 5)) init_state
      ∧ (∀ n, entries_named (update_perf_stats sample_hash true [97] 30
          (record_all sample_hash name_foo ((true, 5) :: List.replicate 999 (false, 5))
            init_state)) n
        = entries_named
          (record_all sample_hash name_foo ((true, 5) :: List.replicate 999 (false, 5))
            init_state) n)
      ∧ (update_perf_stats sample_hash true [97] 30
          (record_all sample_hash name_foo ((true, 5) :: List.replicate 999 (false, 5))
            init_state)).trace_count = MAX_TRACE_ENTRIES
      ∧ events_remaining (update_perf_stats sample_hash true [97] 30
          (record_all sample_hash name_foo ((true, 5) :: List.replicate 999 (false, 5))
            init_state)) = 0 :=
  update_perf_stats_budget_exhausted sample_hash true [97] 30 _
    (trace_count_after_thousand sample_hash name_foo 5 (by decide))

/-! ## The control file -/

theorem all_entries_empty : all_entries (fun _ => []) = [] := by
  unfold all_entries
  rw [List.flatMap_eq_nil_iff]
  intro _ _
  rfl

/-- The write of a buffer that starts with "clear" and is shorter than 16 bytes. -/
theorem write_clear (tail : List Nat) (s : State) (h : tail.length < 11) :
    perf_proc_write (cmd_clear ++ tail) (5 + tail.length) s
      = (((5 + tail.length : Nat) : Int),
          { perf_hash_table := fun _ => [], tracing_enabled := s.tracing_enabled,
            trace_count := 0 }) := by
  unfold perf_proc_write
  have h1 : ¬ (5 + tail.length ≥ 16) := by omega
  have hl : (cmd_clear ++ tail).length = 5 + tail.length := by
    rw [List.length_append]
    rfl
  have h2 : ¬ ((cmd_clear ++ tail).length < 5 + tail.length) := by
    rw [hl]
    exact Nat.lt_irrefl _
  simp only [h1, h2, if_false]
  have h3 : (cmd_clear ++ tail).take (5 + tail.length) ++ [0] = cmd_clear ++ (tail ++ [0]) := by
    rw [List.take_of_length_le (le_of_eq hl), List.append_assoc]
  rw [h3]
  simp [cmd_clear, strncmp_eq]

/-- C3. From every state, whatever its entries, its trace_count and its
tracing flag, the write of "clear" (also in the form "clear\n" that echo
produces) leaves every bucket of the table empty, so that the report has no
row, and sets trace_count to 0, which puts the remaining budget back to
MAX_TRACE_ENTRIES. -/
theorem clear_empties_registry (s : State) :
    (∀ b, (perf_proc_write cmd_clear 5 s).2.perf_hash_table b = [])
      ∧ (perf_proc_show (perf_proc_write cmd_clear 5 s).2).rows = []
      ∧ (perf_proc_write cmd_clear 5 s).2.trace_count = 0
      ∧ events_remaining (perf_proc_write cmd_clear 5 s).2 = MAX_TRACE_ENTRIES
      ∧ (∀ b, (perf_proc_write (cmd_clear ++ [10]) 6 s).2.perf_hash_table b = [])
      ∧ (perf_proc_show (perf_proc_write (cmd_clear ++ [10]) 6 s).2).rows = []
      ∧ (perf_proc_write (cmd_clear ++ [10]) 6 s).2.trace_count = 0
      ∧ events_remaining (perf_proc_write (cmd_clear ++ [10]) 6 s).2 = MAX_TRACE_ENTRIES := by
  have h5 := write_clear [] s (by decide)
  have h6 := write_clear [10] s (by decide)
  simp only [List.append_nil, List.length_nil, Nat.add_zero, List.length_singleton] at h5 h6
  rw [h5, h6]
  simp [perf_proc_show, all_entries_empty, events_remaining]

/-! ## Lookup and update at any position of a chain -/

theorem chain_find_find (name : List Nat) (chain : List perf_trace_entry) :
    chain_find name chain = none ↔ chain.find? (fun e => e.function_name = name) = none := by
  rw [chain_find_none, List.find?_eq_none]
  simp

/-- The position `chain_find` returns is that of the first entry named `name`,
and a write there that keeps the name is seen by the next lookup. -/
theorem chain_find_some (name : List Nat) (chain : List perf_trace_entry) (i : Nat)
    (h : chain_find name chain = some i) :
    ∃ e, chain.find? (fun x => x.function_name = name) = some e
      ∧ e.function_name = name
      ∧ e ∈ chain
      ∧ ∀ f : perf_trace_entry → perf_trace_entry, (f e).function_name = e.function_name →
          (chain_modify f i chain).find? (fun x => x.function_name = name) = some (f e) := by
  induction chain generalizing i with
  | nil => simp [chain_find] at h
  | cons a t ih =>
    by_cases ha : a.function_name = name
    · simp only [chain_find, ha, if_true, Option.some.injEq] at h
      subst h
      refine ⟨a, by simp [ha], ha, List.mem_cons_self _ _, ?_⟩
      intro f hf
      simp [chain_modify, hf, ha]
    · simp only [chain_find, ha, if_false, Option.map_eq_some'] at h
      obtain ⟨j, hj, hji⟩ := h
      subst hji
      obtain ⟨e, he1, he2, he3, he4⟩ := ih j hj
      refine ⟨e, by simp [ha, he1], he2, List.mem_cons_of_mem _ he3, ?_⟩
      intro f hf
      simp [chain_modify, ha, he4 f hf]

/-- A call that finds its entry, at whatever position of the chain. -/
theorem update_found (K : KernelHash) (ok : Bool) (name : List Nat) (d : Nat) (s : State)
    (i : Nat) (hen : s.tracing_enabled = true) (hbud : s.trace_count < MAX_TRACE_ENTRIES)
    (hb : chain_find name (s.perf_hash_table (K.hash_min (K.jhash name))) = some i) :
    update_perf_stats K ok name d s =
      { perf_hash_table :=
          Function.update s.perf_hash_table (K.hash_min (K.jhash name))
            (chain_modify (bump d) i (s.perf_hash_table (K.hash_min (K.jhash name))))
        tracing_enabled := true
        trace_count := s.trace_count + 1 } := by
  have hw : wrap64 (s.trace_count + 1) = s.trace_count + 1 := by
    unfold wrap64
    unfold MAX_TRACE_ENTRIES at hbud
    exact Nat.mod_eq_of_lt (by omega)
  unfold update_perf_stats find_or_create_entry
  simp only [hen, Bool.not_true, Bool.false_or, decide_eq_true_eq, ge_iff_le,
    Nat.not_le.mpr hbud, if_false, hb, modify_at, hw]

/-- What a recorded call does: trace_count grows by one, the entry the lookup
found is replaced by its update, and a name the lookup did not find gets a new
entry at the head of its chain. -/
theorem update_recorded (K : KernelHash) (ok : Bool) (name : List Nat) (d : Nat) (s : State)
    (hen : s.tracing_enabled = true) (hbud : s.trace_count < MAX_TRACE_ENTRIES)
    (halloc : found_entry K s name = none → ok = true) :
    (update_perf_stats K ok name d s).trace_count = s.trace_count + 1
      ∧ (update_perf_stats K ok name d s).tracing_enabled = true
      ∧ (∀ e, found_entry K s name = some e →
          found_entry K (update_perf_stats K ok name d s) name = some (bump d e))
      ∧ (found_entry K s name = none →
          (update_perf_stats K ok name d s).perf_hash_table (K.hash_min (K.jhash name))
            = bump d (new_entry name) :: s.perf_hash_table (K.hash_min (K.jhash name))) := by
  cases hc : chain_find name (s.perf_hash_table (K.hash_min (K.jhash name))) with
  | none =>
    have hnone : found_entry K s name = none := (chain_find_find _ _).mp hc
    have hok := halloc hnone
    subst hok
    rw [update_new K name d s hen hbud hc]
    refine ⟨rfl, rfl, ?_, ?_⟩
    · intro e he
      rw [hnone] at he
      cases he
    · intro _
      simp
  | some i =>
    obtain ⟨e, he1, he2, _, he4⟩ := chain_find_some _ _ i hc
    rw [update_found K ok name d s i hen hbud hc]
    refine ⟨rfl, rfl, ?_, ?_⟩
    · intro e0 he0
      have : e0 = e := by
        unfold found_entry at he0
        rw [he1] at he0
        exact (Option.some.inj he0).symm
      subst this
      unfold found_entry
      simp only [Function.update_same]
      exact he4 (bump d) rfl
    · intro hnone
      unfold found_entry at hnone
      rw [he1] at hnone
      cases hnone

/-! ## Tracing switched off -/

theorem run_updates_disabled (K : KernelHash) (calls : List (Bool × List Nat × Nat)) (s : State)
    (h : s.tracing_enabled = false) : run_updates K calls s = s := by
  induction calls with
  | nil => rfl
  | cons c t ih =>
    show run_updates K t (update_perf_stats K c.1 c.2.1 c.2.2 s) = s
    rw [update_dropped K c.1 c.2.1 c.2.2 s (Or.inl h)]
    exact ih

theorem post_handler_disabled (K : KernelHash) (ok : Bool) (now : Int) (regs : pt_regs)
    (s : State) (h : s.tracing_enabled = false) : kprobe_post_handler K ok now regs s = s := by
  unfold kprobe_post_handler
  cases regs.ax with
  | none => rfl
  | some ctx => exact update_dropped K ok _ _ s (Or.inl h)

theorem run_ends_disabled (K : KernelHash) (ends : List (Bool × Int × pt_regs)) (s : State)
    (h : s.tracing_enabled = false) : run_ends K ends s = s := by
  induction ends with
  | nil => rfl
  | cons c t ih =>
    show run_ends K t (kprobe_post_handler K c.1 c.2.1 c.2.2 s) = s
    rw [post_handler_disabled K c.1 c.2.1 c.2.2 s h]
    exact ih

theorem write_enable (s : State) :
    perf_proc_write cmd_enable 1 s = (1, { s with tracing_enabled := true }) := by
  simp [perf_proc_write, cmd_enable, strncmp_eq]

theorem write_disable (s : State) :
    perf_proc_write cmd_disable 1 s = (1, { s with tracing_enabled := false }) := by
  simp [perf_proc_write, cmd_disable, strncmp_eq]

/-- C4 (as amended). While tracing_enabled is false, any sequence of
update_perf_stats calls and any sequence of exit-handler calls, with any names
and durations, returns the state unchanged. The write of "1" then sets the flag
and changes nothing else, and the next update_perf_stats call, budget
permitting and the allocation succeeding when the name has no entry yet, is
recorded: trace_count grows by one, the entry found for the name is updated in
place, and a name without entry gets a new entry holding this one event. -/
theorem disabled_drops_enable_resumes (K : KernelHash) (s : State)
    (calls : List (Bool × List Nat × Nat)) (ends : List (Bool × Int × pt_regs))
    (ok : Bool) (name : List Nat) (d : Nat)
    (hdis : s.tracing_enabled = false) :
    run_updates K calls s = s
      ∧ run_ends K ends s = s
      ∧ (perf_proc_write cmd_enable 1 s).2.tracing_enabled = true
      ∧ (perf_proc_write cmd_enable 1 s).2.perf_hash_table = s.perf_hash_table
      ∧ (perf_proc_write cmd_enable 1 s).2.trace_count = s.trace_count
      ∧ (s.trace_count < MAX_TRACE_ENTRIES → (found_entry K s name = none → ok = true) →
          (update_perf_stats K ok name d (perf_proc_write cmd_enable 1 s).2).trace_count
              = s.trace_count + 1
            ∧ (∀ e, found_entry K s name = some e →
                found_entry K (update_perf_stats K ok name d (perf_proc_write cmd_enable 1 s).2)
                  name = some (bump d e))
            ∧ (found_entry K s name = none →
                (update_perf_stats K ok name d (perf_proc_write cmd_enable 1 s).2).perf_hash_table
                    (K.hash_min (K.jhash name))
                  = bump d (new_entry name)
                      :: s.perf_hash_table (K.hash_min (K.jhash name)))) := by
  refine ⟨run_updates_disabled K calls s hdis, run_ends_disabled K ends s hdis, ?_⟩
  rw [write_enable]
  refine ⟨rfl, rfl, rfl, ?_⟩
  intro hbud halloc
  obtain ⟨h1, _, h3, h4⟩ := update_recorded K ok name d { s with tracing_enabled := true }
    rfl hbud halloc
  exact ⟨h1, h3, h4⟩

/-- Witness of C4 as amended: from the initial state with tracing switched
off, two dropped calls and a dropped exit, then "1" and a call for "foo" that
is recorded in a new entry. -/
theorem disabled_drops_enable_resumes_witness :
    run_updates sample_hash [(true, name_foo, 5), (true, [97], 7)] disabled_state = disabled_state
      ∧ run_ends sample_hash
          [(true, 200, { ax := some { start_time := 50, function_name := name_foo } })]
          disabled_state = disabled_state
      ∧ (update_perf_stats sample_hash true name_foo 10
            (perf_proc_write cmd_enable 1 disabled_state).2).trace_count
          = disabled_state.trace_count + 1
      ∧ (update_perf_stats sample_hash true name_foo 10
            (perf_proc_write cmd_enable 1 disabled_state).2).perf_hash_table
            (sample_hash.hash_min (sample_hash.jhash name_foo))
          = bump 10 (new_entry name_foo)
              :: disabled_state.perf_hash_table
                  (sample_hash.hash_min (sample_hash.jhash name_foo)) :=
  have hd : disabled_state.tracing_enabled = false := by rw [disabled_state, write_disable]
  have hb : disabled_state.trace_count < MAX_TRACE_ENTRIES := by
    rw [disabled_state, write_disable]
    decide
  have h := disabled_drops_enable_resumes sample_hash disabled_state
    [(true, name_foo, 5), (true, [97], 7)]
    [(true, 200, { ax := some { start_time := 50, function_name := name_foo } })]
    true name_foo 10 hd
  have h2 := h.2.2.2.2.2 hb (fun _ => rfl)
  ⟨h.1, h.2.1, h2.1, h2.2.2 (by rw [disabled_state, write_disable]; rfl)⟩

/-- C4 as stated fails when the allocation fails: tracing is switched off and
on again from the initial state, and the next call update_perf_stats("foo", 10),
kmalloc returning NULL, is not recorded although the budget is untouched:
trace_count stays 0 and there is no entry for "foo". -/
theorem enable_resumes_alloc_failure :
    (perf_proc_write cmd_enable 1 disabled_state).2.tracing_enabled = true
      ∧ (update_perf_stats sample_hash false name_foo 10
          (perf_proc_write cmd_enable 1 disabled_state).2).trace_count = 0
      ∧ entries_named (update_perf_stats sample_hash false name_foo 10
          (perf_proc_write cmd_enable 1 disabled_state).2) name_foo = [] := by
  have h : (perf_proc_write cmd_enable 1 disabled_state).2 = init_state := by
    rw [disabled_state, write_disable, write_enable]
    rfl
  rw [h, first_call_alloc_failed]
  exact ⟨rfl, rfl, entries_named_init name_foo⟩

/-! ## The probe handlers -/

theorem to_ulong_le (x : Int) : to_ulong x ≤ ULONG_MAX := by
  unfold to_ulong ULONG_MAX
  have h1 : (0 : Int) ≤ x % 2 ^ 64 := Int.emod_nonneg x (by norm_num)
  have h2 : x % 2 ^ 64 < 2 ^ 64 := Int.emod_lt_of_pos x (by norm_num)
  omega

theorem to_ulong_small (n : Nat) (h : n < 2 ^ 64) : to_ulong (n : Int) = n := by
  unfold to_ulong
  have h2 : ((n : Int)) % 2 ^ 64 = (n : Int) :=
    Int.emod_eq_of_lt (Int.natCast_nonneg n) (by exact_mod_cast h)
  rw [h2]
  exact Int.toNat_natCast n

/-- An entry handler whose allocation succeeds followed by the exit handler is
one call of update_perf_stats for the first 63 bytes of the symbol name. -/
theorem begin_end (K : KernelHash) (ok : Bool) (symbol : List Nat) (t0 t1 : Int)
    (regs : pt_regs) (s : State) :
    kprobe_post_handler K ok t1 (kprobe_pre_handler true t0 { symbol_name := symbol } regs) s
      = update_perf_stats K ok (symbol.take (MAX_FUNCTION_NAME - 1)) (to_ulong (t1 - t0)) s :=
  rfl

theorem all_entries_single (b : Fin 256) (chain : List perf_trace_entry) :
    all_entries (Function.update (fun _ => []) b chain) = chain := by
  unfold all_entries
  rw [flatMap_single _ _ b (List.nodup_finRange 256) (List.mem_finRange b)
    (fun i hi => by rw [Function.update_noteq hi])]
  exact Function.update_same _ _ _

/-- The state after the first recorded call from the initial state. -/
theorem first_call_recorded (K : KernelHash) (name : List Nat) (d : Nat) :
    update_perf_stats K true name d init_state =
      { perf_hash_table :=
          Function.update (fun _ => []) (K.hash_min (K.jhash name)) [bump d (new_entry name)]
        tracing_enabled := true
        trace_count := 1 } :=
  update_new K name d init_state rfl (by decide) rfl

/-- C5 (as amended). From the initial state, the entry handler for the call
site "foo" at time t0 followed by the exit handler at time t0 + 150, both
allocations (the call context and the new entry) succeeding, makes the report
consist of exactly one row: name "foo", count 1, total 150, average 150,
minimum 150, maximum 150. -/
theorem begin_end_round_trip (K : KernelHash) (t0 : Int) (regs : pt_regs) :
    (perf_proc_show
        (kprobe_post_handler K true (t0 + 150)
          (kprobe_pre_handler true t0 { symbol_name := name_foo } regs) init_state)).rows
      = [{ name := name_foo, count := 1, total := 150, avg := 150, min := 150, max := 150 }] := by
  rw [begin_end]
  have hd : to_ulong (t0 + 150 - t0) = 150 := by
    have h : t0 + 150 - t0 = ((150 : Nat) : Int) := by
      push_cast
      ring
    rw [h]
    exact to_ulong_small 150 (by norm_num)
  have hn : name_foo.take (MAX_FUNCTION_NAME - 1) = name_foo := by decide
  rw [hd, hn, first_call_recorded]
  have h150 : (150 : Nat) ≤ ULONG_MAX := by
    unfold ULONG_MAX
    norm_num
  have hne : (150 : Nat) ≠ ULONG_MAX := by
    unfold ULONG_MAX
    norm_num
  simp only [perf_proc_show, all_entries_single, first_record name_foo 150 h150, hn,
    List.map_cons, List.map_nil, show_entry, hne, if_false]
  simp

/-- C5 as stated fails when the allocation of the entry fails: after the entry
handler for "foo" at time 0 and the exit handler at time 150, kmalloc returning
NULL in find_or_create_entry, the report has no row. -/
theorem begin_end_round_trip_alloc_failure :
    (perf_proc_show
        (kprobe_post_handler sample_hash false 150
          (kprobe_pre_handler true 0 { symbol_name := name_foo } { ax := none })
          init_state)).rows = [] := by
  rw [begin_end, first_call_alloc_failed]
  simp [perf_proc_show, init_state, all_entries_empty]

/-! ## Names longer than the buffer -/

theorem take_stem (stem tail : List Nat) (h : stem.length = 63) :
    (stem ++ tail).take (MAX_FUNCTION_NAME - 1) = stem := by
  have h2 : MAX_FUNCTION_NAME - 1 = stem.length := by
    rw [h]
    rfl
  rw [h2]
  exact List.take_left' rfl

/-- The state after one probed call for each of two identifiers with the same
first 63 bytes, the first of the two recorded as a new entry. -/
theorem two_calls_same_stem (K : KernelHash) (stem x y : List Nat) (s : State)
    (ok2 : Bool) (t0 t1 u0 u1 : Int) (r1 r2 : pt_regs)
    (hstem : stem.length = 63)
    (hfresh : entries_named s stem = [])
    (hen : s.tracing_enabled = true)
    (hbud : s.trace_count + 2 ≤ MAX_TRACE_ENTRIES) :
    kprobe_post_handler K ok2 u1 (kprobe_pre_handler true u0 { symbol_name := stem ++ y } r2)
        (kprobe_post_handler K true t1
          (kprobe_pre_handler true t0 { symbol_name := stem ++ x } r1) s)
      = { perf_hash_table :=
            Function.update s.perf_hash_table (K.hash_min (K.jhash stem))
              (bump (to_ulong (u1 - u0)) (bump (to_ulong (t1 - t0)) (new_entry stem))
                :: s.perf_hash_table (K.hash_min (K.jhash stem)))
          tracing_enabled := true
          trace_count := s.trace_count + 2 } := by
  rw [begin_end, begin_end, take_stem stem x hstem, take_stem stem y hstem]
  exact record_all_new K stem (to_ulong (t1 - t0)) [(ok2, to_ulong (u1 - u0))] s
    (by rw [hstem]; decide) hfresh hen hbud

/-- C6 (as amended). For two identifiers that agree on their first 63 bytes
and differ only after them, one probed call of each, with tracing enabled, at
least two events of budget left, no entry yet under the common 63-byte stem and
the allocations of the two call contexts and of the new entry succeeding, is
recorded in one and the same entry: the registry then holds exactly one entry
named by the stem, and its call_count is 2. -/
theorem truncated_names_share_entry (K : KernelHash) (stem x y : List Nat) (s : State)
    (ok2 : Bool) (t0 t1 u0 u1 : Int) (r1 r2 : pt_regs)
    (hstem : stem.length = 63)
    (hfresh : entries_named s stem = [])
    (hen : s.tracing_enabled = true)
    (hbud : s.trace_count + 2 ≤ MAX_TRACE_ENTRIES) :
    ∃ e, entries_named
          (kprobe_post_handler K ok2 u1
            (kprobe_pre_handler true u0 { symbol_name := stem ++ y } r2)
            (kprobe_post_handler K true t1
              (kprobe_pre_handler true t0 { symbol_name := stem ++ x } r1) s)) stem = [e]
      ∧ e.function_name = stem
      ∧ e.call_count = 2 := by
  rw [two_calls_same_stem K stem x y s ok2 t0 t1 u0 u1 r1 r2 hstem hfresh hen hbud]
  have hnm : (bump (to_ulong (u1 - u0)) (bump (to_ulong (t1 - t0)) (new_entry stem))).function_name
      = stem := by
    show stem.take (MAX_FUNCTION_NAME - 1) = stem
    exact List.take_of_length_le (by rw [hstem]; decide)
  refine ⟨_, entries_named_pushed s stem _ _ _ _ hfresh hnm, hnm, ?_⟩
  rw [first_record stem _ (to_ulong_le _)]
  show wrap64 (1 + 1) = 2
  unfold wrap64
  exact Nat.mod_eq_of_lt (by norm_num)

/-- Witness of C6 as amended: the identifiers made of 63 letters a followed by
b and by c, probed once each from the initial state. -/
theorem truncated_names_share_entry_witness :
    ∃ e, entries_named
          (kprobe_post_handler sample_hash false 90
            (kprobe_pre_handler true 50 { symbol_name := long_stem ++ [99] } { ax := none })
            (kprobe_post_handler sample_hash true 30
              (kprobe_pre_handler true 10 { symbol_name := long_stem ++ [98] } { ax := none })
              init_state)) long_stem = [e]
      ∧ e.function_name = long_stem
      ∧ e.call_count = 2 :=
  truncated_names_share_entry sample_hash long_stem [98] [99] init_state false 10 30 50 90
    { ax := none } { ax := none } (List.length_replicate _ _) (entries_named_init long_stem) rfl
    (by decide)

/-- C6 as stated fails when the allocation of the entry fails at the first of
the two events: from the initial state, the call of the first identifier is
lost and the call of the second creates the entry, whose call_count is 1. -/
theorem truncated_names_alloc_failure :
    (entries_named
        (kprobe_post_handler sample_hash true 90
          (kprobe_pre_handler true 50 { symbol_name := long_stem ++ [99] } { ax := none })
          (kprobe_post_handler sample_hash false 30
            (kprobe_pre_handler true 10 { symbol_name := long_stem ++ [98] } { ax := none })
            init_state)) long_stem).map (fun e => e.call_count) = [1] := by
  have hl : long_stem.length = 63 := List.length_replicate _ _
  rw [begin_end, begin_end, take_stem long_stem [98] hl, take_stem long_stem [99] hl,
    first_call_alloc_failed, first_call_recorded]
  have hnm : (bump (to_ulong (90 - 50)) (new_entry long_stem)).function_name = long_stem := by
    show long_stem.take (MAX_FUNCTION_NAME - 1) = long_stem
    exact List.take_of_length_le (by rw [hl]; decide)
  have h := entries_named_pushed init_state long_stem
    (sample_hash.hash_min (sample_hash.jhash long_stem)) _ true 1
    (entries_named_init long_stem) hnm
  have hi : init_state.perf_hash_table = fun _ => [] := rfl
  rw [hi] at h
  rw [h, first_record long_stem _ (to_ulong_le _)]
  rfl

/-! ## One entry per name -/

theorem chain_modify_names (f : perf_trace_entry → perf_trace_entry)
    (hf : ∀ e, (f e).function_name = e.function_name) (i : Nat) (chain : List perf_trace_entry) :
    (chain_modify f i chain).map (fun e => e.function_name)
      = chain.map (fun e => e.function_name) := by
  induction chain generalizing i with
  | nil => cases i <;> rfl
  | cons a t ih =>
    cases i with
    | zero => simp [chain_modify, hf]
    | succ j => simp [chain_modify, ih j]

/-- The effect of update_perf_stats on the stored names: none, or one new name
at the head of the chain of a bucket that did not hold the name looked up. -/
theorem update_names (K : KernelHash) (ok : Bool) (name : List Nat) (d : Nat) (s : State) :
    (∀ b, bucket_names (update_perf_stats K ok name d s).perf_hash_table b
        = bucket_names s.perf_hash_table b)
      ∨ (chain_find name (s.perf_hash_table (K.hash_min (K.jhash name))) = none
          ∧ (update_perf_stats K ok name d s).perf_hash_table
              = Function.update s.perf_hash_table (K.hash_min (K.jhash name))
                  (bump d (new_entry name)
                    :: s.perf_hash_table (K.hash_min (K.jhash name)))) := by
  by_cases hdrop : s.tracing_enabled = false ∨ MAX_TRACE_ENTRIES ≤ s.trace_count
  · left
    rw [update_dropped K ok name d s hdrop]
    intro _
    rfl
  · have hen : s.tracing_enabled = true := by
      cases h : s.tracing_enabled with
      | true => rfl
      | false => exact absurd (Or.inl h) hdrop
    have hbud : s.trace_count < MAX_TRACE_ENTRIES := by
      by_contra h
      exact hdrop (Or.inr (Nat.le_of_not_lt h))
    cases hc : chain_find name (s.perf_hash_table (K.hash_min (K.jhash name))) with
    | none =>
      cases ok with
      | false =>
        left
        rw [update_alloc_failed K name d s hc]
        intro _
        rfl
      | true =>
        right
        rw [update_new K name d s hen hbud hc]
        exact ⟨rfl, rfl⟩
    | some i =>
      left
      rw [update_found K ok name d s i hen hbud hc]
      intro b
      unfold bucket_names
      by_cases hb : b = K.hash_min (K.jhash name)
      · subst hb
        simp only [Function.update_same]
        exact chain_modify_names (bump d) (fun _ => rfl) i _
      · simp only [Function.update_noteq hb]

theorem well_placed_update (K : KernelHash) (ok : Bool) (name : List Nat) (d : Nat) (s : State)
    (hlen : name.length ≤ MAX_FUNCTION_NAME - 1) (h : well_placed K s.perf_hash_table) :
    well_placed K (update_perf_stats K ok name d s).perf_hash_table := by
  rcases update_names K ok name d s with hsame | ⟨hnone, htbl⟩
  · unfold well_placed
    simp only [hsame]
    exact h
  · rw [htbl]
    have hnm : (bump d (new_entry name)).function_name = name :=
      List.take_of_length_le hlen
    have hnotin : name ∉ bucket_names s.perf_hash_table (K.hash_min (K.jhash name)) := by
      intro hin
      obtain ⟨e, he, hen⟩ := List.mem_map.mp hin
      exact (chain_find_none _ _).mp hnone e he hen
    refine ⟨?_, ?_⟩
    · intro b n hn
      by_cases hb : b = K.hash_min (K.jhash name)
      · subst hb
        simp only [bucket_names, Function.update_same, List.map_cons, List.mem_cons, hnm] at hn
        rcases hn with hn | hn
        · rw [hn]
        · exact h.1 _ n hn
      · simp only [bucket_names, Function.update_noteq hb] at hn
        exact h.1 b n hn
    · intro b
      by_cases hb : b = K.hash_min (K.jhash name)
      · subst hb
        simp only [bucket_names, Function.update_same, List.map_cons, hnm]
        exact List.nodup_cons.mpr ⟨hnotin, h.2 _⟩
      · simp only [bucket_names, Function.update_noteq hb]
        exact h.2 b

/-- The four things a write to the control file can do to the state. -/
theorem write_cases (buffer : List Nat) (count : Nat) (s : State) :
    (perf_proc_write buffer count s).2 = s
      ∨ (perf_proc_write buffer count s).2 = { s with tracing_enabled := true }
      ∨ (perf_proc_write buffer count s).2 = { s with tracing_enabled := false }
      ∨ (perf_proc_write buffer count s).2
          = { perf_hash_table := fun _ => [], tracing_enabled := s.tracing_enabled,
              trace_count := 0 } := by
  unfold perf_proc_write
  split
  · left; rfl
  · split
    · left; rfl
    · simp only []
      split
      · right; left; rfl
      · split
        · right; right; left; rfl
        · split
          · right; right; right; rfl
          · left; rfl

/-- A probed call does nothing or is one call of update_perf_stats for a name
of at most 63 bytes. -/
theorem step_call_cases (K : KernelHash) (s : State) (ok_ctx ok_entry : Bool)
    (symbol : List Nat) (t0 t1 : Int) :
    step K s (.call ok_ctx ok_entry symbol t0 t1) = s
      ∨ step K s (.call ok_ctx ok_entry symbol t0 t1)
          = update_perf_stats K ok_entry (symbol.take (MAX_FUNCTION_NAME - 1))
              (to_ulong (t1 - t0)) s := by
  cases ok_ctx with
  | false => left; rfl
  | true => right; rfl

theorem well_placed_empty (K : KernelHash) : well_placed K (fun _ => []) := by
  refine ⟨?_, ?_⟩
  · intro b n hn
    cases hn
  · intro b
    exact List.nodup_nil

theorem well_placed_reachable (K : KernelHash) (s : State) (h : Reachable K s) :
    well_placed K s.perf_hash_table := by
  induction h with
  | init => exact well_placed_empty K
  | step s ev _ ih =>
    cases ev with
    | call ok_ctx ok_entry symbol t0 t1 =>
      rcases step_call_cases K s ok_ctx ok_entry symbol t0 t1 with h | h
      · rw [h]; exact ih
      · rw [h]
        exact well_placed_update K ok_entry _ _ s (List.length_take_le _ _) ih
    | write buffer count =>
      show well_placed K (perf_proc_write buffer count s).2.perf_hash_table
      rcases write_cases buffer count s with h | h | h | h
      · rw [h]; exact ih
      · rw [h]; exact ih
      · rw [h]; exact ih
      · rw [h]; exact well_placed_empty K

theorem well_placed_nodup (K : KernelHash) (tbl : HashTable) (h : well_placed K tbl) :
    ((all_entries tbl).map (fun e => e.function_name)).Nodup := by
  unfold all_entries
  rw [List.map_flatMap, List.nodup_flatMap]
  refine ⟨fun b _ => h.2 b, ?_⟩
  refine List.Nodup.pairwise_of_forall_ne (List.nodup_finRange 256) ?_
  intro a _ b _ hab
  show List.Disjoint (bucket_names tbl a) (bucket_names tbl b)
  intro n hna hnb
  exact hab ((h.1 a n hna).symm.trans (h.1 b n hnb))

/-- C7. In every state reachable from the initial state by probed calls
(entry and exit handler, whatever the allocator answers and whatever the clock
shows) and by writes to the control file (enable, disable, clear or anything
else), no two entries of the table have the same function_name. -/
theorem one_entry_per_name (K : KernelHash) (s : State) (h : Reachable K s) :
    ((all_entries s.perf_hash_table).map (fun e => e.function_name)).Nodup :=
  well_placed_nodup K s.perf_hash_table (well_placed_reachable K s h)

theorem reachable_run_from (K : KernelHash) (evs : List Event) (s : State)
    (h : Reachable K s) : Reachable K (run K s evs) := by
  induction evs generalizing s with
  | nil => exact h
  | cons ev t ih => exact ih (step K s ev) (Reachable.step s ev h)

set_option maxRecDepth 100000 in
/-- The entries after the events `busy_events`, bucket by bucket: "oof" and
"foo" share a chain, "foo" and the 63-byte stem were recorded twice. -/
theorem busy_state_entries :
    (all_entries (run sample_hash init_state busy_events).perf_hash_table).map
        (fun e => (e.function_name, e.call_count))
      = [([111, 111, 102], 1), (name_foo, 2), ([97], 1), (long_stem, 2)] := by
  rfl

/-- Witness of C7: after "foo", "oof", "foo" again, "a" and two identifiers
with the same first 63 bytes were probed, the table holds four entries, two of
them in one chain and two of them recorded twice, and their names are pairwise
distinct. -/
theorem one_entry_per_name_witness :
    (all_entries (run sample_hash init_state busy_events).perf_hash_table).map
        (fun e => (e.function_name, e.call_count))
      = [([111, 111, 102], 1), (name_foo, 2), ([97], 1), (long_stem, 2)]
    ∧ ((all_entries (run sample_hash init_state busy_events).perf_hash_table).map
        (fun e => e.function_name)).Nodup :=
  ⟨busy_state_entries,
    one_entry_per_name sample_hash _
      (reachable_run_from sample_hash busy_events init_state Reachable.init)⟩

/-! ## Overflow of total_time_ns -/

theorem found_after_first_call (K : KernelHash) (name : List Nat) (d : Nat)
    (hlen : name.length ≤ MAX_FUNCTION_NAME - 1) :
    found_entry K (update_perf_stats K true name d init_state) name
      = some (bump d (new_entry name)) := by
  rw [first_call_recorded]
  unfold found_entry
  simp only [Function.update_same]
  have hnm : (bump d (new_entry name)).function_name = name := List.take_of_length_le hlen
  simp [hnm]

/-- C8 (as amended). total_time_ns wraps and does not saturate: when
update_perf_stats adds a duration to the total of the entry it found and the
sum exceeds ULONG_MAX, the total after the call is the sum modulo 2^64, that
is the sum minus 2^64, a value below ULONG_MAX. -/
theorem total_time_wraps (K : KernelHash) (ok : Bool) (name : List Nat) (d : Nat) (s : State)
    (e : perf_trace_entry)
    (hen : s.tracing_enabled = true) (hbud : s.trace_count < MAX_TRACE_ENTRIES)
    (hfound : found_entry K s name = some e)
    (he : e.total_time_ns ≤ ULONG_MAX) (hd : d ≤ ULONG_MAX)
    (hover : e.total_time_ns + d > ULONG_MAX) :
    ∃ e2, found_entry K (update_perf_stats K ok name d s) name = some e2
      ∧ e2.total_time_ns = (e.total_time_ns + d) % 2 ^ 64
      ∧ e2.total_time_ns = e.total_time_ns + d - 2 ^ 64
      ∧ e2.total_time_ns < ULONG_MAX := by
  obtain ⟨_, _, h3, _⟩ := update_recorded K ok name d s hen hbud
    (fun hn => by rw [hfound] at hn; cases hn)
  refine ⟨bump d e, h3 e hfound, rfl, ?_, ?_⟩
  · show (e.total_time_ns + d) % 2 ^ 64 = _
    unfold ULONG_MAX at he hd hover
    omega
  · show (e.total_time_ns + d) % 2 ^ 64 < ULONG_MAX
    unfold ULONG_MAX at he hd hover ⊢
    omega

/-- Witness of C8 as amended: "foo" recorded once with duration ULONG_MAX from
the initial state, then once more with duration 1. -/
theorem total_time_wraps_witness :
    ∃ e2, found_entry sample_hash
          (update_perf_stats sample_hash false name_foo 1
            (update_perf_stats sample_hash true name_foo ULONG_MAX init_state)) name_foo
        = some e2
      ∧ e2.total_time_ns = ((bump ULONG_MAX (new_entry name_foo)).total_time_ns + 1) % 2 ^ 64
      ∧ e2.total_time_ns = (bump ULONG_MAX (new_entry name_foo)).total_time_ns + 1 - 2 ^ 64
      ∧ e2.total_time_ns < ULONG_MAX :=
  total_time_wraps sample_hash false name_foo 1
    (update_perf_stats sample_hash true name_foo ULONG_MAX init_state)
    (bump ULONG_MAX (new_entry name_foo))
    (by rw [first_call_recorded])
    (by rw [first_call_recorded]; decide)
    (found_after_first_call sample_hash name_foo ULONG_MAX (by decide))
    (by rw [first_record name_foo ULONG_MAX (Nat.le_refl _)])
    (by unfold ULONG_MAX; norm_num)
    (by rw [first_record name_foo ULONG_MAX (Nat.le_refl _)]; exact Nat.lt_succ_self _)

/-- C8 as stated fails: "foo" recorded with duration ULONG_MAX and then with
duration 1 has total_time_ns 0, the sum modulo 2^64, and not ULONG_MAX. -/
theorem total_time_does_not_saturate :
    (entries_named
        (record_all sample_hash name_foo [(true, ULONG_MAX), (false, 1)] init_state)
        name_foo).map (fun e => e.total_time_ns) = [0]
      ∧ (0 : Nat) ≠ ULONG_MAX := by
  rw [record_all_new sample_hash name_foo ULONG_MAX [(false, 1)] init_state (by decide)
    (entries_named_init name_foo) rfl (by decide)]
  have hnm : (bump_all ([(false, 1)].map Prod.snd)
      (bump ULONG_MAX (new_entry name_foo))).function_name = name_foo := by
    rw [bump_all_name]
    rfl
  rw [entries_named_pushed init_state name_foo _ _ true _ (entries_named_init name_foo) hnm]
  refine ⟨?_, by unfold ULONG_MAX; norm_num⟩
  show [wrap64 ((bump ULONG_MAX (new_entry name_foo)).total_time_ns + 1)] = [0]
  rw [first_record name_foo ULONG_MAX (Nat.le_refl _)]
  show [wrap64 (ULONG_MAX + 1)] = [0]
  unfold wrap64 ULONG_MAX
  norm_num

/-! ## The average lies between the minimum and the maximum -/

theorem chain_modify_mem (name : List Nat) (f : perf_trace_entry → perf_trace_entry)
    (chain : List perf_trace_entry) (i : Nat) (h : chain_find name chain = some i)
    (x : perf_trace_entry) (hx : x ∈ chain_modify f i chain) :
    x ∈ chain ∨ ∃ e0 ∈ chain, e0.function_name = name ∧ x = f e0 := by
  induction chain generalizing i with
  | nil => simp [chain_find] at h
  | cons a t ih =>
    by_cases ha : a.function_name = name
    · simp only [chain_find, ha, if_true, Option.some.injEq] at h
      subst h
      simp only [chain_modify, List.mem_cons] at hx
      rcases hx with hx | hx
      · right
        exact ⟨a, List.mem_cons_self _ _, ha, hx⟩
      · left
        exact List.mem_cons_of_mem _ hx
    · simp only [chain_find, ha, if_false, Option.map_eq_some'] at h
      obtain ⟨j, hj, hji⟩ := h
      subst hji
      simp only [chain_modify, List.mem_cons] at hx
      rcases hx with hx | hx
      · left
        rw [hx]
        exact List.mem_cons_self _ _
      · rcases ih j hj hx with h1 | ⟨e0, he0, hn, hxe⟩
        · left
          exact List.mem_cons_of_mem _ h1
        · right
          exact ⟨e0, List.mem_cons_of_mem _ he0, hn, hxe⟩

/-- The entries after update_perf_stats: the call changed nothing, or it was
recorded and every entry is an old one, the new entry with this one event, or
the update of an old entry of that name. -/
theorem update_entries (K : KernelHash) (ok : Bool) (name : List Nat) (d : Nat) (s : State) :
    update_perf_stats K ok name d s = s
      ∨ ((update_perf_stats K ok name d s).trace_count = s.trace_count + 1
          ∧ s.trace_count < MAX_TRACE_ENTRIES
          ∧ ∀ x ∈ all_entries (update_perf_stats K ok name d s).perf_hash_table,
              x ∈ all_entries s.perf_hash_table
                ∨ x = bump d (new_entry name)
                ∨ ∃ e0 ∈ all_entries s.perf_hash_table,
                    e0.function_name = name ∧ x = bump d e0) := by
  by_cases hdrop : s.tracing_enabled = false ∨ MAX_TRACE_ENTRIES ≤ s.trace_count
  · left
    exact update_dropped K ok name d s hdrop
  · have hen : s.tracing_enabled = true := by
      cases h : s.tracing_enabled with
      | true => rfl
      | false => exact absurd (Or.inl h) hdrop
    have hbud : s.trace_count < MAX_TRACE_ENTRIES := by
      by_contra h
      exact hdrop (Or.inr (Nat.le_of_not_lt h))
    cases hc : chain_find name (s.perf_hash_table (K.hash_min (K.jhash name))) with
    | none =>
      cases ok with
      | false =>
        left
        exact update_alloc_failed K name d s hc
      | true =>
        right
        rw [update_new K name d s hen hbud hc]
        refine ⟨rfl, hbud, ?_⟩
        intro x hx
        obtain ⟨b, hb⟩ := (mem_all_entries _ x).mp hx
        by_cases hbb : b = K.hash_min (K.jhash name)
        · subst hbb
          simp only [Function.update_same, List.mem_cons] at hb
          rcases hb with hb | hb
          · right; left; exact hb
          · left; exact (mem_all_entries _ x).mpr ⟨_, hb⟩
        · simp only [Function.update_noteq hbb] at hb
          left; exact (mem_all_entries _ x).mpr ⟨b, hb⟩
    | some i =>
      right
      rw [update_found K ok name d s i hen hbud hc]
      refine ⟨rfl, hbud, ?_⟩
      intro x hx
      obtain ⟨b, hb⟩ := (mem_all_entries _ x).mp hx
      by_cases hbb : b = K.hash_min (K.jhash name)
      · subst hbb
        simp only [Function.update_same] at hb
        rcases chain_modify_mem name (bump d) _ i hc x hb with h1 | ⟨e0, he0, hn, hxe⟩
        · left; exact (mem_all_entries _ x).mpr ⟨_, h1⟩
        · right; right
          exact ⟨e0, (mem_all_entries _ e0).mpr ⟨_, he0⟩, hn, hxe⟩
      · simp only [Function.update_noteq hbb] at hb
        left; exact (mem_all_entries _ x).mpr ⟨b, hb⟩

theorem entry_bounds_mono (tc tc2 : Nat) (e : perf_trace_entry) (h : entry_bounds tc e)
    (hle : tc ≤ tc2) : entry_bounds tc2 e :=
  ⟨h.1, h.2.1, le_trans h.2.2 hle⟩

theorem entry_bounds_first (tc : Nat) (name : List Nat) (d : Nat) (hd : d ≤ ULONG_MAX) :
    entry_bounds (tc + 1) (bump d (new_entry name)) := by
  rw [first_record name d hd]
  refine ⟨?_, ?_, ?_⟩
  · show d * 1 ≤ d
    omega
  · show d ≤ d * 1
    omega
  · show 1 ≤ tc + 1
    omega

theorem entry_bounds_bump (tc : Nat) (e : perf_trace_entry) (d : Nat)
    (h : entry_bounds tc e) (htc : tc < MAX_TRACE_ENTRIES)
    (hsum : e.total_time_ns + d ≤ ULONG_MAX) :
    entry_bounds (tc + 1) (bump d e) := by
  obtain ⟨h1, h2, h3⟩ := h
  unfold MAX_TRACE_ENTRIES at htc
  unfold ULONG_MAX at hsum
  have hc : wrap64 (e.call_count + 1) = e.call_count + 1 := by
    unfold wrap64
    exact Nat.mod_eq_of_lt (by omega)
  have ht : wrap64 (e.total_time_ns + d) = e.total_time_ns + d := by
    unfold wrap64
    exact Nat.mod_eq_of_lt (by omega)
  refine ⟨?_, ?_, ?_⟩
  · show (if d < e.min_time_ns then d else e.min_time_ns) * wrap64 (e.call_count + 1)
      ≤ wrap64 (e.total_time_ns + d)
    rw [hc, ht, Nat.mul_succ]
    split
    · rename_i hlt
      have := Nat.mul_le_mul_right e.call_count (Nat.le_of_lt hlt)
      omega
    · omega
  · show wrap64 (e.total_time_ns + d)
      ≤ (if d > e.max_time_ns then d else e.max_time_ns) * wrap64 (e.call_count + 1)
    rw [hc, ht, Nat.mul_succ]
    split
    · rename_i hlt
      have := Nat.mul_le_mul_right e.call_count (Nat.le_of_lt hlt)
      omega
    · omega
  · show wrap64 (e.call_count + 1) ≤ tc + 1
    rw [hc]
    omega

theorem bounds_reachable (K : KernelHash) (s : State) (h : ReachableNoOverflow K s) :
    ∀ e ∈ all_entries s.perf_hash_table, entry_bounds s.trace_count e := by
  induction h with
  | init =>
    intro e he
    rw [show init_state.perf_hash_table = fun _ => [] from rfl, all_entries_empty] at he
    cases he
  | step s ev _ hno ih =>
    cases ev with
    | call ok_ctx ok_entry symbol t0 t1 =>
      rcases step_call_cases K s ok_ctx ok_entry symbol t0 t1 with h | h
      · rw [h]; exact ih
      · rw [h]
        rcases update_entries K ok_entry (symbol.take (MAX_FUNCTION_NAME - 1))
          (to_ulong (t1 - t0)) s with hs | ⟨htc, hbud, hmem⟩
        · rw [hs]; exact ih
        · intro x hx
          rw [htc]
          rcases hmem x hx with h1 | h1 | ⟨e0, he0, hn, hxe⟩
          · exact entry_bounds_mono _ _ x (ih x h1) (Nat.le_succ _)
          · rw [h1]
            exact entry_bounds_first _ _ _ (to_ulong_le _)
          · rw [hxe]
            exact entry_bounds_bump _ e0 _ (ih e0 he0) hbud (hno e0 he0 hn)
    | write buffer count =>
      show ∀ e ∈ all_entries (perf_proc_write buffer count s).2.perf_hash_table,
        entry_bounds (perf_proc_write buffer count s).2.trace_count e
      rcases write_cases buffer count s with h | h | h | h
      · rw [h]; exact ih
      · rw [h]; exact ih
      · rw [h]; exact ih
      · rw [h]
        intro e he
        simp only [all_entries_empty] at he
        cases he

/-- C9 (as amended). In every state reached from the initial state by probed
calls and control writes none of which made a total_time_ns exceed ULONG_MAX,
every entry with call_count > 0 satisfies
min_time_ns <= total_time_ns / call_count <= max_time_ns (integer division). -/
theorem average_between_min_and_max (K : KernelHash) (s : State)
    (h : ReachableNoOverflow K s) :
    ∀ e ∈ all_entries s.perf_hash_table, e.call_count > 0 →
      e.min_time_ns ≤ e.total_time_ns / e.call_count
        ∧ e.total_time_ns / e.call_count ≤ e.max_time_ns := by
  intro e he hpos
  obtain ⟨h1, h2, _⟩ := bounds_reachable K s h e he
  refine ⟨(Nat.le_div_iff_mul_le hpos).mpr h1, ?_⟩
  exact Nat.div_le_of_le_mul (by rw [Nat.mul_comm]; exact h2)

theorem entries_after_first_call (K : KernelHash) (name : List Nat) (d : Nat) :
    all_entries (update_perf_stats K true name d init_state).perf_hash_table
      = [bump d (new_entry name)] := by
  rw [first_call_recorded]
  exact all_entries_single _ _

theorem no_overflow_init (ev : Event) : no_overflow init_state ev := by
  cases ev with
  | call ok_ctx ok_entry symbol t0 t1 =>
    intro e he
    rw [show init_state.perf_hash_table = fun _ => [] from rfl, all_entries_empty] at he
    cases he
  | write buffer count => trivial

theorem foo_twice_mem :
    foo_twice ∈ all_entries
      (step sample_hash (step sample_hash init_state (.call true true name_foo 0 150))
        (.call true true name_foo 200 230)).perf_hash_table := by
  have hrun : step sample_hash (step sample_hash init_state (.call true true name_foo 0 150))
        (.call true true name_foo 200 230)
      = record_all sample_hash (name_foo.take (MAX_FUNCTION_NAME - 1))
          [(true, to_ulong (150 - 0)), (true, to_ulong (230 - 200))] init_state := rfl
  rw [hrun, record_all_new sample_hash _ _ _ init_state (List.length_take_le _ _)
    (entries_named_init _) rfl (by decide), mem_all_entries]
  refine ⟨sample_hash.hash_min (sample_hash.jhash (name_foo.take (MAX_FUNCTION_NAME - 1))), ?_⟩
  simp only [Function.update_same]
  rw [first_record _ _ (to_ulong_le _)]
  decide

theorem foo_twice_no_overflow :
    no_overflow (step sample_hash init_state (.call true true name_foo 0 150))
      (.call true true name_foo 200 230) := by
  intro e he _
  have hs : step sample_hash init_state (.call true true name_foo 0 150)
      = update_perf_stats sample_hash true (name_foo.take (MAX_FUNCTION_NAME - 1))
          (to_ulong (150 - 0)) init_state := rfl
  rw [hs, entries_after_first_call, List.mem_singleton] at he
  rw [he, first_record _ _ (to_ulong_le _)]
  decide

/-- Witness of C9 as amended: "foo" probed from time 0 to 150 and again from
200 to 230, starting in the initial state, has the entry with count 2, total
180, minimum 30 and maximum 150, whose average 90 lies between the two. -/
theorem average_between_min_and_max_witness :
    foo_twice ∈ all_entries
        (step sample_hash (step sample_hash init_state (.call true true name_foo 0 150))
          (.call true true name_foo 200 230)).perf_hash_table
      ∧ foo_twice.min_time_ns ≤ foo_twice.total_time_ns / foo_twice.call_count
      ∧ foo_twice.total_time_ns / foo_twice.call_count ≤ foo_twice.max_time_ns :=
  ⟨foo_twice_mem,
    average_between_min_and_max sample_hash _
      (ReachableNoOverflow.step _ _
        (ReachableNoOverflow.step _ _ ReachableNoOverflow.init (no_overflow_init _))
        foo_twice_no_overflow)
      foo_twice foo_twice_mem (by decide)⟩

/-- C9 as stated fails in a reachable state: "foo" probed twice with the clock
one nanosecond earlier at exit than at entry has call_count 2 and
total_time_ns 2^64 - 2, so that the average 2^63 - 1 is below min_time_ns,
which is 2^64 - 1. -/
theorem average_below_min_after_overflow :
    Reachable sample_hash
        (run sample_hash init_state
          [.call true true name_foo 1 0, .call true true name_foo 1 0])
      ∧ ∃ e ∈ all_entries
            (run sample_hash init_state
              [.call true true name_foo 1 0, .call true true name_foo 1 0]).perf_hash_table,
          e.call_count > 0 ∧ ¬ (e.min_time_ns ≤ e.total_time_ns / e.call_count) := by
  refine ⟨reachable_run_from sample_hash _ init_state Reachable.init, ?_⟩
  have hrun : run sample_hash init_state
      [.call true true name_foo 1 0, .call true true name_foo 1 0]
      = record_all sample_hash (name_foo.take (MAX_FUNCTION_NAME - 1))
          [(true, to_ulong (0 - 1)), (true, to_ulong (0 - 1))] init_state := rfl
  rw [hrun, record_all_new sample_hash _ _ _ init_state (List.length_take_le _ _)
    (entries_named_init _) rfl (by decide)]
  refine ⟨bump (to_ulong (0 - 1)) (bump (to_ulong (0 - 1))
    (new_entry (name_foo.take (MAX_FUNCTION_NAME - 1)))), ?_, ?_⟩
  · rw [mem_all_entries]
    refine ⟨sample_hash.hash_min (sample_hash.jhash (name_foo.take (MAX_FUNCTION_NAME - 1))), ?_⟩
    simp only [Function.update_same]
    exact List.mem_cons_self _ _
  · rw [first_record _ _ (to_ulong_le _)]
    decide

/-! ## Clock regression -/

/-- C10 (as amended). When the clock value at exit is earlier than the start
time stored in the call context (both within the range of the signed 64-bit
ktime_t), the duration the exit handler passes to update_perf_stats is the
difference reduced modulo 2^64, that is 2^64 - (start - end), a positive value;
it is not clamped to 0. -/
theorem clock_regression_wraps (K : KernelHash) (ok : Bool) (now : Int)
    (ctx : function_call_context) (s : State)
    (hreg : now < ctx.start_time)
    (hlo : -(2 ^ 63) ≤ now) (hhi : ctx.start_time < 2 ^ 63) :
    kprobe_post_handler K ok now { ax := some ctx } s
        = update_perf_stats K ok ctx.function_name
            (2 ^ 64 - (ctx.start_time - now).toNat) s
      ∧ 0 < 2 ^ 64 - (ctx.start_time - now).toNat := by
  have hd : to_ulong (now - ctx.start_time) = 2 ^ 64 - (ctx.start_time - now).toNat := by
    unfold to_ulong
    omega
  refine ⟨?_, by omega⟩
  show update_perf_stats K ok ctx.function_name (to_ulong (now - ctx.start_time)) s = _
  rw [hd]

/-- Witness of C10 as amended: a context started at time 150 and an exit at time 0. -/
theorem clock_regression_wraps_witness :
    kprobe_post_handler sample_hash true 0
          { ax := some { start_time := 150, function_name := name_foo } } init_state
        = update_perf_stats sample_hash true name_foo (2 ^ 64 - ((150 : Int) - 0).toNat) init_state
      ∧ 0 < 2 ^ 64 - ((150 : Int) - 0).toNat :=
  clock_regression_wraps sample_hash true 0 { start_time := 150, function_name := name_foo }
    init_state (by decide) (by decide) (by decide)

/-- C10 as stated fails: from the initial state, "foo" entered at time 150 and
left at time 0 is recorded with the duration 2^64 - 150 and not with 0, as the
row of the report shows. -/
theorem clock_regression_not_clamped :
    (perf_proc_show
        (kprobe_post_handler sample_hash true 0
          (kprobe_pre_handler true 150 { symbol_name := name_foo } { ax := none })
          init_state)).rows
      = [{ name := name_foo, count := 1, total := 18446744073709551466,
           avg := 18446744073709551466, min := 18446744073709551466,
           max := 18446744073709551466 }] := by
  rw [begin_end, first_call_recorded]
  have hd : to_ulong (0 - 150) = 18446744073709551466 := by decide
  have hn : name_foo.take (MAX_FUNCTION_NAME - 1) = name_foo := by decide
  have hle : (18446744073709551466 : Nat) ≤ ULONG_MAX := by decide
  have hne : (18446744073709551466 : Nat) ≠ ULONG_MAX := by decide
  simp only [perf_proc_show, all_entries_single, hd, hn,
    first_record name_foo 18446744073709551466 hle,
    List.map_cons, List.map_nil, show_entry, hne, if_false]
  simp

/-! ## The flag is read when the event is recorded -/

/-- C11 (as amended). The tracing flag is read by the exit handler and not by
the entry handler. An event whose entry handler ran while tracing was enabled
and whose exit handler runs after the write of "0" is dropped: the state is
unchanged. An event whose entry handler ran while tracing was disabled (its
call context allocated) and whose exit handler runs after the write of "1" is
recorded, budget permitting and the allocation of the entry succeeding when the
name has no entry yet: trace_count grows by one, the entry found for the name
is updated, and a name without entry gets a new entry holding this event. -/
theorem flag_read_at_exit (K : KernelHash) (s : State) (ok_ctx ok : Bool) (p : kprobe)
    (regs : pt_regs) (t0 t1 : Int) :
    (s.tracing_enabled = true →
      kprobe_post_handler K ok t1 (kprobe_pre_handler ok_ctx t0 p regs)
          (perf_proc_write cmd_disable 1 s).2
        = (perf_proc_write cmd_disable 1 s).2)
    ∧ (s.tracing_enabled = false → s.trace_count < MAX_TRACE_ENTRIES →
        (found_entry K s (p.symbol_name.take (MAX_FUNCTION_NAME - 1)) = none → ok = true) →
        (kprobe_post_handler K ok t1 (kprobe_pre_handler true t0 p regs)
            (perf_proc_write cmd_enable 1 s).2).trace_count = s.trace_count + 1
          ∧ (∀ e, found_entry K s (p.symbol_name.take (MAX_FUNCTION_NAME - 1)) = some e →
              found_entry K
                  (kprobe_post_handler K ok t1 (kprobe_pre_handler true t0 p regs)
                    (perf_proc_write cmd_enable 1 s).2)
                  (p.symbol_name.take (MAX_FUNCTION_NAME - 1))
                = some (bump (to_ulong (t1 - t0)) e))
          ∧ (found_entry K s (p.symbol_name.take (MAX_FUNCTION_NAME - 1)) = none →
              (kprobe_post_handler K ok t1 (kprobe_pre_handler true t0 p regs)
                  (perf_proc_write cmd_enable 1 s).2).perf_hash_table
                  (K.hash_min (K.jhash (p.symbol_name.take (MAX_FUNCTION_NAME - 1))))
                = bump (to_ulong (t1 - t0)) (new_entry (p.symbol_name.take (MAX_FUNCTION_NAME - 1)))
                    :: s.perf_hash_table
                        (K.hash_min (K.jhash (p.symbol_name.take (MAX_FUNCTION_NAME - 1)))))) := by
  refine ⟨?_, ?_⟩
  · intro _
    rw [write_disable]
    exact post_handler_disabled K ok t1 _ _ rfl
  · intro _ hbud halloc
    rw [write_enable]
    have hbe : kprobe_post_handler K ok t1 (kprobe_pre_handler true t0 p regs)
        { s with tracing_enabled := true }
        = update_perf_stats K ok (p.symbol_name.take (MAX_FUNCTION_NAME - 1))
            (to_ulong (t1 - t0)) { s with tracing_enabled := true } := rfl
    rw [hbe]
    obtain ⟨h1, _, h3, h4⟩ := update_recorded K ok (p.symbol_name.take (MAX_FUNCTION_NAME - 1))
      (to_ulong (t1 - t0)) { s with tracing_enabled := true } rfl hbud halloc
    exact ⟨h1, h3, h4⟩

/-- C11 as stated fails when the allocation of the entry fails: "foo" is
entered while tracing is disabled and left after the write of "1", kmalloc
returning NULL in find_or_create_entry; the event is not recorded, trace_count
stays 0 and there is no entry for "foo". -/
theorem flag_read_at_exit_alloc_failure :
    disabled_state.tracing_enabled = false
      ∧ (kprobe_post_handler sample_hash false 150
          (kprobe_pre_handler true 0 { symbol_name := name_foo } { ax := none })
          (perf_proc_write cmd_enable 1 disabled_state).2).trace_count = 0
      ∧ entries_named
          (kprobe_post_handler sample_hash false 150
            (kprobe_pre_handler true 0 { symbol_name := name_foo } { ax := none })
            (perf_proc_write cmd_enable 1 disabled_state).2) name_foo = [] := by
  have h : (perf_proc_write cmd_enable 1 disabled_state).2 = init_state := by
    rw [disabled_state, write_disable, write_enable]
    rfl
  refine ⟨by rw [disabled_state, write_disable], ?_⟩
  rw [h, begin_end, first_call_alloc_failed]
  exact ⟨rfl, entries_named_init name_foo⟩

/-- Witness of C11 as amended: "foo" entered in the initial state and left after
the write of "0" is dropped; "foo" entered with tracing disabled and left after
the write of "1" is recorded. -/
theorem flag_read_at_exit_witness :
    kprobe_post_handler sample_hash true 150
        (kprobe_pre_handler true 0 { symbol_name := name_foo } { ax := none })
        (perf_proc_write cmd_disable 1 init_state).2
      = (perf_proc_write cmd_disable 1 init_state).2
    ∧ (kprobe_post_handler sample_hash true 150
        (kprobe_pre_handler true 0 { symbol_name := name_foo } { ax := none })
        (perf_proc_write cmd_enable 1 disabled_state).2).trace_count
      = disabled_state.trace_count + 1 :=
  have hd : disabled_state.tracing_enabled = false := by rw [disabled_state, write_disable]
  have hb : disabled_state.trace_count < MAX_TRACE_ENTRIES := by
    rw [disabled_state, write_disable]
    decide
  ⟨(flag_read_at_exit sample_hash init_state true true { symbol_name := name_foo }
      { ax := none } 0 150).1 rfl,
   ((flag_read_at_exit sample_hash disabled_state true true { symbol_name := name_foo }
      { ax := none } 0 150).2 hd hb (fun _ => rfl)).1⟩

/-! ## The three commands -/

theorem write_enable_newline (s : State) :
    perf_proc_write (cmd_enable ++ [10]) 2 s = (2, { s with tracing_enabled := true }) := by
  simp [perf_proc_write, cmd_enable, strncmp_eq]

theorem write_disable_newline (s : State) :
    perf_proc_write (cmd_disable ++ [10]) 2 s = (2, { s with tracing_enabled := false }) := by
  simp [perf_proc_write, cmd_disable, strncmp_eq]

/-- C12. For every state, the write of "1" (also as "1\n", the form echo
produces) sets tracing_enabled to true and the write of "0" (also as "0\n")
sets it to false, the table and trace_count staying as they were; the write of
"clear" (also as "clear\n") empties every bucket and sets trace_count to 0,
the flag staying as it was; each of these writes returns the number of bytes
written. -/
theorem control_commands (s : State) :
    perf_proc_write cmd_enable 1 s
        = (1, { perf_hash_table := s.perf_hash_table, tracing_enabled := true,
                trace_count := s.trace_count })
      ∧ perf_proc_write (cmd_enable ++ [10]) 2 s
        = (2, { perf_hash_table := s.perf_hash_table, tracing_enabled := true,
                trace_count := s.trace_count })
      ∧ perf_proc_write cmd_disable 1 s
        = (1, { perf_hash_table := s.perf_hash_table, tracing_enabled := false,
                trace_count := s.trace_count })
      ∧ perf_proc_write (cmd_disable ++ [10]) 2 s
        = (2, { perf_hash_table := s.perf_hash_table, tracing_enabled := false,
                trace_count := s.trace_count })
      ∧ perf_proc_write cmd_clear 5 s
        = (5, { perf_hash_table := fun _ => [], tracing_enabled := s.tracing_enabled,
                trace_count := 0 })
      ∧ perf_proc_write (cmd_clear ++ [10]) 6 s
        = (6, { perf_hash_table := fun _ => [], tracing_enabled := s.tracing_enabled,
                trace_count := 0 }) := by
  have h5 := write_clear [] s (by decide)
  have h6 := write_clear [10] s (by decide)
  simp only [List.append_nil, List.length_nil, Nat.add_zero, List.length_singleton] at h5 h6
  exact ⟨write_enable s, write_enable_newline s, write_disable s, write_disable_newline s,
    h5, h6⟩

/-! ## Writes that are no command -/

/-- The comparison of the command buffer with a literal without NUL byte, over
the length of the literal, tells whether the content starts with the literal. -/
theorem strncmp_literal (lit c : List Nat) (hnz : ∀ x ∈ lit, x ≠ 0) :
    strncmp_eq (c ++ [0]) lit lit.length = true ↔ c.take lit.length = lit := by
  induction lit generalizing c with
  | nil => simp [strncmp_eq]
  | cons k lt ih =>
    have hk : k ≠ 0 := hnz k (List.mem_cons_self _ _)
    have hlt : ∀ x ∈ lt, x ≠ 0 := fun x hx => hnz x (List.mem_cons_of_mem _ hx)
    cases c with
    | nil =>
      simp [strncmp_eq, Ne.symm hk]
    | cons a ct =>
      by_cases hak : a = k
      · subst hak
        simp only [List.length_cons, strncmp_eq, List.cons_append, List.headD_cons,
          ne_eq, not_true_eq_false, if_false, hk, List.tail_cons, List.take_succ_cons,
          List.cons.injEq, true_and]
        exact ih ct hlt
      · simp [strncmp_eq, hak]

theorem strncmp_first (c : List Nat) (k : Nat) (hk : k ≠ 0) :
    strncmp_eq (c ++ [0]) [k] 1 = true ↔ c.head? = some k := by
  have h := strncmp_literal [k] c (by simpa using hk)
  simp only [List.length_singleton] at h
  rw [h]
  cases c with
  | nil => simp
  | cons a ct => simp

/-- A write of fewer than 16 readable bytes is dispatched on how its content
starts. -/
theorem write_dispatch (buffer : List Nat) (count : Nat) (s : State)
    (hcount : count < 16) (hread : count ≤ buffer.length) :
    perf_proc_write buffer count s =
      if (buffer.take count).head? = some 49 then
        ((count : Int), { s with tracing_enabled := true })
      else if (buffer.take count).head? = some 48 then
        ((count : Int), { s with tracing_enabled := false })
      else if (buffer.take count).take 5 = cmd_clear then
        ((count : Int), { s with perf_hash_table := fun _ => [], trace_count := 0 })
      else ((count : Int), s) := by
  unfold perf_proc_write
  have h1 : ¬ (count ≥ 16) := by omega
  have h2 : ¬ (buffer.length < count) := by omega
  have e1 := strncmp_first (buffer.take count) 49 (by decide)
  have e0 := strncmp_first (buffer.take count) 48 (by decide)
  have ec := strncmp_literal cmd_clear (buffer.take count) (by decide)
  have hl : cmd_clear.length = 5 := rfl
  rw [hl] at ec
  have hcl : ([99, 108, 101, 97, 114] : List Nat) = cmd_clear := rfl
  simp only [h1, h2, if_false, hcl]
  by_cases c1 : (buffer.take count).head? = some 49
  · simp [c1, e1.mpr c1]
  · have n1 : strncmp_eq (buffer.take count ++ [0]) [49] 1 = false := by
      cases h : strncmp_eq (buffer.take count ++ [0]) [49] 1 with
      | false => rfl
      | true => exact absurd (e1.mp h) c1
    by_cases c0 : (buffer.take count).head? = some 48
    · simp [c1, n1, c0, e0.mpr c0]
    · have n0 : strncmp_eq (buffer.take count ++ [0]) [48] 1 = false := by
        cases h : strncmp_eq (buffer.take count ++ [0]) [48] 1 with
        | false => rfl
        | true => exact absurd (e0.mp h) c0
      by_cases cc : (buffer.take count).take 5 = cmd_clear
      · simp [c1, n1, c0, n0, cc, ec.mpr cc]
      · have nc : strncmp_eq (buffer.take count ++ [0]) cmd_clear 5 = false := by
          cases h : strncmp_eq (buffer.take count ++ [0]) cmd_clear 5 with
          | false => rfl
          | true => exact absurd (ec.mp h) cc
        simp [c1, n1, c0, n0, cc, nc]

/-- C13 (as amended). Every write of fewer than 16 readable bytes whose content
starts with none of "1", "0" and "clear" leaves tracing_enabled, all entries
and trace_count unchanged and returns its byte count: it is ignored, and no
error is returned to the writer. -/
theorem unknown_write_ignored (buffer : List Nat) (count : Nat) (s : State)
    (hcount : count < 16) (hread : count ≤ buffer.length)
    (h1 : (buffer.take count).head? ≠ some 49)
    (h0 : (buffer.take count).head? ≠ some 48)
    (hc : (buffer.take count).take 5 ≠ cmd_clear) :
    perf_proc_write buffer count s = ((count : Int), s)
      ∧ 0 ≤ (perf_proc_write buffer count s).1 := by
  have h : perf_proc_write buffer count s = ((count : Int), s) := by
    rw [write_dispatch buffer count s hcount hread]
    simp only [h1, h0, hc, if_false]
  rw [h]
  exact ⟨rfl, Int.natCast_nonneg count⟩

/-- Witness of C13 as amended: the write of "help\n" in the initial state. -/
theorem unknown_write_ignored_witness :
    perf_proc_write [104, 101, 108, 112, 10] 5 init_state = (((5 : Nat) : Int), init_state)
      ∧ 0 ≤ (perf_proc_write [104, 101, 108, 112, 10] 5 init_state).1 :=
  unknown_write_ignored [104, 101, 108, 112, 10] 5 init_state (by decide) (by decide)
    (by decide) (by decide) (by decide)

/-- C13 as stated fails: the write of "x" is not rejected, it returns its byte
count 1; and the write of "10", which is none of the three commands, switches
tracing on in a state where it was off. -/
theorem unknown_write_not_rejected :
    (perf_proc_write [120] 1 init_state).1 = 1
      ∧ disabled_state.tracing_enabled = false
      ∧ (perf_proc_write [49, 48] 2 disabled_state).1 = 2
      ∧ (perf_proc_write [49, 48] 2 disabled_state).2.tracing_enabled = true := by
  refine ⟨?_, ?_, ?_, ?_⟩
  · simp [perf_proc_write, strncmp_eq]
  · rw [disabled_state, write_disable]
  · simp [perf_proc_write, strncmp_eq]
  · simp [perf_proc_write, strncmp_eq]

/-! ## The average of the report -/

/-- C14. For every entry the average of its report row is
total_time_ns / call_count (integer division) when call_count > 0 and 0 when
call_count is 0, and the division is never made with the divisor 0: with the
division as a partial operation, the row of every entry and the rows of every
state are defined and are those of perf_proc_show. -/
theorem average_guarded (e : perf_trace_entry) (s : State) :
    (e.call_count > 0 → (show_entry e).avg = e.total_time_ns / e.call_count)
      ∧ (e.call_count = 0 → (show_entry e).avg = 0)
      ∧ show_entry_checked e = some (show_entry e)
      ∧ rows_checked s = some (perf_proc_show s).rows
      ∧ (perf_proc_show s).rows = (all_entries s.perf_hash_table).map show_entry := by
  have hrow : ∀ x : perf_trace_entry, show_entry_checked x = some (show_entry x) := by
    intro x
    unfold show_entry_checked show_entry checked_div
    by_cases hx : x.call_count > 0
    · have hne : x.call_count ≠ 0 := Nat.pos_iff_ne_zero.mp hx
      simp [hx, hne]
    · simp [hx]
  have hrows : (perf_proc_show s).rows = (all_entries s.perf_hash_table).map show_entry := by
    unfold perf_proc_show
    simp only []
  refine ⟨?_, ?_, hrow e, ?_, hrows⟩
  · intro h
    simp [show_entry, h]
  · intro h
    simp [show_entry, h]
  · rw [hrows]
    unfold rows_checked
    induction all_entries s.perf_hash_table with
    | nil => rfl
    | cons a t ih => simp [collect_rows, hrow a, ih]

/-! ## trace_count counts the recorded events -/

/-- The outcomes of update_perf_stats: nothing, a new entry at the head of the
chain, or the update of the entry found. -/
theorem update_cases (K : KernelHash) (ok : Bool) (name : List Nat) (d : Nat) (s : State) :
    update_perf_stats K ok name d s = s
      ∨ (s.trace_count < MAX_TRACE_ENTRIES
          ∧ chain_find name (s.perf_hash_table (K.hash_min (K.jhash name))) = none
          ∧ update_perf_stats K ok name d s =
              { perf_hash_table :=
                  Function.update s.perf_hash_table (K.hash_min (K.jhash name))
                    (bump d (new_entry name)
                      :: s.perf_hash_table (K.hash_min (K.jhash name)))
                tracing_enabled := true
                trace_count := s.trace_count + 1 })
      ∨ (s.trace_count < MAX_TRACE_ENTRIES
          ∧ ∃ i, chain_find name (s.perf_hash_table (K.hash_min (K.jhash name))) = some i
              ∧ update_perf_stats K ok name d s =
                  { perf_hash_table :=
                      Function.update s.perf_hash_table (K.hash_min (K.jhash name))
                        (chain_modify (bump d) i
                          (s.perf_hash_table (K.hash_min (K.jhash name))))
                    tracing_enabled := true
                    trace_count := s.trace_count + 1 }) := by
  by_cases hdrop : s.tracing_enabled = false ∨ MAX_TRACE_ENTRIES ≤ s.trace_count
  · left
    exact update_dropped K ok name d s hdrop
  · have hen : s.tracing_enabled = true := by
      cases h : s.tracing_enabled with
      | true => rfl
      | false => exact absurd (Or.inl h) hdrop
    have hbud : s.trace_count < MAX_TRACE_ENTRIES := by
      by_contra h
      exact hdrop (Or.inr (Nat.le_of_not_lt h))
    cases hc : chain_find name (s.perf_hash_table (K.hash_min (K.jhash name))) with
    | none =>
      cases ok with
      | false =>
        left
        exact update_alloc_failed K name d s hc
      | true =>
        right; left
        exact ⟨hbud, rfl, update_new K name d s hen hbud hc⟩
    | some i =>
      right; right
      exact ⟨hbud, i, rfl, update_found K ok name d s i hen hbud hc⟩

/-- C15. A call of update_perf_stats made while tracing is disabled or the
budget is used up returns the state unchanged, trace_count included. A call
that changes the table increases trace_count by exactly 1, so that the
remaining budget decreases by one; this is what every call does that is made
with tracing enabled and budget left and that finds its entry or can allocate a
new one: the entry found is updated, or the new entry is put at the head of its
chain. No call changes trace_count by anything but 0 or 1. -/
theorem trace_count_counts_updates (K : KernelHash) (ok : Bool) (name : List Nat) (d : Nat)
    (s : State) :
    (s.tracing_enabled = false ∨ MAX_TRACE_ENTRIES ≤ s.trace_count →
        update_perf_stats K ok name d s = s
          ∧ (update_perf_stats K ok name d s).trace_count = s.trace_count)
      ∧ ((update_perf_stats K ok name d s).perf_hash_table ≠ s.perf_hash_table →
          (update_perf_stats K ok name d s).trace_count = s.trace_count + 1
            ∧ events_remaining (update_perf_stats K ok name d s) + 1 = events_remaining s)
      ∧ (s.tracing_enabled = true → s.trace_count < MAX_TRACE_ENTRIES →
          (found_entry K s name = none → ok = true) →
          (update_perf_stats K ok name d s).trace_count = s.trace_count + 1
            ∧ events_remaining (update_perf_stats K ok name d s) + 1 = events_remaining s
            ∧ (∀ e, found_entry K s name = some e →
                found_entry K (update_perf_stats K ok name d s) name = some (bump d e))
            ∧ (found_entry K s name = none →
                (update_perf_stats K ok name d s).perf_hash_table (K.hash_min (K.jhash name))
                  = bump d (new_entry name)
                      :: s.perf_hash_table (K.hash_min (K.jhash name))))
      ∧ ((update_perf_stats K ok name d s).trace_count = s.trace_count
          ∨ (update_perf_stats K ok name d s).trace_count = s.trace_count + 1) := by
  have hrem : ∀ s2 : State, s.trace_count < MAX_TRACE_ENTRIES →
      s2.trace_count = s.trace_count + 1 → events_remaining s2 + 1 = events_remaining s := by
    intro s2 hb h2
    unfold events_remaining
    rw [h2]
    omega
  refine ⟨?_, ?_, ?_, ?_⟩
  · intro h
    rw [update_dropped K ok name d s h]
    exact ⟨rfl, rfl⟩
  · intro hne
    rcases update_entries K ok name d s with h | ⟨h1, hb, _⟩
    · rw [h] at hne
      exact absurd rfl hne
    · exact ⟨h1, hrem _ hb h1⟩
  · intro hen hbud halloc
    obtain ⟨h1, _, h3, h4⟩ := update_recorded K ok name d s hen hbud halloc
    exact ⟨h1, hrem _ hbud h1, h3, h4⟩
  · rcases update_entries K ok name d s with h | ⟨h1, _, _⟩
    · left
      rw [h]
    · right
      exact h1

/-! ## The sum of the call counts -/

theorem flatMap_agree {ι α : Type} (l : List ι) (f g : ι → List α)
    (h : ∀ x ∈ l, f x = g x) : l.flatMap f = l.flatMap g := by
  induction l with
  | nil => rfl
  | cons a t ih =>
    rw [List.flatMap_cons, List.flatMap_cons, h a (List.mem_cons_self _ _),
      ih (fun x hx => h x (List.mem_cons_of_mem _ hx))]

/-- The entries of the table around the chain of bucket `b`: replacing the
chain replaces that part of the list and nothing else. -/
theorem all_entries_update (tbl : HashTable) (b : Fin 256) :
    ∃ pre post, all_entries tbl = pre ++ tbl b ++ post
      ∧ ∀ c, all_entries (Function.update tbl b c) = pre ++ c ++ post := by
  obtain ⟨l1, l2, hl⟩ := List.append_of_mem (List.mem_finRange b)
  have hnd : (l1 ++ b :: l2).Nodup := hl ▸ List.nodup_finRange 256
  have hb1 : b ∉ l1 := by
    intro hb
    exact (List.nodup_append.mp hnd).2.2 hb (List.mem_cons_self _ _)
  have hb2 : b ∉ l2 := (List.nodup_cons.mp (List.nodup_append.mp hnd).2.1).1
  refine ⟨l1.flatMap tbl, l2.flatMap tbl, ?_, ?_⟩
  · unfold all_entries
    rw [hl, List.flatMap_append, List.flatMap_cons, List.append_assoc]
  · intro c
    unfold all_entries
    rw [hl, List.flatMap_append, List.flatMap_cons, Function.update_same,
      flatMap_agree l1 (Function.update tbl b c) tbl
        (fun x hx => by
          have hne : x ≠ b := fun hxb => hb1 (hxb ▸ hx)
          exact Function.update_noteq hne c tbl),
      flatMap_agree l2 (Function.update tbl b c) tbl
        (fun x hx => by
          have hne : x ≠ b := fun hxb => hb2 (hxb ▸ hx)
          exact Function.update_noteq hne c tbl),
      List.append_assoc]

theorem count_sum_update (tbl : HashTable) (b : Fin 256) (c : List perf_trace_entry) :
    count_sum (Function.update tbl b c) + ((tbl b).map (fun e => e.call_count)).sum
      = count_sum tbl + (c.map (fun e => e.call_count)).sum := by
  obtain ⟨pre, post, h1, h2⟩ := all_entries_update tbl b
  unfold count_sum
  rw [h1, h2 c]
  simp only [List.map_append, List.sum_append]
  omega

theorem chain_modify_sum (name : List Nat) (f : perf_trace_entry → perf_trace_entry)
    (chain : List perf_trace_entry) (i : Nat) (h : chain_find name chain = some i) :
    ∃ e ∈ chain, ((chain_modify f i chain).map (fun x => x.call_count)).sum + e.call_count
      = (chain.map (fun x => x.call_count)).sum + (f e).call_count := by
  induction chain generalizing i with
  | nil => simp [chain_find] at h
  | cons a t ih =>
    by_cases ha : a.function_name = name
    · simp only [chain_find, ha, if_true, Option.some.injEq] at h
      subst h
      refine ⟨a, List.mem_cons_self _ _, ?_⟩
      simp only [chain_modify, List.map_cons, List.sum_cons]
      omega
    · simp only [chain_find, ha, if_false, Option.map_eq_some'] at h
      obtain ⟨j, hj, hji⟩ := h
      subst hji
      obtain ⟨e, he, hsum⟩ := ih j hj
      refine ⟨e, List.mem_cons_of_mem _ he, ?_⟩
      simp only [chain_modify, List.map_cons, List.sum_cons]
      omega

theorem call_count_le_sum (tbl : HashTable) (e : perf_trace_entry) (b : Fin 256)
    (he : e ∈ tbl b) : e.call_count ≤ count_sum tbl := by
  unfold count_sum
  exact List.le_sum_of_mem
    (List.mem_map.mpr ⟨e, (mem_all_entries tbl e).mpr ⟨b, he⟩, rfl⟩)

/-- Every call of update_perf_stats keeps the sum of the call counts equal to
trace_count and trace_count within the budget. -/
theorem budget_update (K : KernelHash) (ok : Bool) (name : List Nat) (d : Nat) (s : State)
    (hsum : count_sum s.perf_hash_table = s.trace_count)
    (hle : s.trace_count ≤ MAX_TRACE_ENTRIES) :
    count_sum (update_perf_stats K ok name d s).perf_hash_table
        = (update_perf_stats K ok name d s).trace_count
      ∧ (update_perf_stats K ok name d s).trace_count ≤ MAX_TRACE_ENTRIES := by
  rcases update_cases K ok name d s with h | ⟨hbud, _, h⟩ | ⟨hbud, i, hi, h⟩
  · rw [h]
    exact ⟨hsum, hle⟩
  · rw [h]
    refine ⟨?_, hbud⟩
    have hc := count_sum_update s.perf_hash_table (K.hash_min (K.jhash name))
      (bump d (new_entry name) :: s.perf_hash_table (K.hash_min (K.jhash name)))
    have h1 : (bump d (new_entry name)).call_count = 1 := by
      show wrap64 (0 + 1) = 1
      unfold wrap64
      exact Nat.mod_eq_of_lt (by omega)
    simp only [List.map_cons, List.sum_cons, h1] at hc
    show count_sum (Function.update s.perf_hash_table _ _) = s.trace_count + 1
    omega
  · rw [h]
    refine ⟨?_, hbud⟩
    obtain ⟨e, he, hm⟩ := chain_modify_sum name (bump d) _ i hi
    have hc := count_sum_update s.perf_hash_table (K.hash_min (K.jhash name))
      (chain_modify (bump d) i (s.perf_hash_table (K.hash_min (K.jhash name))))
    have hec := call_count_le_sum s.perf_hash_table e _ he
    have hb : (bump d e).call_count = e.call_count + 1 := by
      show wrap64 (e.call_count + 1) = _
      unfold wrap64
      unfold MAX_TRACE_ENTRIES at hbud
      exact Nat.mod_eq_of_lt (by omega)
    show count_sum (Function.update s.perf_hash_table _ _) = s.trace_count + 1
    omega

theorem budget_reachable (K : KernelHash) (s : State) (h : Reachable K s) :
    count_sum s.perf_hash_table = s.trace_count ∧ s.trace_count ≤ MAX_TRACE_ENTRIES := by
  have hempty : count_sum (fun _ => []) = 0 := by
    unfold count_sum
    rw [all_entries_empty]
    rfl
  induction h with
  | init => exact ⟨hempty, Nat.zero_le _⟩
  | step s ev _ ih =>
    cases ev with
    | call ok_ctx ok_entry symbol t0 t1 =>
      rcases step_call_cases K s ok_ctx ok_entry symbol t0 t1 with h | h
      · rw [h]; exact ih
      · rw [h]
        exact budget_update K ok_entry _ _ s ih.1 ih.2
    | write buffer count =>
      show count_sum (perf_proc_write buffer count s).2.perf_hash_table
          = (perf_proc_write buffer count s).2.trace_count
        ∧ (perf_proc_write buffer count s).2.trace_count ≤ MAX_TRACE_ENTRIES
      rcases write_cases buffer count s with h | h | h | h
      · rw [h]; exact ih
      · rw [h]; exact ih
      · rw [h]; exact ih
      · rw [h]; exact ⟨hempty, Nat.zero_le _⟩

/-- When the calls of update_perf_stats run one after the other, each from its
test of line 85 to its unlock without another call in between: in every state
reached from the initial state by probed calls and control writes, the sum of
call_count over all entries of the table equals trace_count, and it is at most
MAX_TRACE_ENTRIES, however many distinct names were recorded. -/
theorem call_counts_sum_to_trace_count (K : KernelHash) (s : State) (h : Reachable K s) :
    ((all_entries s.perf_hash_table).map (fun e => e.call_count)).sum = s.trace_count
      ∧ ((all_entries s.perf_hash_table).map (fun e => e.call_count)).sum ≤ MAX_TRACE_ENTRIES
      ∧ MAX_TRACE_ENTRIES = 1000 := by
  obtain ⟨h1, h2⟩ := budget_reachable K s h
  unfold count_sum at h1
  exact ⟨h1, h1 ▸ h2, rfl⟩

/-- The sum of the call counts in the state after "foo", "a" and "foo" again
were probed, one call after the other, and tracing was switched off. -/
theorem call_counts_sum_to_trace_count_witness :
    ((all_entries (run sample_hash init_state sample_events).perf_hash_table).map
        (fun e => e.call_count)).sum
        = (run sample_hash init_state sample_events).trace_count
      ∧ ((all_entries (run sample_hash init_state sample_events).perf_hash_table).map
          (fun e => e.call_count)).sum ≤ MAX_TRACE_ENTRIES
      ∧ MAX_TRACE_ENTRIES = 1000 :=
  call_counts_sum_to_trace_count sample_hash _
    (reachable_run_from sample_hash sample_events init_state Reachable.init)

/-! ## Two calls that overlap -/

/-- A call of update_perf_stats is its test of line 85 followed, when the test
lets it pass, by the part under the lock. -/
theorem update_perf_stats_split (K : KernelHash) (ok : Bool) (name : List Nat) (d : Nat)
    (s : State) :
    update_perf_stats K ok name d s
      = if update_guard s = true then update_locked K ok name d s else s := by
  unfold update_perf_stats update_guard update_locked
  by_cases h : (!s.tracing_enabled || decide (s.trace_count ≥ MAX_TRACE_ENTRIES)) = true
  · simp [h]
  · simp [h]

/-- The part under the lock, for a name whose entry is at the head of its chain. -/
theorem update_locked_head (K : KernelHash) (ok : Bool) (name : List Nat) (d : Nat) (s : State)
    (e : perf_trace_entry) (rest : List perf_trace_entry)
    (hb : s.perf_hash_table (K.hash_min (K.jhash name)) = e :: rest)
    (hname : e.function_name = name) :
    update_locked K ok name d s =
      { perf_hash_table :=
          Function.update s.perf_hash_table (K.hash_min (K.jhash name)) (bump d e :: rest)
        tracing_enabled := s.tracing_enabled
        trace_count := wrap64 (s.trace_count + 1) } := by
  unfold update_locked find_or_create_entry
  simp only [hb, chain_find_head name e rest hname, modify_at, chain_modify]

/-- The state after 999 recorded calls for "foo": one entry, with call_count 999. -/
theorem state_999_eq :
    state_999 =
      { perf_hash_table :=
          Function.update (fun _ => []) (sample_hash.hash_min (sample_hash.jhash name_foo))
            [bump_all ((List.replicate 998 ((false, 5) : Bool × Nat)).map Prod.snd)
              (bump 5 (new_entry name_foo))]
        tracing_enabled := true
        trace_count := 999 } := by
  have hl : (List.replicate 998 ((false, 5) : Bool × Nat)).length = 998 :=
    List.length_replicate _ _
  unfold state_999
  rw [record_all_new sample_hash name_foo 5 _ init_state (by decide)
    (entries_named_init name_foo) rfl (by rw [hl]; decide)]
  rw [hl]
  rfl

theorem count_999 :
    (bump_all ((List.replicate 998 ((false, 5) : Bool × Nat)).map Prod.snd)
      (bump 5 (new_entry name_foo))).call_count = 999 := by
  have hl : ((List.replicate 998 ((false, 5) : Bool × Nat)).map Prod.snd).length = 998 := by
    rw [List.length_map, List.length_replicate]
  have hc : (bump 5 (new_entry name_foo)).call_count = 1 := by
    rw [first_record name_foo 5 (by decide)]
  rw [bump_all_count _ _ (by rw [hc, hl]; decide), hc, hl]

theorem bump_twice_count (d1 d2 : Nat) (e : perf_trace_entry) :
    (bump d2 (bump d1 e)).call_count = wrap64 (wrap64 (e.call_count + 1) + 1) :=
  rfl

/-- Two overlapping calls for a name whose entry is at the head of its chain,
both having passed the test of line 85: the entry is updated twice and
trace_count grows by 2. -/
theorem overlapping_pair_head (K : KernelHash) (name : List Nat) (d1 d2 : Nat)
    (ok1 ok2 : Bool) (s : State) (e : perf_trace_entry) (rest : List perf_trace_entry)
    (hg : update_guard s = true)
    (hb : s.perf_hash_table (K.hash_min (K.jhash name)) = e :: rest)
    (hname : e.function_name = name) :
    overlapping_pair K name d1 d2 ok1 ok2 s =
      { perf_hash_table :=
          Function.update s.perf_hash_table (K.hash_min (K.jhash name))
            (bump d2 (bump d1 e) :: rest)
        tracing_enabled := s.tracing_enabled
        trace_count := wrap64 (wrap64 (s.trace_count + 1) + 1) } := by
  unfold overlapping_pair
  simp only [hg, if_true]
  rw [update_locked_head K ok1 name d1 s e rest hb hname,
    update_locked_head K ok2 name d2 _ (bump d1 e) rest (Function.update_same _ _ _) hname]
  simp only [Function.update_idem]

/-- C16: the code at the failing input. After 999 recorded calls for "foo",
two calls for "foo" in two contexts both pass the test of line 85, which is made
before the lock is taken and reads trace_count = 999; the lock then lets the two
bodies run one after the other, and each adds 1: trace_count and the sum of
call_count end at 1001, above MAX_TRACE_ENTRIES = 1000. -/
theorem budget_overshoot_two_contexts :
    state_999.trace_count = 999
      ∧ update_guard state_999 = true
      ∧ (overlapping_pair sample_hash name_foo 6 7 false false state_999).trace_count = 1001
      ∧ count_sum (overlapping_pair sample_hash name_foo 6 7 false false state_999).perf_hash_table
          = 1001
      ∧ MAX_TRACE_ENTRIES < 1001 := by
  have htc : state_999.trace_count = 999 := congrArg State.trace_count state_999_eq
  have hen : state_999.tracing_enabled = true := congrArg State.tracing_enabled state_999_eq
  have htb : state_999.perf_hash_table
      = Function.update (fun _ => []) (sample_hash.hash_min (sample_hash.jhash name_foo))
          [bump_all ((List.replicate 998 ((false, 5) : Bool × Nat)).map Prod.snd)
            (bump 5 (new_entry name_foo))] :=
    congrArg State.perf_hash_table state_999_eq
  have hg : update_guard state_999 = true := by
    unfold update_guard
    rw [hen, htc]
    decide
  have hE : (bump_all ((List.replicate 998 ((false, 5) : Bool × Nat)).map Prod.snd)
      (bump 5 (new_entry name_foo))).function_name = name_foo := by
    rw [bump_all_name]
    rfl
  have hpair := overlapping_pair_head sample_hash name_foo 6 7 false false state_999 _ []
    hg (by rw [htb]; exact Function.update_same _ _ _) hE
  have hw : wrap64 (wrap64 (999 + 1) + 1) = 1001 := by decide
  refine ⟨htc, hg, ?_, ?_, by decide⟩
  · rw [hpair]
    show wrap64 (wrap64 (state_999.trace_count + 1) + 1) = 1001
    rw [htc, hw]
  · rw [hpair]
    show count_sum (Function.update state_999.perf_hash_table _ _) = 1001
    rw [htb, Function.update_idem]
    unfold count_sum
    rw [all_entries_single]
    simp only [List.map_cons, List.map_nil, List.sum_cons, List.sum_nil, Nat.add_zero]
    rw [bump_twice_count, count_999, hw]

/-! ## The tracing flag -/

theorem update_keeps_flag (K : KernelHash) (ok : Bool) (name : List Nat) (d : Nat) (s : State) :
    (update_perf_stats K ok name d s).tracing_enabled = s.tracing_enabled := by
  unfold update_perf_stats
  split
  · rfl
  · split <;> rfl

theorem post_handler_keeps_flag (K : KernelHash) (ok : Bool) (now : Int) (regs : pt_regs)
    (s : State) : (kprobe_post_handler K ok now regs s).tracing_enabled = s.tracing_enabled := by
  unfold kprobe_post_handler
  cases regs.ax with
  | none => rfl
  | some ctx => exact update_keeps_flag K ok _ _ s

/-- C18. tracing_enabled is true in the initial state. update_perf_stats,
whether it records or drops, the exit handler and the clear command leave the
flag as it is (the entry handler has no access to the module state at all). A
write that changes the flag is shorter than 16 bytes and starts with "1" or
"0". The write of "0" makes the flag false and the write of "1" makes it true,
from every state, so each value is reached from the other by one command. -/
theorem tracing_flag_frame :
    init_state.tracing_enabled = true
      ∧ (∀ (K : KernelHash) (ok : Bool) (name : List Nat) (d : Nat) (s : State),
          (update_perf_stats K ok name d s).tracing_enabled = s.tracing_enabled)
      ∧ (∀ (K : KernelHash) (ok : Bool) (now : Int) (regs : pt_regs) (s : State),
          (kprobe_post_handler K ok now regs s).tracing_enabled = s.tracing_enabled)
      ∧ (∀ (tail : List Nat) (s : State), tail.length < 11 →
          (perf_proc_write (cmd_clear ++ tail) (5 + tail.length) s).2.tracing_enabled
            = s.tracing_enabled)
      ∧ (∀ (buffer : List Nat) (count : Nat) (s : State),
          (perf_proc_write buffer count s).2.tracing_enabled ≠ s.tracing_enabled →
            count < 16 ∧ count ≤ buffer.length
              ∧ ((buffer.take count).head? = some 49 ∨ (buffer.take count).head? = some 48))
      ∧ (∀ s : State, (perf_proc_write cmd_disable 1 s).2.tracing_enabled = false)
      ∧ (∀ s : State, (perf_proc_write cmd_enable 1 s).2.tracing_enabled = true) := by
  refine ⟨rfl, update_keeps_flag, post_handler_keeps_flag, ?_, ?_, ?_, ?_⟩
  · intro tail s h
    rw [write_clear tail s h]
  · intro buffer count s hne
    by_cases hcount : count < 16
    · by_cases hread : count ≤ buffer.length
      · refine ⟨hcount, hread, ?_⟩
        rw [write_dispatch buffer count s hcount hread] at hne
        by_cases c1 : (buffer.take count).head? = some 49
        · left; exact c1
        · by_cases c0 : (buffer.take count).head? = some 48
          · right; exact c0
          · exfalso
            simp only [c1, c0, if_false] at hne
            split at hne <;> exact hne rfl
      · exfalso
        apply hne
        unfold perf_proc_write
        have h1 : ¬ (count ≥ 16) := by omega
        have h2 : buffer.length < count := by omega
        simp [h1, h2]
    · exfalso
      apply hne
      unfold perf_proc_write
      have h1 : count ≥ 16 := by omega
      simp [h1]
  · intro s
    rw [write_disable]
  · intro s
    rw [write_enable]

end PerfTracer

/-! ## The character device echoes what was written -/

namespace CharDevice

theorem to_size_small (n : Nat) (h : n < 2 ^ 64) : to_size (n : Int) = n := by
  unfold to_size
  omega

/-- A write of at most 255 readable bytes stores them, followed by a NUL byte. -/
theorem cd_write_short (data : List Nat) (ppos : Int) (st : cd_state)
    (h : data.length ≤ 255) :
    cd_write data data.length ppos st =
      { ret := (data.length : Int)
        st := { kbuf := data ++ [0] ++ st.kbuf.drop (data.length + 1)
                kbuf_len := data.length }
        ppos := 0 } := by
  unfold cd_write
  have hmin : min data.length (KBUF_SZ - 1) = data.length := by
    unfold KBUF_SZ
    omega
  simp only [hmin, Nat.lt_irrefl, if_false, List.take_length]

/-- A write of more than 255 readable bytes stores the first 255 of them. -/
theorem cd_write_long (data : List Nat) (ppos : Int) (st : cd_state)
    (h : 255 < data.length) :
    cd_write data data.length ppos st =
      { ret := 255
        st := { kbuf := data.take 255 ++ [0] ++ st.kbuf.drop 256, kbuf_len := 255 }
        ppos := 0 } := by
  unfold cd_write
  have hmin : min data.length (KBUF_SZ - 1) = 255 := by
    unfold KBUF_SZ
    omega
  have hlt : ¬ (data.length < 255) := by omega
  simp only [hmin, hlt, if_false]
  rfl

/-- A read at offset 0 of a buffer that holds `data` at its start, for at
least as many bytes as stored, into a user buffer that can take them. -/
theorem cd_read_stored (data rest : List Nat) (ucap m : Nat)
    (hlen : data.length ≤ 255) (hm : data.length ≤ m) (hcap : m ≤ ucap) :
    cd_read ucap m 0 { kbuf := data ++ rest, kbuf_len := data.length } =
      { ret := (data.length : Int), data := data, ppos := (data.length : Int) } := by
  unfold cd_read
  have h0 : to_size 0 = 0 := by decide
  have hsz : to_size (((data.length : Nat) : Int) - ((0 : Nat) : Int)) = data.length := by
    have := to_size_small data.length (by omega)
    simpa using this
  have hmin : min m data.length = data.length := by omega
  simp only [h0, hsz, hmin, List.drop_zero, Int.zero_add]
  by_cases hz : data.length = 0
  · have hd : data = [] := List.length_eq_zero.mp hz
    subst hd
    simp
  · have h1 : ¬ (0 ≥ data.length) := by omega
    have h2 : ¬ (data.length ≠ 0 ∧ ucap < data.length) := by omega
    simp only [h1, h2, if_false, List.take_left' rfl]

/-- A read at an offset at or past the stored length returns 0 and stores nothing. -/
theorem cd_read_past_end (ucap n : Nat) (off : Int) (st : cd_state)
    (h : (st.kbuf_len : Int) ≤ off) (hoff : off < 2 ^ 63) :
    cd_read ucap n off st = { ret := 0, data := [], ppos := off } := by
  unfold cd_read
  have hge : to_size off ≥ st.kbuf_len := by
    unfold to_size
    omega
  simp only [hge, if_true]

/-- C19. The character device echoes data. A write of n <= 255 bytes returns n
and sets the offset to 0, and a following read at that offset for at least n
bytes, into a user buffer that can take them, returns n, delivers exactly the
bytes written and advances the offset to n. A read at an offset at or past the
stored length returns 0 and delivers nothing. A write of more than 255 bytes
returns 255 and stores its first 255 bytes only, which a following read
delivers. -/
theorem write_then_read_echoes (data big : List Nat) (st : cd_state) (ppos0 off : Int)
    (m ucap : Nat)
    (hlen : data.length ≤ 255) (hm : data.length ≤ m) (hcap : m ≤ ucap)
    (hbig : 255 < big.length)
    (hpast : (st.kbuf_len : Int) ≤ off) (hoff : off < 2 ^ 63) :
    (cd_write data data.length ppos0 st).ret = (data.length : Int)
      ∧ (cd_write data data.length ppos0 st).ppos = 0
      ∧ cd_read ucap m (cd_write data data.length ppos0 st).ppos
          (cd_write data data.length ppos0 st).st
          = { ret := (data.length : Int), data := data, ppos := (data.length : Int) }
      ∧ cd_read ucap m off st = { ret := 0, data := [], ppos := off }
      ∧ (cd_write big big.length ppos0 st).ret = 255
      ∧ (cd_write big big.length ppos0 st).st.kbuf_len = 255
      ∧ (cd_write big big.length ppos0 st).st.kbuf.take 255 = big.take 255
      ∧ cd_read 255 255 (cd_write big big.length ppos0 st).ppos
          (cd_write big big.length ppos0 st).st
          = { ret := 255, data := big.take 255, ppos := 255 } := by
  have hl : (big.take 255).length = 255 := by
    rw [List.length_take]
    omega
  rw [cd_write_short data ppos0 st hlen, cd_write_long big ppos0 st hbig]
  refine ⟨rfl, rfl, ?_, cd_read_past_end ucap m off st hpast hoff, rfl, rfl, ?_, ?_⟩
  · simp only [List.append_assoc]
    exact cd_read_stored data _ ucap m hlen hm hcap
  · simp only [List.append_assoc]
    exact List.take_left' hl
  · have h := cd_read_stored (big.take 255) ([0] ++ st.kbuf.drop 256) 255 255
      (by omega) (by omega) (Nat.le_refl _)
    rw [hl] at h
    simp only [List.append_assoc]
    exact h

/-- Witness of C19: "hi" is written to the device in its state after loading
and read back with a buffer of 10 bytes; a read at offset 6 of the loaded
state returns nothing; a write of 300 bytes stores 255. -/
theorem write_then_read_echoes_witness :
    (cd_write sample_data sample_data.length 3 cd_init_state).ret = (sample_data.length : Int)
      ∧ (cd_write sample_data sample_data.length 3 cd_init_state).ppos = 0
      ∧ cd_read 10 10 (cd_write sample_data sample_data.length 3 cd_init_state).ppos
          (cd_write sample_data sample_data.length 3 cd_init_state).st
          = { ret := (sample_data.length : Int), data := sample_data,
              ppos := (sample_data.length : Int) }
      ∧ cd_read 10 10 6 cd_init_state = { ret := 0, data := [], ppos := 6 }
      ∧ (cd_write long_data long_data.length 3 cd_init_state).ret = 255
      ∧ (cd_write long_data long_data.length 3 cd_init_state).st.kbuf_len = 255
      ∧ (cd_write long_data long_data.length 3 cd_init_state).st.kbuf.take 255
          = long_data.take 255
      ∧ cd_read 255 255 (cd_write long_data long_data.length 3 cd_init_state).ppos
          (cd_write long_data long_data.length 3 cd_init_state).st
          = { ret := 255, data := long_data.take 255, ppos := 255 } :=
  write_then_read_echoes sample_data long_data cd_init_state 3 6 10 10
    (by decide) (by decide) (by decide)
    (by rw [long_data, List.length_replicate]; decide)
    (by decide) (by decide)

end CharDevice

/-! ## What find_or_create_entry returns -/

namespace PerfTracer

/-- The position `chain_find` returns holds an entry of the name looked up. -/
theorem chain_find_get (name : List Nat) (chain : List perf_trace_entry) (i : Nat)
    (h : chain_find name chain = some i) :
    ∃ e, chain[i]? = some e ∧ e.function_name = name ∧ e ∈ chain := by
  induction chain generalizing i with
  | nil => simp [chain_find] at h
  | cons a t ih =>
    by_cases ha : a.function_name = name
    · simp only [chain_find, ha, if_true, Option.some.injEq] at h
      subst h
      exact ⟨a, List.getElem?_cons_zero, ha, List.mem_cons_self _ _⟩
    · simp only [chain_find, ha, if_false, Option.map_eq_some'] at h
      obtain ⟨j, hj, hji⟩ := h
      subst hji
      obtain ⟨e, he1, he2, he3⟩ := ih j hj
      exact ⟨e, by rw [List.getElem?_cons_succ]; exact he1, he2, List.mem_cons_of_mem _ he3⟩

/-- In a table whose names are placed by their hash and not repeated within a
chain, the lookup for the name of an entry of the table returns that entry. -/
theorem lookup_finds (K : KernelHash) (tbl : HashTable) (hwp : well_placed K tbl)
    (ok : Bool) (name : List Nat) (e : perf_trace_entry)
    (he : e ∈ all_entries tbl) (hname : e.function_name = name) :
    ∃ p, find_or_create_entry K ok name tbl = some (tbl, p) ∧ entry_at tbl p = some e := by
  obtain ⟨b, hb⟩ := (mem_all_entries tbl e).mp he
  have hbk : K.hash_min (K.jhash name) = b := by
    rw [← hname]
    exact hwp.1 b e.function_name (List.mem_map.mpr ⟨e, hb, rfl⟩)
  subst hbk
  cases hc : chain_find name (tbl (K.hash_min (K.jhash name))) with
  | none => exact absurd hname ((chain_find_none _ _).mp hc e hb)
  | some i =>
    obtain ⟨e2, hget, hn2, hmem⟩ := chain_find_get name _ i hc
    have heq : e2 = e :=
      List.inj_on_of_nodup_map (hwp.2 (K.hash_min (K.jhash name))) hmem hb (hn2.trans hname.symm)
    subst heq
    refine ⟨{ bucket := K.hash_min (K.jhash name), pos := i }, ?_, hget⟩
    unfold find_or_create_entry
    simp only [hc]

/-- C20 (as amended). In every reachable state and for every name of at most
63 bytes: when the table holds an entry whose function_name equals the name,
find_or_create_entry returns that entry and leaves the table unchanged,
whatever the allocator would answer; when it holds none and kmalloc succeeds,
it returns an entry with that name, call_count 0, total_time_ns 0, max_time_ns
0 and min_time_ns ULONG_MAX, and the table holds this entry in addition to
those it held; when it holds none and kmalloc fails, it returns NULL. -/
theorem find_or_create_entry_result (K : KernelHash) (s : State) (name : List Nat) (ok : Bool)
    (hreach : Reachable K s) (hlen : name.length ≤ 63) :
    (∀ e, e ∈ all_entries s.perf_hash_table → e.function_name = name →
        ∃ p, find_or_create_entry K ok name s.perf_hash_table = some (s.perf_hash_table, p)
          ∧ entry_at s.perf_hash_table p = some e)
      ∧ ((∀ e ∈ all_entries s.perf_hash_table, e.function_name ≠ name) →
          find_or_create_entry K false name s.perf_hash_table = none
            ∧ ∃ tbl p, find_or_create_entry K true name s.perf_hash_table = some (tbl, p)
                ∧ entry_at tbl p
                    = some { function_name := name, call_count := 0, total_time_ns := 0,
                             min_time_ns := ULONG_MAX, max_time_ns := 0 }
                ∧ (all_entries tbl).Perm
                    ({ function_name := name, call_count := 0, total_time_ns := 0,
                       min_time_ns := ULONG_MAX, max_time_ns := 0 }
                      :: all_entries s.perf_hash_table)) := by
  refine ⟨?_, ?_⟩
  · intro e he hname
    exact lookup_finds K s.perf_hash_table (well_placed_reachable K s hreach) ok name e he hname
  · intro hnone
    have hc : chain_find name (s.perf_hash_table (K.hash_min (K.jhash name))) = none := by
      rw [chain_find_none]
      intro e he
      exact hnone e ((mem_all_entries _ e).mpr ⟨_, he⟩)
    have hnew : new_entry name
        = { function_name := name, call_count := 0, total_time_ns := 0,
            min_time_ns := ULONG_MAX, max_time_ns := 0 } := by
      unfold new_entry
      rw [List.take_of_length_le (show name.length ≤ MAX_FUNCTION_NAME - 1 from hlen)]
    refine ⟨?_, ?_⟩
    · unfold find_or_create_entry
      simp only [hc]
      rfl
    · refine ⟨Function.update s.perf_hash_table (K.hash_min (K.jhash name))
          (new_entry name :: s.perf_hash_table (K.hash_min (K.jhash name))),
        { bucket := K.hash_min (K.jhash name), pos := 0 }, ?_, ?_, ?_⟩
      · unfold find_or_create_entry
        simp only [hc, if_true]
      · unfold entry_at
        simp only [Function.update_same, List.getElem?_cons_zero, hnew]
      · obtain ⟨pre, post, h1, h2⟩ :=
          all_entries_update s.perf_hash_table (K.hash_min (K.jhash name))
        rw [h2, h1, ← hnew, List.append_assoc, List.append_assoc]
        exact List.perm_middle

/-- Witness of C20 as amended: the name "foo" in the state after three probed
calls and a disable. -/
theorem find_or_create_entry_result_witness :
    (∀ e, e ∈ all_entries (run sample_hash init_state sample_events).perf_hash_table →
        e.function_name = name_foo →
        ∃ p, find_or_create_entry sample_hash true name_foo
              (run sample_hash init_state sample_events).perf_hash_table
            = some ((run sample_hash init_state sample_events).perf_hash_table, p)
          ∧ entry_at (run sample_hash init_state sample_events).perf_hash_table p = some e)
      ∧ ((∀ e ∈ all_entries (run sample_hash init_state sample_events).perf_hash_table,
            e.function_name ≠ name_foo) →
          find_or_create_entry sample_hash false name_foo
              (run sample_hash init_state sample_events).perf_hash_table = none
            ∧ ∃ tbl p, find_or_create_entry sample_hash true name_foo
                  (run sample_hash init_state sample_events).perf_hash_table = some (tbl, p)
                ∧ entry_at tbl p
                    = some { function_name := name_foo, call_count := 0, total_time_ns := 0,
                             min_time_ns := ULONG_MAX, max_time_ns := 0 }
                ∧ (all_entries tbl).Perm
                    ({ function_name := name_foo, call_count := 0, total_time_ns := 0,
                       min_time_ns := ULONG_MAX, max_time_ns := 0 }
                      :: all_entries
                          (run sample_hash init_state sample_events).perf_hash_table)) :=
  find_or_create_entry_result sample_hash _ name_foo true
    (reachable_run_from sample_hash sample_events init_state Reachable.init) (by decide)

/-- C20 as stated fails when kmalloc fails: in the initial state, where no
entry is named "foo", find_or_create_entry("foo") returns NULL and adds no
entry. -/
theorem find_or_create_entry_alloc_failure :
    (∀ e ∈ all_entries init_state.perf_hash_table, e.function_name ≠ name_foo)
      ∧ find_or_create_entry sample_hash false name_foo init_state.perf_hash_table = none := by
  refine ⟨?_, rfl⟩
  intro e he
  rw [show init_state.perf_hash_table = fun _ => [] from rfl, all_entries_empty] at he
  cases he

/-! ## Entries are never removed or weakened, except by clear -/

theorem chain_modify_keeps (f : perf_trace_entry → perf_trace_entry) (i : Nat)
    (chain : List perf_trace_entry) (e : perf_trace_entry) (he : e ∈ chain) :
    e ∈ chain_modify f i chain ∨ f e ∈ chain_modify f i chain := by
  induction chain generalizing i with
  | nil => cases he
  | cons a t ih =>
    cases i with
    | zero =>
      rcases List.mem_cons.mp he with h | h
      · right
        rw [h]
        exact List.mem_cons_self _ _
      · left
        exact List.mem_cons_of_mem _ h
    | succ j =>
      rcases List.mem_cons.mp he with h | h
      · left
        rw [h]
        exact List.mem_cons_self _ _
      · rcases ih j h with h2 | h2
        · left; exact List.mem_cons_of_mem _ h2
        · right; exact List.mem_cons_of_mem _ h2

/-- An entry of the table is still there after the chain of a bucket was
replaced, when that chain kept it or holds `x` in its place. -/
theorem mem_after_update (tbl : HashTable) (b : Fin 256) (c : List perf_trace_entry)
    (e x : perf_trace_entry) (he : e ∈ all_entries tbl)
    (hc : e ∈ tbl b → e ∈ c ∨ x ∈ c) :
    e ∈ all_entries (Function.update tbl b c) ∨ x ∈ all_entries (Function.update tbl b c) := by
  obtain ⟨b0, hb0⟩ := (mem_all_entries tbl e).mp he
  by_cases hb : b0 = b
  · subst hb
    rcases hc hb0 with h | h
    · left
      exact (mem_all_entries _ e).mpr ⟨b0, by rw [Function.update_same]; exact h⟩
    · right
      exact (mem_all_entries _ x).mpr ⟨b0, by rw [Function.update_same]; exact h⟩
  · left
    exact (mem_all_entries _ e).mpr ⟨b0, by rw [Function.update_noteq hb]; exact hb0⟩

/-- A write to the control file leaves the table as it is, unless it is a
clear: fewer than 16 readable bytes that start with "clear". -/
theorem write_table_cases (buffer : List Nat) (count : Nat) (s : State) :
    (perf_proc_write buffer count s).2.perf_hash_table = s.perf_hash_table
      ∨ (count < 16 ∧ count ≤ buffer.length ∧ (buffer.take count).take 5 = cmd_clear
          ∧ (perf_proc_write buffer count s).2.perf_hash_table = fun _ => []) := by
  by_cases hcount : count < 16
  · by_cases hread : count ≤ buffer.length
    · rw [write_dispatch buffer count s hcount hread]
      by_cases c1 : (buffer.take count).head? = some 49
      · left; simp only [c1, if_true]
      · by_cases c0 : (buffer.take count).head? = some 48
        · left; simp [c0]
        · by_cases cc : (buffer.take count).take 5 = cmd_clear
          · right
            simp only [c1, c0, cc, if_true, if_false]
            exact ⟨hcount, hread, trivial, trivial⟩
          · left; simp only [c1, c0, cc, if_false]
    · left
      unfold perf_proc_write
      have h1 : ¬ (count ≥ 16) := by omega
      have h2 : buffer.length < count := by omega
      simp [h1, h2]
  · left
    unfold perf_proc_write
    have h1 : count ≥ 16 := by omega
    simp [h1]

theorem count_small_reachable (K : KernelHash) (s : State) (h : Reachable K s)
    (e : perf_trace_entry) (he : e ∈ all_entries s.perf_hash_table) :
    e.call_count ≤ MAX_TRACE_ENTRIES := by
  obtain ⟨h1, h2⟩ := budget_reachable K s h
  obtain ⟨b, hb⟩ := (mem_all_entries _ e).mp he
  have := call_count_le_sum s.perf_hash_table e b hb
  omega

/-- The update of an entry keeps its name, does not lower call_count while the
count is below ULONG_MAX, does not raise min_time_ns and does not lower
max_time_ns. -/
theorem bump_not_weaker (d : Nat) (e : perf_trace_entry) (hc : e.call_count < ULONG_MAX) :
    (bump d e).function_name = e.function_name
      ∧ e.call_count ≤ (bump d e).call_count
      ∧ (bump d e).min_time_ns ≤ e.min_time_ns
      ∧ e.max_time_ns ≤ (bump d e).max_time_ns := by
  refine ⟨rfl, ?_, ?_, ?_⟩
  · show e.call_count ≤ wrap64 (e.call_count + 1)
    unfold wrap64
    unfold ULONG_MAX at hc
    rw [Nat.mod_eq_of_lt (by omega)]
    omega
  · show (if d < e.min_time_ns then d else e.min_time_ns) ≤ e.min_time_ns
    split <;> omega
  · show e.max_time_ns ≤ (if d > e.max_time_ns then d else e.max_time_ns)
    split <;> omega

/-- C21. In every reachable state, update_perf_stats (any name, duration and
allocator answer) removes and weakens no entry: for every entry present before
the call, an entry with the same name is present after it, with call_count not
smaller, min_time_ns not larger and max_time_ns not smaller. A write to the
control file leaves the table exactly as it is, so also when it enables or
disables tracing, unless it is a clear (fewer than 16 bytes starting with
"clear"), which empties the table: only clear removes entries. -/
theorem entries_never_weakened (K : KernelHash) (s : State) (hreach : Reachable K s) :
    (∀ (ok : Bool) (name : List Nat) (d : Nat),
        ∀ e ∈ all_entries s.perf_hash_table,
          ∃ e2 ∈ all_entries (update_perf_stats K ok name d s).perf_hash_table,
            e2.function_name = e.function_name
              ∧ e.call_count ≤ e2.call_count
              ∧ e2.min_time_ns ≤ e.min_time_ns
              ∧ e.max_time_ns ≤ e2.max_time_ns)
      ∧ (perf_proc_write cmd_enable 1 s).2.perf_hash_table = s.perf_hash_table
      ∧ (perf_proc_write cmd_disable 1 s).2.perf_hash_table = s.perf_hash_table
      ∧ (∀ (buffer : List Nat) (count : Nat),
          (perf_proc_write buffer count s).2.perf_hash_table ≠ s.perf_hash_table →
            count < 16 ∧ count ≤ buffer.length ∧ (buffer.take count).take 5 = cmd_clear
              ∧ (perf_proc_write buffer count s).2.perf_hash_table = fun _ => []) := by
  refine ⟨?_, by rw [write_enable], by rw [write_disable], ?_⟩
  · intro ok name d e he
    have hsmall : e.call_count < ULONG_MAX := by
      have := count_small_reachable K s hreach e he
      unfold MAX_TRACE_ENTRIES at this
      unfold ULONG_MAX
      omega
    have hself : e.function_name = e.function_name ∧ e.call_count ≤ e.call_count
        ∧ e.min_time_ns ≤ e.min_time_ns ∧ e.max_time_ns ≤ e.max_time_ns :=
      ⟨rfl, Nat.le_refl _, Nat.le_refl _, Nat.le_refl _⟩
    rcases update_cases K ok name d s with h | ⟨_, _, h⟩ | ⟨_, i, _, h⟩
    · rw [h]
      exact ⟨e, he, hself⟩
    · rw [h]
      rcases mem_after_update s.perf_hash_table (K.hash_min (K.jhash name))
        (bump d (new_entry name) :: s.perf_hash_table (K.hash_min (K.jhash name))) e e he
        (fun hm => Or.inl (List.mem_cons_of_mem _ hm)) with h2 | h2
      · exact ⟨e, h2, hself⟩
      · exact ⟨e, h2, hself⟩
    · rw [h]
      rcases mem_after_update s.perf_hash_table (K.hash_min (K.jhash name))
        (chain_modify (bump d) i (s.perf_hash_table (K.hash_min (K.jhash name)))) e (bump d e)
        he (fun hm => chain_modify_keeps (bump d) i _ e hm) with h2 | h2
      · exact ⟨e, h2, hself⟩
      · exact ⟨bump d e, h2, bump_not_weaker d e hsmall⟩
  · intro buffer count hne
    rcases write_table_cases buffer count s with h | h
    · exact absurd h hne
    · exact h

/-- Witness of C21: the state after "foo", "a" and "foo" again were probed and
tracing was switched off, and a further call for "foo". -/
theorem entries_never_weakened_witness :
    (∀ (ok : Bool) (name : List Nat) (d : Nat),
        ∀ e ∈ all_entries (run sample_hash init_state sample_events).perf_hash_table,
          ∃ e2 ∈ all_entries (update_perf_stats sample_hash ok name d
              (run sample_hash init_state sample_events)).perf_hash_table,
            e2.function_name = e.function_name
              ∧ e.call_count ≤ e2.call_count
              ∧ e2.min_time_ns ≤ e.min_time_ns
              ∧ e.max_time_ns ≤ e2.max_time_ns)
      ∧ (perf_proc_write cmd_enable 1
          (run sample_hash init_state sample_events)).2.perf_hash_table
          = (run sample_hash init_state sample_events).perf_hash_table :=
  have h := entries_never_weakened sample_hash _
    (reachable_run_from sample_hash sample_events init_state Reachable.init)
  ⟨h.1, h.2.1⟩

/-! ## Every entry holds at least one event -/

/-- C22. In every state reachable from the initial state by probed calls and
control writes, every entry of the table has call_count >= 1 and
min_time_ns <= max_time_ns: an entry is created only by the call that records
its first event. -/
theorem entries_have_events (K : KernelHash) (s : State) (hreach : Reachable K s) :
    ∀ e ∈ all_entries s.perf_hash_table,
      e.call_count ≥ 1 ∧ e.min_time_ns ≤ e.max_time_ns := by
  induction hreach with
  | init =>
    intro e he
    rw [show init_state.perf_hash_table = fun _ => [] from rfl, all_entries_empty] at he
    cases he
  | step s ev hs ih =>
    cases ev with
    | call ok_ctx ok_entry symbol t0 t1 =>
      rcases step_call_cases K s ok_ctx ok_entry symbol t0 t1 with h | h
      · rw [h]; exact ih
      · rw [h]
        rcases update_entries K ok_entry (symbol.take (MAX_FUNCTION_NAME - 1))
          (to_ulong (t1 - t0)) s with hsame | ⟨_, _, hmem⟩
        · rw [hsame]; exact ih
        · intro x hx
          rcases hmem x hx with h1 | h1 | ⟨e0, he0, _, hxe⟩
          · exact ih x h1
          · rw [h1, first_record _ _ (to_ulong_le _)]
            exact ⟨Nat.le_refl _, Nat.le_refl _⟩
          · rw [hxe]
            have hsmall := count_small_reachable K s hs e0 he0
            obtain ⟨_, hmm⟩ := ih e0 he0
            refine ⟨?_, ?_⟩
            · show wrap64 (e0.call_count + 1) ≥ 1
              unfold wrap64
              unfold MAX_TRACE_ENTRIES at hsmall
              rw [Nat.mod_eq_of_lt (by omega)]
              omega
            · show (if to_ulong (t1 - t0) < e0.min_time_ns then to_ulong (t1 - t0)
                  else e0.min_time_ns)
                ≤ (if to_ulong (t1 - t0) > e0.max_time_ns then to_ulong (t1 - t0)
                  else e0.max_time_ns)
              split <;> split <;> omega
    | write buffer count =>
      show ∀ e ∈ all_entries (perf_proc_write buffer count s).2.perf_hash_table,
        e.call_count ≥ 1 ∧ e.min_time_ns ≤ e.max_time_ns
      rcases write_table_cases buffer count s with h | ⟨_, _, _, h⟩
      · rw [h]; exact ih
      · rw [h]
        intro e he
        rw [all_entries_empty] at he
        cases he

/-- Witness of C22: the entry of "foo" after it was probed from time 0 to 150
and from 200 to 230, starting in the initial state. -/
theorem entries_have_events_witness :
    foo_twice ∈ all_entries
        (step sample_hash (step sample_hash init_state (.call true true name_foo 0 150))
          (.call true true name_foo 200 230)).perf_hash_table
      ∧ foo_twice.call_count ≥ 1 ∧ foo_twice.min_time_ns ≤ foo_twice.max_time_ns :=
  ⟨foo_twice_mem,
    entries_have_events sample_hash _
      (Reachable.step _ _ (Reachable.step _ _ Reachable.init)) foo_twice foo_twice_mem⟩

/-! ## The report copies the entries -/

/-- The rows of the report are those of bucket 0, then those of bucket 1, and
so on to bucket 255, each chain from its head. -/
theorem rows_by_bucket (s : State) :
    (perf_proc_show s).rows
      = (List.ofFn (fun b : Fin 256 => (s.perf_hash_table b).map show_entry)).flatten := by
  have hrows : (perf_proc_show s).rows = (all_entries s.perf_hash_table).map show_entry := by
    unfold perf_proc_show
    simp only []
  rw [hrows, List.ofFn_eq_map, ← List.flatMap_def]
  unfold all_entries
  rw [List.map_flatMap]

/-- C23. For every state, the report of perf_proc_show has exactly one row per
entry of the table: its rows are the rows of the entries of bucket 0, then of
bucket 1, and so on to bucket 255, each chain from its head; their number is
the sum of the lengths of the 256 chains, and every row occurs as often as the
chains hold entries it is the row of. The row of an entry carries its name,
call_count, total_time_ns and max_time_ns unchanged. Producing the report
returns 0 and leaves the table, trace_count and the tracing flag as they
were. -/
theorem report_copies_entries (s : State) :
    (perf_proc_show s).rows
        = (List.ofFn (fun b : Fin 256 => (s.perf_hash_table b).map show_entry)).flatten
      ∧ (perf_proc_show s).rows.length = ∑ b : Fin 256, (s.perf_hash_table b).length
      ∧ (∀ r : report_row,
          (perf_proc_show s).rows.count r
            = ∑ b : Fin 256, ((s.perf_hash_table b).map show_entry).count r)
      ∧ (∀ (b : Fin 256), ∀ e ∈ s.perf_hash_table b,
          ∃ r ∈ (perf_proc_show s).rows,
            r.name = e.function_name ∧ r.count = e.call_count
              ∧ r.total = e.total_time_ns ∧ r.max = e.max_time_ns)
      ∧ (∀ r ∈ (perf_proc_show s).rows,
          ∃ (b : Fin 256), ∃ e ∈ s.perf_hash_table b,
            r.name = e.function_name ∧ r.count = e.call_count
              ∧ r.total = e.total_time_ns ∧ r.max = e.max_time_ns)
      ∧ (perf_proc_show s).status = s.tracing_enabled
      ∧ (perf_proc_show s).total_traces = s.trace_count
      ∧ (perf_proc_show_run s).1 = 0
      ∧ (perf_proc_show_run s).2.1 = perf_proc_show s
      ∧ (perf_proc_show_run s).2.2 = s := by
  have hflat : (perf_proc_show s).rows
      = (List.finRange 256).flatMap (fun b => (s.perf_hash_table b).map show_entry) := by
    rw [rows_by_bucket, List.ofFn_eq_map, ← List.flatMap_def]
  have hfields : ∀ e : perf_trace_entry,
      (show_entry e).name = e.function_name ∧ (show_entry e).count = e.call_count
        ∧ (show_entry e).total = e.total_time_ns ∧ (show_entry e).max = e.max_time_ns :=
    fun _ => ⟨rfl, rfl, rfl, rfl⟩
  refine ⟨rows_by_bucket s, ?_, ?_, ?_, ?_, ?_, ?_, rfl, rfl, rfl⟩
  · rw [hflat, List.length_flatMap, Fin.sum_univ_def]
    simp only [Function.comp_def, List.length_map]
  · intro r
    rw [hflat, List.count_flatMap, Fin.sum_univ_def]
    rfl
  · intro b e he
    refine ⟨show_entry e, ?_, hfields e⟩
    rw [hflat, List.mem_flatMap]
    exact ⟨b, List.mem_finRange b, List.mem_map.mpr ⟨e, he, rfl⟩⟩
  · intro r hr
    rw [hflat, List.mem_flatMap] at hr
    obtain ⟨b, _, hb⟩ := hr
    obtain ⟨e, he, hre⟩ := List.mem_map.mp hb
    exact ⟨b, e, he, hre ▸ hfields e⟩
  · unfold perf_proc_show
    simp only []
  · unfold perf_proc_show
    simp only []

set_option maxRecDepth 100000 in
/-- The rows of the report after the events busy_events: name, count, total
and max of each row, in the order of the report. -/
theorem busy_state_rows :
    (perf_proc_show (run sample_hash init_state busy_events)).rows.map
        (fun r => (r.name, r.count, r.total, r.max))
      = [([111, 111, 102], 1, 10, 10), (name_foo, 2, 180, 150), ([97], 1, 10, 10),
          (long_stem, 2, 20, 10)] := by
  rfl

/-- Witness of C23: after "foo", "oof", "foo" again, "a" and two identifiers
with the same first 63 bytes were probed, the report has the four rows of the
four entries, "oof" and "foo" of one chain in the order of the chain; their
number is the sum of the lengths of the chains, and the state is left as it
was. -/
theorem report_copies_entries_witness :
    (perf_proc_show (run sample_hash init_state busy_events)).rows.map
        (fun r => (r.name, r.count, r.total, r.max))
      = [([111, 111, 102], 1, 10, 10), (name_foo, 2, 180, 150), ([97], 1, 10, 10),
          (long_stem, 2, 20, 10)]
    ∧ (perf_proc_show (run sample_hash init_state busy_events)).rows.length
      = ∑ b : Fin 256, ((run sample_hash init_state busy_events).perf_hash_table b).length
    ∧ (perf_proc_show_run (run sample_hash init_state busy_events)).2.2
      = run sample_hash init_state busy_events :=
  ⟨busy_state_rows,
    (report_copies_entries (run sample_hash init_state busy_events)).2.1,
    (report_copies_entries (run sample_hash init_state busy_events)).2.2.2.2.2.2.2.2.2⟩

/-! ## Entries of other names are not touched -/

theorem chain_modify_filter_other (name n : List Nat)
    (f : perf_trace_entry → perf_trace_entry)
    (hf : ∀ e, (f e).function_name = e.function_name) (hn : n ≠ name)
    (chain : List perf_trace_entry) (i : Nat) (h : chain_find name chain = some i) :
    (chain_modify f i chain).filter (fun e => e.function_name = n)
      = chain.filter (fun e => e.function_name = n) := by
  induction chain generalizing i with
  | nil => simp [chain_find] at h
  | cons a t ih =>
    by_cases ha : a.function_name = name
    · simp only [chain_find, ha, if_true, Option.some.injEq] at h
      subst h
      have h1 : ¬ (a.function_name = n) := fun h2 => hn (h2.symm.trans ha)
      have h2 : ¬ ((f a).function_name = n) := by rw [hf]; exact h1
      simp [chain_modify, List.filter_cons, h1, h2]
    · simp only [chain_find, ha, if_false, Option.map_eq_some'] at h
      obtain ⟨j, hj, hji⟩ := h
      subst hji
      simp only [chain_modify, List.filter_cons, ih j hj]

/-- The entries named `n` after the chain of a bucket was replaced by one with
the same entries of that name. -/
theorem entries_named_update (s : State) (n : List Nat) (b : Fin 256)
    (c : List perf_trace_entry) (en : Bool) (tc : Nat)
    (hc : c.filter (fun e => e.function_name = n)
      = (s.perf_hash_table b).filter (fun e => e.function_name = n)) :
    entries_named
      { perf_hash_table := Function.update s.perf_hash_table b c
        tracing_enabled := en
        trace_count := tc } n = entries_named s n := by
  obtain ⟨pre, post, h1, h2⟩ := all_entries_update s.perf_hash_table b
  unfold entries_named
  simp only [h1, h2 c, List.filter_append, hc]

/-- A call of update_perf_stats leaves the entries of every name other than
the name it is called with and the first 63 bytes of that name. -/
theorem update_frame (K : KernelHash) (ok : Bool) (name : List Nat) (d : Nat) (s : State)
    (n : List Nat) (h1 : n ≠ name) (h2 : n ≠ name.take (MAX_FUNCTION_NAME - 1)) :
    entries_named (update_perf_stats K ok name d s) n = entries_named s n := by
  rcases update_cases K ok name d s with h | ⟨_, _, h⟩ | ⟨_, i, hi, h⟩
  · rw [h]
  · rw [h]
    apply entries_named_update
    have hne : ¬ ((bump d (new_entry name)).function_name = n) := fun hh => h2 hh.symm
    simp [List.filter_cons, hne]
  · rw [h]
    apply entries_named_update
    exact chain_modify_filter_other name n (bump d) (fun _ => rfl) h1 _ i hi

/-- C24. update_perf_stats(name, d), called as its only caller does with a name
of at most 63 bytes (the content of the 64-byte array function_name of a call
context), changes at most the entry for name: for every other name, the
entries of the table with that name (their presence, call_count,
total_time_ns, min_time_ns and max_time_ns) are the same before and after the
call, in every state and whatever the allocator answers. The same holds for
every probed call and every name other than the first 63 bytes of the probed
symbol. -/
theorem update_touches_one_name (K : KernelHash) (ok : Bool) (name : List Nat) (d : Nat)
    (s : State) (n : List Nat) (hlen : name.length ≤ 63) (hne : n ≠ name) :
    entries_named (update_perf_stats K ok name d s) n = entries_named s n
      ∧ (all_entries (update_perf_stats K ok name d s).perf_hash_table).filter
            (fun e => e.function_name = n)
          = (all_entries s.perf_hash_table).filter (fun e => e.function_name = n)
      ∧ (∀ (ok_ctx ok_entry : Bool) (symbol : List Nat) (t0 t1 : Int),
          n ≠ symbol.take 63 →
            entries_named (step K s (.call ok_ctx ok_entry symbol t0 t1)) n
              = entries_named s n) := by
  have hmain : ∀ (o : Bool) (nm : List Nat) (dd : Nat), nm.length ≤ 63 → n ≠ nm →
      entries_named (update_perf_stats K o nm dd s) n = entries_named s n := by
    intro o nm dd hl hn
    have htake : nm.take (MAX_FUNCTION_NAME - 1) = nm :=
      List.take_of_length_le (show nm.length ≤ MAX_FUNCTION_NAME - 1 from hl)
    exact update_frame K o nm dd s n hn (by rw [htake]; exact hn)
  refine ⟨hmain ok name d hlen hne, hmain ok name d hlen hne, ?_⟩
  intro ok_ctx ok_entry symbol t0 t1 hn
  rcases step_call_cases K s ok_ctx ok_entry symbol t0 t1 with h | h
  · rw [h]
  · rw [h]
    exact hmain ok_entry _ _ (List.length_take_le _ _) hn

/-- Witness of C24: in the state after "foo", "oof", "foo", "a" and two long
identifiers were probed, a call for "foo" leaves the entry of "oof", which lies
in the same chain, and a probed call of "foo" leaves it too. -/
theorem update_touches_one_name_witness :
    entries_named
        (update_perf_stats sample_hash true name_foo 10
          (run sample_hash init_state busy_events)) [111, 111, 102]
      = entries_named (run sample_hash init_state busy_events) [111, 111, 102]
    ∧ entries_named
        (step sample_hash (run sample_hash init_state busy_events)
          (.call true true name_foo 400 410)) [111, 111, 102]
      = entries_named (run sample_hash init_state busy_events) [111, 111, 102] :=
  have h := update_touches_one_name sample_hash true name_foo 10
    (run sample_hash init_state busy_events) [111, 111, 102] (by decide) (by decide)
  ⟨h.1, h.2.2 true true name_foo 400 410 (by decide)⟩

/-! ## The order of the events of a call site -/

theorem bump_comm (d1 d2 : Nat) (e : perf_trace_entry) :
    bump d1 (bump d2 e) = bump d2 (bump d1 e) := by
  have ht : wrap64 (wrap64 (e.total_time_ns + d2) + d1)
      = wrap64 (wrap64 (e.total_time_ns + d1) + d2) := by
    unfold wrap64
    rw [Nat.mod_add_mod, Nat.mod_add_mod]
    congr 1
    omega
  have hmin : (if d1 < (if d2 < e.min_time_ns then d2 else e.min_time_ns) then d1
        else (if d2 < e.min_time_ns then d2 else e.min_time_ns))
      = (if d2 < (if d1 < e.min_time_ns then d1 else e.min_time_ns) then d2
        else (if d1 < e.min_time_ns then d1 else e.min_time_ns)) := by
    split_ifs <;> omega
  have hmax : (if d1 > (if d2 > e.max_time_ns then d2 else e.max_time_ns) then d1
        else (if d2 > e.max_time_ns then d2 else e.max_time_ns))
      = (if d2 > (if d1 > e.max_time_ns then d1 else e.max_time_ns) then d2
        else (if d1 > e.max_time_ns then d1 else e.max_time_ns)) := by
    split_ifs <;> omega
  show ({ function_name := e.function_name
          call_count := wrap64 (wrap64 (e.call_count + 1) + 1)
          total_time_ns := wrap64 (wrap64 (e.total_time_ns + d2) + d1)
          min_time_ns := _
          max_time_ns := _ } : perf_trace_entry)
    = { function_name := e.function_name
        call_count := wrap64 (wrap64 (e.call_count + 1) + 1)
        total_time_ns := wrap64 (wrap64 (e.total_time_ns + d1) + d2)
        min_time_ns := _
        max_time_ns := _ }
  rw [ht]
  congr 1

/-- The updates for two permutations of the same durations give the same entry. -/
theorem bump_all_perm (ds1 ds2 : List Nat) (h : ds1.Perm ds2) (e : perf_trace_entry) :
    bump_all ds1 e = bump_all ds2 e := by
  unfold bump_all
  exact List.Perm.foldl_eq' h (fun x _ y _ z => bump_comm y x z) e

theorem chain_find_modify (name : List Nat) (f : perf_trace_entry → perf_trace_entry)
    (hf : ∀ e, (f e).function_name = e.function_name) (i : Nat)
    (chain : List perf_trace_entry) :
    chain_find name (chain_modify f i chain) = chain_find name chain := by
  induction chain generalizing i with
  | nil => cases i <;> rfl
  | cons a t ih =>
    cases i with
    | zero => simp [chain_modify, chain_find, hf]
    | succ j => simp [chain_modify, chain_find, ih j]

theorem chain_modify_twice (f g : perf_trace_entry → perf_trace_entry) (i : Nat)
    (chain : List perf_trace_entry) :
    chain_modify g i (chain_modify f i chain) = chain_modify (fun e => g (f e)) i chain := by
  induction chain generalizing i with
  | nil => cases i <;> rfl
  | cons a t ih =>
    cases i with
    | zero => rfl
    | succ j => simp [chain_modify, ih j]

theorem chain_modify_same (i : Nat) (chain : List perf_trace_entry) :
    chain_modify (fun e => e) i chain = chain := by
  induction chain generalizing i with
  | nil => cases i <;> rfl
  | cons a t ih =>
    cases i with
    | zero => rfl
    | succ j => simp [chain_modify, ih j]

/-- Repeated calls for the name of an entry the lookup finds, at whatever
position of its chain, update that entry and nothing else. -/
theorem record_all_found (K : KernelHash) (name : List Nat) (calls : List (Bool × Nat))
    (s : State) (i : Nat)
    (hen : s.tracing_enabled = true)
    (hbud : s.trace_count + calls.length ≤ MAX_TRACE_ENTRIES)
    (hb : chain_find name (s.perf_hash_table (K.hash_min (K.jhash name))) = some i) :
    record_all K name calls s =
      { perf_hash_table :=
          Function.update s.perf_hash_table (K.hash_min (K.jhash name))
            (chain_modify (bump_all (calls.map Prod.snd)) i
              (s.perf_hash_table (K.hash_min (K.jhash name))))
        tracing_enabled := true
        trace_count := s.trace_count + calls.length } := by
  induction calls generalizing s with
  | nil =>
    cases s with
    | mk tbl en tc =>
      simp only [record_all, List.foldl_nil, List.map_nil, List.length_nil,
        Nat.add_zero] at hen ⊢
      subst hen
      have hid : bump_all [] = fun e => e := rfl
      rw [hid, chain_modify_same, Function.update_eq_self]
  | cons c t ih =>
    have hl : (c :: t).length = t.length + 1 := rfl
    rw [hl] at hbud
    have hstep := update_found K c.1 name c.2 s i hen (by omega) hb
    show record_all K name t (update_perf_stats K c.1 name c.2 s) = _
    rw [hstep]
    rw [ih _ rfl (by simp only []; omega)
      (by
        simp only [Function.update_same]
        rw [chain_find_modify name (bump c.2) (fun _ => rfl)]
        exact hb)]
    have hadd : s.trace_count + 1 + t.length = s.trace_count + (t.length + 1) := by omega
    have hfun : (fun e => bump_all (t.map Prod.snd) (bump c.2 e))
        = bump_all ((c :: t).map Prod.snd) := rfl
    simp only [Function.update_same, Function.update_idem, chain_modify_twice, hadd, hl, hfun]

/-- The state after the first call for a name absent from its chain and the
calls that follow it. -/
theorem record_all_created (K : KernelHash) (name : List Nat) (d1 : Nat)
    (rest : List (Bool × Nat)) (s : State)
    (hlen : name.length ≤ MAX_FUNCTION_NAME - 1)
    (hnone : chain_find name (s.perf_hash_table (K.hash_min (K.jhash name))) = none)
    (hen : s.tracing_enabled = true)
    (hbud : s.trace_count + (rest.length + 1) ≤ MAX_TRACE_ENTRIES) :
    record_all K name ((true, d1) :: rest) s =
      { perf_hash_table :=
          Function.update s.perf_hash_table (K.hash_min (K.jhash name))
            (bump_all (d1 :: rest.map Prod.snd) (new_entry name)
              :: s.perf_hash_table (K.hash_min (K.jhash name)))
        tracing_enabled := true
        trace_count := s.trace_count + (rest.length + 1) } := by
  have hstep := update_new K name d1 s hen (by omega) hnone
  show record_all K name rest (update_perf_stats K true name d1 s) = _
  rw [hstep]
  have hnm : (bump d1 (new_entry name)).function_name = name :=
    List.take_of_length_le hlen
  rw [record_all_head K name rest _ (bump d1 (new_entry name))
    (s.perf_hash_table (K.hash_min (K.jhash name))) rfl (by simp only []; omega) (by simp) hnm]
  have hadd : s.trace_count + 1 + rest.length = s.trace_count + (rest.length + 1) := by omega
  simp only [Function.update_idem, hadd]
  rfl

/-- C25 (as amended). For every name of at most 63 bytes and every two
sequences of calls of update_perf_stats for it whose durations are
permutations of each other (length within the remaining budget, tracing
enabled), recording either sequence from the same state leaves the same state,
hence the same call_count, total_time_ns, min_time_ns and max_time_ns for the
name and the same trace_count, provided that, when the name has no entry yet,
the allocation of the entry succeeds at the first call of each sequence. -/
theorem order_independent (K : KernelHash) (name : List Nat)
    (calls1 calls2 : List (Bool × Nat)) (s : State)
    (hlen : name.length ≤ 63)
    (hperm : (calls1.map Prod.snd).Perm (calls2.map Prod.snd))
    (hen : s.tracing_enabled = true)
    (hbud : s.trace_count + calls1.length ≤ MAX_TRACE_ENTRIES)
    (ha1 : found_entry K s name = none → ∀ c ∈ calls1.head?, c.1 = true)
    (ha2 : found_entry K s name = none → ∀ c ∈ calls2.head?, c.1 = true) :
    record_all K name calls1 s = record_all K name calls2 s
      ∧ (record_all K name calls1 s).trace_count = (record_all K name calls2 s).trace_count
      ∧ (found_entry K (record_all K name calls1 s) name).map
            (fun e => (e.call_count, e.total_time_ns, e.min_time_ns, e.max_time_ns))
          = (found_entry K (record_all K name calls2 s) name).map
            (fun e => (e.call_count, e.total_time_ns, e.min_time_ns, e.max_time_ns)) := by
  have hleq : calls1.length = calls2.length := by
    have := hperm.length_eq
    simpa using this
  have hmain : record_all K name calls1 s = record_all K name calls2 s := by
    cases hc : chain_find name (s.perf_hash_table (K.hash_min (K.jhash name))) with
    | some i =>
      rw [record_all_found K name calls1 s i hen hbud hc,
        record_all_found K name calls2 s i hen (hleq ▸ hbud) hc, hleq]
      have hfun : bump_all (calls1.map Prod.snd) = bump_all (calls2.map Prod.snd) :=
        funext (fun e => bump_all_perm _ _ hperm e)
      rw [hfun]
    | none =>
      have hnone : found_entry K s name = none := (chain_find_find _ _).mp hc
      cases calls1 with
      | nil =>
        cases calls2 with
        | nil => rfl
        | cons c2 r2 => simp at hleq
      | cons c1 r1 =>
        cases calls2 with
        | nil => simp at hleq
        | cons c2 r2 =>
          obtain ⟨o1, d1⟩ := c1
          obtain ⟨o2, d2⟩ := c2
          have h1 : o1 = true := ha1 hnone (o1, d1) rfl
          have h2 : o2 = true := ha2 hnone (o2, d2) rfl
          subst h1
          subst h2
          have hl1 : (((true, d1) :: r1 : List (Bool × Nat))).length = r1.length + 1 := rfl
          have hl2 : r1.length = r2.length := by
            simpa using hleq
          rw [hl1] at hbud
          rw [record_all_created K name d1 r1 s hlen hc hen hbud,
            record_all_created K name d2 r2 s hlen hc hen (hl2 ▸ hbud), hl2]
          have hb : bump_all (d1 :: r1.map Prod.snd) (new_entry name)
              = bump_all (d2 :: r2.map Prod.snd) (new_entry name) :=
            bump_all_perm _ _ hperm _
          rw [hb]
  rw [hmain]
  exact ⟨rfl, rfl, rfl⟩

/-- Witness of C25 as amended: the durations 1, 2, 3 and 3, 1, 2 recorded for
"foo" from the initial state, the allocator failing after the first call. -/
theorem order_independent_witness :
    record_all sample_hash name_foo [(true, 1), (false, 2), (false, 3)] init_state
        = record_all sample_hash name_foo [(true, 3), (false, 1), (false, 2)] init_state
      ∧ (record_all sample_hash name_foo [(true, 1), (false, 2), (false, 3)]
            init_state).trace_count
          = (record_all sample_hash name_foo [(true, 3), (false, 1), (false, 2)]
              init_state).trace_count
      ∧ (found_entry sample_hash
            (record_all sample_hash name_foo [(true, 1), (false, 2), (false, 3)] init_state)
            name_foo).map
            (fun e => (e.call_count, e.total_time_ns, e.min_time_ns, e.max_time_ns))
          = (found_entry sample_hash
              (record_all sample_hash name_foo [(true, 3), (false, 1), (false, 2)] init_state)
              name_foo).map
            (fun e => (e.call_count, e.total_time_ns, e.min_time_ns, e.max_time_ns)) :=
  order_independent sample_hash name_foo [(true, 1), (false, 2), (false, 3)]
    [(true, 3), (false, 1), (false, 2)] init_state (by decide) (by decide) rfl (by decide)
    (fun _ c hc => by
      have : c = (true, 1) := (Option.some.inj hc).symm
      rw [this])
    (fun _ c hc => by
      have : c = (true, 3) := (Option.some.inj hc).symm
      rw [this])

/-- C25 as stated fails when an allocation fails: the durations 1, 2 and 2, 1
are recorded for "foo" from the initial state, kmalloc returning NULL at the
first call of each run and succeeding at the second; the first run leaves
total_time_ns 2 and the second leaves 1. -/
theorem order_matters_alloc_failure :
    ([1, 2] : List Nat).Perm [2, 1]
      ∧ (entries_named (record_all sample_hash name_foo [(false, 1), (true, 2)] init_state)
          name_foo).map (fun e => e.total_time_ns) = [2]
      ∧ (entries_named (record_all sample_hash name_foo [(false, 2), (true, 1)] init_state)
          name_foo).map (fun e => e.total_time_ns) = [1] := by
  have hnm : ∀ d, (bump d (new_entry name_foo)).function_name = name_foo := fun _ => rfl
  have hrun : ∀ d1 d2, record_all sample_hash name_foo [(false, d1), (true, d2)] init_state
      = update_perf_stats sample_hash true name_foo d2
          (update_perf_stats sample_hash false name_foo d1 init_state) := fun _ _ => rfl
  have hent : ∀ d, entries_named (update_perf_stats sample_hash true name_foo d init_state)
      name_foo = [bump d (new_entry name_foo)] := by
    intro d
    rw [first_call_recorded]
    exact entries_named_pushed init_state name_foo _ _ true 1 (entries_named_init name_foo)
      (hnm d)
  refine ⟨by decide, ?_, ?_⟩
  · rw [hrun, first_call_alloc_failed, hent]
    decide
  · rw [hrun, first_call_alloc_failed, hent]
    decide

/-! ## Commands are recognised by how the write starts -/

/-- C26. Commands are matched by their first bytes. For every write of fewer
than 16 bytes: when its first byte is '1' it sets tracing_enabled to true and
when its first byte is '0' it sets it to false, whatever follows, and in both
cases the table and trace_count stay as they were (nothing is cleared); when it
begins with "clear" it empties the table and resets trace_count and leaves
tracing_enabled as it was. Each such write returns its byte count. -/
theorem commands_matched_by_start (content : List Nat) (s : State)
    (hlen : content.length < 16) :
    (content.head? = some 49 →
        perf_proc_write content content.length s
          = ((content.length : Int),
              { perf_hash_table := s.perf_hash_table, tracing_enabled := true,
                trace_count := s.trace_count }))
      ∧ (content.head? = some 48 →
          perf_proc_write content content.length s
            = ((content.length : Int),
                { perf_hash_table := s.perf_hash_table, tracing_enabled := false,
                  trace_count := s.trace_count }))
      ∧ (content.take 5 = cmd_clear →
          perf_proc_write content content.length s
            = ((content.length : Int),
                { perf_hash_table := fun _ => [], tracing_enabled := s.tracing_enabled,
                  trace_count := 0 })) := by
  have hd := write_dispatch content content.length s hlen (Nat.le_refl _)
  rw [List.take_length] at hd
  refine ⟨?_, ?_, ?_⟩
  · intro h
    rw [hd]
    simp [h]
  · intro h
    rw [hd]
    simp [h]
  · intro h
    have hhead : content.head? = some 99 := by
      cases content with
      | nil => simp [cmd_clear] at h
      | cons a t =>
        simp only [cmd_clear, List.take_succ_cons, List.cons.injEq] at h
        simp [h.1]
    rw [hd]
    simp [h, hhead]

/-- Witness of C26: the writes of "10", of "0clear" and of "clearly". -/
theorem commands_matched_by_start_witness :
    perf_proc_write [49, 48] 2 disabled_state
        = (2, { perf_hash_table := disabled_state.perf_hash_table, tracing_enabled := true,
                trace_count := disabled_state.trace_count })
      ∧ perf_proc_write [48, 99, 108, 101, 97, 114] 6 init_state
        = (6, { perf_hash_table := init_state.perf_hash_table, tracing_enabled := false,
                trace_count := init_state.trace_count })
      ∧ perf_proc_write [99, 108, 101, 97, 114, 108, 121] 7 disabled_state
        = (7, { perf_hash_table := fun _ => [],
                tracing_enabled := disabled_state.tracing_enabled, trace_count := 0 }) :=
  ⟨(commands_matched_by_start [49, 48] disabled_state (by decide)).1 rfl,
   (commands_matched_by_start [48, 99, 108, 101, 97, 114] init_state (by decide)).2.1 rfl,
   (commands_matched_by_start [99, 108, 101, 97, 114, 108, 121] disabled_state
      (by decide)).2.2 rfl⟩

/-- C27. A write of 16 or more bytes returns -EINVAL and leaves the state
unchanged, whatever it holds, so also when it begins with "1", "0" or "clear".
For every write of fewer than 16 readable bytes the NUL byte is stored at index
count of the command buffer, below its size 16, and the write returns its byte
count. -/
theorem oversized_write_rejected :
    (∀ (buffer : List Nat) (count : Nat) (s : State), 16 ≤ count →
        perf_proc_write buffer count s = (-EINVAL, s))
      ∧ (∀ s : State,
          perf_proc_write (cmd_clear ++ List.replicate 11 32) 16 s = (-EINVAL, s)
            ∧ perf_proc_write (cmd_enable ++ List.replicate 15 32) 16 s = (-EINVAL, s)
            ∧ perf_proc_write (cmd_disable ++ List.replicate 15 32) 16 s = (-EINVAL, s))
      ∧ (∀ (buffer : List Nat) (count : Nat) (s : State),
          count < 16 → count ≤ buffer.length →
            (cmd_after_copy buffer count).length = count + 1
              ∧ (cmd_after_copy buffer count).length ≤ CMD_SIZE
              ∧ (cmd_after_copy buffer count)[count]? = some 0
              ∧ (perf_proc_write buffer count s).1 = (count : Int)) := by
  have hbig : ∀ (buffer : List Nat) (count : Nat) (s : State), 16 ≤ count →
      perf_proc_write buffer count s = (-EINVAL, s) := by
    intro buffer count s h
    unfold perf_proc_write
    have h1 : count ≥ 16 := h
    simp only [h1, if_true]
  refine ⟨hbig, ?_, ?_⟩
  · intro s
    exact ⟨hbig _ 16 s (Nat.le_refl _), hbig _ 16 s (Nat.le_refl _), hbig _ 16 s (Nat.le_refl _)⟩
  · intro buffer count s hcount hread
    have hl : (buffer.take count).length = count := by
      rw [List.length_take]
      omega
    refine ⟨?_, ?_, ?_, ?_⟩
    · unfold cmd_after_copy
      rw [List.length_append, hl]
      rfl
    · unfold cmd_after_copy CMD_SIZE
      rw [List.length_append, hl]
      show count + 1 ≤ 16
      omega
    · unfold cmd_after_copy
      rw [List.getElem?_append_right (by omega), hl, Nat.sub_self]
      rfl
    · rw [write_dispatch buffer count s hcount hread]
      split_ifs <;> rfl

/-! ## The minimum of the report -/

/-- The stored minimum of an entry created by the duration `d1` and updated by
the durations `ds` is the minimum of all of them. -/
theorem stored_min_is_min (name : List Nat) (d1 : Nat) (ds : List Nat)
    (hd1 : d1 ≤ ULONG_MAX) :
    (bump_all ds (bump d1 (new_entry name))).min_time_ns ∈ d1 :: ds
      ∧ ∀ d ∈ d1 :: ds, (bump_all ds (bump d1 (new_entry name))).min_time_ns ≤ d := by
  obtain ⟨h1, h2, h3⟩ := bump_all_min ds (bump d1 (new_entry name))
  have hm : (bump d1 (new_entry name)).min_time_ns = d1 := by
    rw [first_record name d1 hd1]
  rw [hm] at h1 h3
  refine ⟨?_, ?_⟩
  · rcases h3 with h3 | h3
    · rw [h3]; exact List.mem_cons_self _ _
    · exact List.mem_cons_of_mem _ h3
  · intro d hdm
    rcases List.mem_cons.mp hdm with hdm | hdm
    · subst hdm; exact h1
    · exact h2 d hdm

/-- C28. The minimum of a report row is 0 when the stored min_time_ns of the
entry equals ULONG_MAX and the stored min_time_ns otherwise. Hence, for the
entry of a name of at most 63 bytes that was created and updated by the
durations d_1..d_N (tracing enabled, within the budget): when at least one
duration is smaller than ULONG_MAX the minimum shown is the minimum of the
durations, and when every duration is ULONG_MAX the minimum shown is 0. -/
theorem shown_minimum (K : KernelHash) (name : List Nat) (d1 : Nat)
    (rest : List (Bool × Nat)) (s : State)
    (hlen : name.length ≤ 63)
    (hfresh : entries_named s name = [])
    (hen : s.tracing_enabled = true)
    (hbud : s.trace_count + (rest.length + 1) ≤ MAX_TRACE_ENTRIES)
    (hd : ∀ d ∈ d1 :: rest.map Prod.snd, d ≤ ULONG_MAX) :
    (∀ e : perf_trace_entry,
        (e.min_time_ns = ULONG_MAX → (show_entry e).min = 0)
          ∧ (e.min_time_ns ≠ ULONG_MAX → (show_entry e).min = e.min_time_ns))
      ∧ ∃ e, entries_named (record_all K name ((true, d1) :: rest) s) name = [e]
          ∧ ((∃ d ∈ d1 :: rest.map Prod.snd, d < ULONG_MAX) →
              (show_entry e).min ∈ d1 :: rest.map Prod.snd
                ∧ ∀ d ∈ d1 :: rest.map Prod.snd, (show_entry e).min ≤ d)
          ∧ ((∀ d ∈ d1 :: rest.map Prod.snd, d = ULONG_MAX) →
              e.min_time_ns = ULONG_MAX ∧ (show_entry e).min = 0) := by
  have hshow : ∀ e : perf_trace_entry,
      (e.min_time_ns = ULONG_MAX → (show_entry e).min = 0)
        ∧ (e.min_time_ns ≠ ULONG_MAX → (show_entry e).min = e.min_time_ns) := by
    intro e
    refine ⟨?_, ?_⟩
    · intro h
      simp [show_entry, h]
    · intro h
      simp [show_entry, h]
  have hlen2 : name.length ≤ MAX_FUNCTION_NAME - 1 := hlen
  have hd1 : d1 ≤ ULONG_MAX := hd d1 (List.mem_cons_self _ _)
  obtain ⟨hin, hle⟩ := stored_min_is_min name d1 (rest.map Prod.snd) hd1
  refine ⟨hshow, bump_all (rest.map Prod.snd) (bump d1 (new_entry name)), ?_, ?_, ?_⟩
  · rw [record_all_new K name d1 rest s hlen2 hfresh hen hbud]
    refine entries_named_pushed s name _ _ _ _ hfresh ?_
    rw [bump_all_name]
    exact List.take_of_length_le hlen2
  · rintro ⟨d, hdm, hdlt⟩
    have hne : (bump_all (rest.map Prod.snd) (bump d1 (new_entry name))).min_time_ns
        ≠ ULONG_MAX := by
      have := hle d hdm
      omega
    rw [(hshow _).2 hne]
    exact ⟨hin, hle⟩
  · intro hall
    have hmx : (bump_all (rest.map Prod.snd) (bump d1 (new_entry name))).min_time_ns
        = ULONG_MAX := hall _ hin
    exact ⟨hmx, (hshow _).1 hmx⟩

/-- Witness of C28: "foo" recorded from the initial state with the durations 10
and ULONG_MAX is shown with the minimum 10. -/
theorem shown_minimum_witness :
    ∃ e, entries_named
          (record_all sample_hash name_foo [(true, 10), (false, ULONG_MAX)] init_state)
          name_foo = [e]
      ∧ (show_entry e).min ∈ 10 :: [ULONG_MAX]
      ∧ ∀ d ∈ 10 :: [ULONG_MAX], (show_entry e).min ≤ d :=
  have h := (shown_minimum sample_hash name_foo 10 [(false, ULONG_MAX)] init_state
    (by decide) (entries_named_init name_foo) rfl (by decide)
    (by
      intro d hd
      simp only [List.map_cons, List.map_nil, List.mem_cons, List.mem_nil_iff, or_false] at hd
      rcases hd with hd | hd
      · rw [hd]; decide
      · rw [hd])).2
  match h with
  | ⟨e, he, hsome, _⟩ =>
    ⟨e, he, hsome ⟨10, List.mem_cons_self _ _, by decide⟩⟩

/-! ## Direct calls with a name longer than the buffer -/

theorem names_short_reachable (K : KernelHash) (s : State) (h : Reachable K s) :
    ∀ e ∈ all_entries s.perf_hash_table, e.function_name.length ≤ MAX_FUNCTION_NAME - 1 := by
  induction h with
  | init =>
    intro e he
    rw [show init_state.perf_hash_table = fun _ => [] from rfl, all_entries_empty] at he
    cases he
  | step s ev _ ih =>
    cases ev with
    | call ok_ctx ok_entry symbol t0 t1 =>
      rcases step_call_cases K s ok_ctx ok_entry symbol t0 t1 with h | h
      · rw [h]; exact ih
      · rw [h]
        rcases update_entries K ok_entry (symbol.take (MAX_FUNCTION_NAME - 1))
          (to_ulong (t1 - t0)) s with hsame | ⟨_, _, hmem⟩
        · rw [hsame]; exact ih
        · intro x hx
          rcases hmem x hx with h1 | h1 | ⟨e0, he0, _, hxe⟩
          · exact ih x h1
          · rw [h1]
            show ((symbol.take (MAX_FUNCTION_NAME - 1)).take (MAX_FUNCTION_NAME - 1)).length ≤ _
            exact List.length_take_le _ _
          · rw [hxe]
            exact ih e0 he0
    | write buffer count =>
      show ∀ e ∈ all_entries (perf_proc_write buffer count s).2.perf_hash_table,
        e.function_name.length ≤ MAX_FUNCTION_NAME - 1
      rcases write_table_cases buffer count s with h | ⟨_, _, _, h⟩
      · rw [h]; exact ih
      · rw [h]
        intro e he
        rw [all_entries_empty] at he
        cases he

/-- C29 (as amended). In every reachable state, a direct call of
update_perf_stats with a name longer than 63 bytes matches no entry, because
every stored name has at most 63 bytes while the lookup compares the full
name. With tracing enabled, budget for two events and kmalloc succeeding, each
of two such calls with the same name puts a new entry at the head of the chain:
the two entries have the same stored name, the first 63 bytes of the name, and
call_count 1 each, and trace_count has grown by 2. -/
theorem long_name_never_matches (K : KernelHash) (s : State) (name : List Nat) (d1 d2 : Nat)
    (hreach : Reachable K s) (hlong : 63 < name.length)
    (hen : s.tracing_enabled = true) (hbud : s.trace_count + 2 ≤ MAX_TRACE_ENTRIES) :
    found_entry K s name = none
      ∧ found_entry K (update_perf_stats K true name d1 s) name = none
      ∧ (update_perf_stats K true name d2 (update_perf_stats K true name d1 s)).perf_hash_table
            (K.hash_min (K.jhash name))
          = bump d2 (new_entry name) :: bump d1 (new_entry name)
              :: s.perf_hash_table (K.hash_min (K.jhash name))
      ∧ (bump d1 (new_entry name)).function_name = name.take 63
      ∧ (bump d2 (new_entry name)).function_name = name.take 63
      ∧ (bump d1 (new_entry name)).call_count = 1
      ∧ (bump d2 (new_entry name)).call_count = 1
      ∧ (update_perf_stats K true name d2 (update_perf_stats K true name d1 s)).trace_count
          = s.trace_count + 2 := by
  have hshort := names_short_reachable K s hreach
  have hc0 : chain_find name (s.perf_hash_table (K.hash_min (K.jhash name))) = none := by
    rw [chain_find_none]
    intro e he hn
    have := hshort e ((mem_all_entries _ e).mpr ⟨_, he⟩)
    rw [hn] at this
    unfold MAX_FUNCTION_NAME at this
    omega
  have hs1 := update_new K name d1 s hen (by omega) hc0
  have hhead : (bump d1 (new_entry name)).function_name ≠ name := by
    intro hn
    have hl : (bump d1 (new_entry name)).function_name.length ≤ MAX_FUNCTION_NAME - 1 :=
      List.length_take_le _ _
    rw [hn] at hl
    unfold MAX_FUNCTION_NAME at hl
    omega
  have hc1 : chain_find name
      ((update_perf_stats K true name d1 s).perf_hash_table (K.hash_min (K.jhash name)))
      = none := by
    rw [hs1]
    simp only [Function.update_same]
    rw [chain_find_none]
    intro e he
    rcases List.mem_cons.mp he with h | h
    · rw [h]; exact hhead
    · exact (chain_find_none _ _).mp hc0 e h
  have hs2 := update_new K name d2 (update_perf_stats K true name d1 s)
    (by rw [hs1]) (by rw [hs1]; show s.trace_count + 1 < MAX_TRACE_ENTRIES; omega) hc1
  have hcount : ∀ d, (bump d (new_entry name)).call_count = 1 := by
    intro d
    show wrap64 (0 + 1) = 1
    unfold wrap64
    exact Nat.mod_eq_of_lt (by omega)
  refine ⟨(chain_find_find _ _).mp hc0, (chain_find_find _ _).mp hc1, ?_, rfl, rfl,
    hcount d1, hcount d2, ?_⟩
  · rw [hs2]
    simp only [Function.update_same]
    rw [hs1]
    simp only [Function.update_same]
  · rw [hs2, hs1]

/-- Witness of C29 as amended: two direct calls with the name of 64 letters a
in the initial state. -/
theorem long_name_never_matches_witness :
    found_entry sample_hash init_state long_name = none
      ∧ found_entry sample_hash (update_perf_stats sample_hash true long_name 5 init_state)
          long_name = none
      ∧ (update_perf_stats sample_hash true long_name 7
            (update_perf_stats sample_hash true long_name 5 init_state)).perf_hash_table
            (sample_hash.hash_min (sample_hash.jhash long_name))
          = bump 7 (new_entry long_name) :: bump 5 (new_entry long_name)
              :: init_state.perf_hash_table (sample_hash.hash_min (sample_hash.jhash long_name))
      ∧ (bump 5 (new_entry long_name)).function_name = long_name.take 63
      ∧ (bump 7 (new_entry long_name)).function_name = long_name.take 63
      ∧ (bump 5 (new_entry long_name)).call_count = 1
      ∧ (bump 7 (new_entry long_name)).call_count = 1
      ∧ (update_perf_stats sample_hash true long_name 7
            (update_perf_stats sample_hash true long_name 5 init_state)).trace_count
          = init_state.trace_count + 2 :=
  long_name_never_matches sample_hash init_state long_name 5 7 Reachable.init
    (by rw [long_name, List.length_replicate]; decide) rfl (by decide)

/-- C29 as stated fails when kmalloc fails: the direct call with the name of
64 letters a in the initial state, tracing enabled and the budget untouched,
adds no entry. -/
theorem long_name_alloc_failure :
    init_state.tracing_enabled = true
      ∧ init_state.trace_count < MAX_TRACE_ENTRIES
      ∧ all_entries (update_perf_stats sample_hash false long_name 10 init_state).perf_hash_table
          = [] := by
  refine ⟨rfl, by decide, ?_⟩
  rw [first_call_alloc_failed]
  exact all_entries_empty

end PerfTracer

/-! ## The fragmentation index -/

namespace BuddyAllocator

/-- The loop over the orders, while nothing overflows: the total is the exact
number of free pages, and a positive total is at least the size of a block of
the largest order found. -/
theorem scan_spec (l : List Nat) (order : Nat) (st : scan_state)
    (hsum : st.total_free + exact_free order l ≤ ULONG_MAX)
    (hL : st.largest_block ≤ order)
    (hinv : st.total_free > 0 → 2 ^ st.largest_block ≤ st.total_free) :
    (scan order l st).total_free = st.total_free + exact_free order l
      ∧ ((scan order l st).total_free > 0 →
          2 ^ (scan order l st).largest_block ≤ (scan order l st).total_free) := by
  induction l generalizing order st with
  | nil =>
    exact ⟨rfl, hinv⟩
  | cons c rest ih =>
    have hex : exact_free order (c :: rest) = c * 2 ^ order + exact_free (order + 1) rest := rfl
    rw [hex] at hsum
    unfold ULONG_MAX at hsum
    have h1 : wrap64 (c * 2 ^ order) = c * 2 ^ order := by
      unfold wrap64
      exact Nat.mod_eq_of_lt (by omega)
    have h2 : (scan_order order c st).total_free = st.total_free + c * 2 ^ order := by
      show wrap64 (st.total_free + wrap64 (c * 2 ^ order)) = _
      rw [h1]
      unfold wrap64
      exact Nat.mod_eq_of_lt (by omega)
    have h3 : (scan_order order c st).largest_block
        = if c > 0 ∧ order > st.largest_block then order else st.largest_block := rfl
    have hL2 : (scan_order order c st).largest_block ≤ order + 1 := by
      rw [h3]
      split <;> omega
    have hinv2 : (scan_order order c st).total_free > 0 →
        2 ^ (scan_order order c st).largest_block ≤ (scan_order order c st).total_free := by
      intro hpos
      rw [h2] at hpos ⊢
      rw [h3]
      by_cases hc : c > 0
      · have hblk : 2 ^ order ≤ c * 2 ^ order := Nat.le_mul_of_pos_left _ hc
        by_cases ho : order > st.largest_block
        · simp only [hc, ho, and_self, if_true]
          omega
        · have heq : st.largest_block = order := by omega
          simp only [hc, ho, and_false, if_false]
          rw [heq]
          omega
      · have hc0 : c = 0 := by omega
        subst hc0
        simp only [Nat.lt_irrefl, false_and, if_false, Nat.zero_mul, Nat.add_zero] at hpos ⊢
        exact hinv hpos
    have hsum2 : (scan_order order c st).total_free + exact_free (order + 1) rest
        ≤ ULONG_MAX := by
      rw [h2]
      unfold ULONG_MAX
      omega
    obtain ⟨ha, hb⟩ := ih (order + 1) (scan_order order c st) hsum2 hL2 hinv2
    refine ⟨?_, hb⟩
    show (scan (order + 1) rest (scan_order order c st)).total_free = _
    rw [ha, h2, hex]
    omega

/-- C30. For every zone whose per-order counts are small enough that the total
of free pages fits in an unsigned long and that 100 * (1 << largest_block) does
not overflow, and whose computed total of free pages is positive: the size
1 << largest_block of the largest free block is at most total_free, so
(100 * (1 << largest_block)) / total_free is at most 100 and the fragmentation
index 100 - (100 * (1 << largest_block)) / total_free is computed without
underflow and lies between 0 and 100. -/
theorem fragmentation_in_range (nr_free : List Nat)
    (hno : exact_free 0 nr_free ≤ ULONG_MAX)
    (hmul : 100 * 2 ^ (analyze_zone nr_free).largest_block ≤ ULONG_MAX)
    (hpos : (analyze_zone nr_free).total_free > 0) :
    (analyze_zone nr_free).total_free = exact_free 0 nr_free
      ∧ (analyze_zone nr_free).largest_pages = 2 ^ (analyze_zone nr_free).largest_block
      ∧ 2 ^ (analyze_zone nr_free).largest_block ≤ (analyze_zone nr_free).total_free
      ∧ 100 * 2 ^ (analyze_zone nr_free).largest_block / (analyze_zone nr_free).total_free
          ≤ 100
      ∧ ∃ f, (analyze_zone nr_free).fragmentation = some f
          ∧ f = 100 - 100 * 2 ^ (analyze_zone nr_free).largest_block
                  / (analyze_zone nr_free).total_free
          ∧ f ≤ 100 := by
  obtain ⟨ha, hb⟩ := scan_spec nr_free 0 { total_free := 0, largest_block := 0 }
    (by simpa using hno) (Nat.le_refl _) (fun h => absurd h (Nat.lt_irrefl 0))
  have htot : (analyze_zone nr_free).total_free
      = (scan 0 nr_free { total_free := 0, largest_block := 0 }).total_free := rfl
  have hlrg : (analyze_zone nr_free).largest_block
      = (scan 0 nr_free { total_free := 0, largest_block := 0 }).largest_block := rfl
  have hle : 2 ^ (analyze_zone nr_free).largest_block ≤ (analyze_zone nr_free).total_free := by
    rw [htot, hlrg]
    exact hb (htot ▸ hpos)
  have hq : 100 * 2 ^ (analyze_zone nr_free).largest_block / (analyze_zone nr_free).total_free
      ≤ 100 := by
    apply Nat.div_le_of_le_mul
    rw [Nat.mul_comm (analyze_zone nr_free).total_free 100]
    exact Nat.mul_le_mul_left 100 hle
  have hw1 : wrap64 (2 ^ (analyze_zone nr_free).largest_block)
      = 2 ^ (analyze_zone nr_free).largest_block := by
    unfold wrap64
    unfold ULONG_MAX at hmul
    exact Nat.mod_eq_of_lt (by omega)
  have hw2 : wrap64 (100 * 2 ^ (analyze_zone nr_free).largest_block)
      = 100 * 2 ^ (analyze_zone nr_free).largest_block := by
    unfold wrap64
    unfold ULONG_MAX at hmul
    exact Nat.mod_eq_of_lt (by omega)
  refine ⟨?_, hw1, hle, hq, ?_⟩
  · rw [htot, ha]
    simp
  · refine ⟨100 - 100 * 2 ^ (analyze_zone nr_free).largest_block
        / (analyze_zone nr_free).total_free, ?_, rfl, Nat.sub_le _ _⟩
    have hfrag : (analyze_zone nr_free).fragmentation
        = if (analyze_zone nr_free).total_free > 0 then
            some (usub 100 (wrap64 (100 * wrap64 (2 ^ (analyze_zone nr_free).largest_block))
              / (analyze_zone nr_free).total_free))
          else none := rfl
    have key : ∀ q : Nat, q ≤ 100 → usub 100 q = 100 - q := by
      intro q hq100
      unfold usub
      omega
    rw [hfrag, if_pos hpos, hw1, hw2, key _ hq]

/-- Witness of C30: a zone with 3 free pages, one free block of order 2 and two
of order 4 has 39 free pages, a largest block of 16 pages and the index 59. -/
theorem fragmentation_in_range_witness :
    (analyze_zone sample_zone).total_free = exact_free 0 sample_zone
      ∧ (analyze_zone sample_zone).largest_pages = 2 ^ (analyze_zone sample_zone).largest_block
      ∧ 2 ^ (analyze_zone sample_zone).largest_block ≤ (analyze_zone sample_zone).total_free
      ∧ 100 * 2 ^ (analyze_zone sample_zone).largest_block
          / (analyze_zone sample_zone).total_free ≤ 100
      ∧ ∃ f, (analyze_zone sample_zone).fragmentation = some f
          ∧ f = 100 - 100 * 2 ^ (analyze_zone sample_zone).largest_block
                  / (analyze_zone sample_zone).total_free
          ∧ f ≤ 100 :=
  fragmentation_in_range sample_zone (by decide) (by decide) (by decide)

end BuddyAllocator
